import Mathlib

/-!
Verification of the snapshot canonicalizer and structural diff engine of
`mcp-server-diff` (files `src/probe.ts` and `src/runner.ts`).

The development shallowly embeds the JSON-compatible value domain and the
pure functions of the canonicalizer (`normalizeProbeResult`, `getSortKey`),
the diff engine (`findJsonDifferences`, `compareArrays`, `getItemKey`,
`formatValue`, `generateJsonDiff`, `generateSimpleTextDiff`), the snapshot
serializer (`probeResultToFiles`), the probe orchestration skeleton
(`probeServer`) and the per-configuration result/report assembly
(`runSingleConfigTest`, `generateReport`).

Modelling conventions:
* JavaScript numbers are modelled as integers (`Int`); fractional and
  exponent numerals are outside the model.
* JavaScript strings are modelled as Lean `String` (Unicode scalar values
  rather than UTF-16 code units); `slice`/`length` count scalars.
* JavaScript objects are modelled as ordered association lists
  `List (String × Json)`.  Real JS objects cannot carry duplicate keys, so
  theorems that depend on key uniqueness carry an explicit no-duplicate
  hypothesis.  The JS-specific numeric-first property enumeration order is
  not modelled; fields are kept in list order.
* `String.prototype.localeCompare` (used by the canonicalizer's array sort)
  is modelled for strings of basic-Latin characters under the default ICU
  root collation: a case-insensitive primary comparison (per-character
  `toLowerCase`, code-point order) with a lowercase-before-uppercase
  tiebreak, which matches Node's default behaviour on ASCII alphanumerics.
* Recursive functions whose JS originals recurse through parsed values or
  map lookups are defined with an explicit fuel parameter (structural on
  the fuel, hence executable by `decide`); a fuel-sufficiency lemma shows
  the published wrapper computes the fixpoint the JS recursion denotes.
* Built-in string helpers (`trim`, `toLowerCase`, `split`, comparison) are
  re-implemented over `List Char` so every definition reduces in the kernel.
-/

/-! ## Character and string primitives -/

/-- The opening-brace character, by code point. -/
def braceL : Char := Char.ofNat 123

/-- The closing-brace character, by code point. -/
def braceR : Char := Char.ofNat 125

/-- JSON whitespace (also the leading characters removed by `String.trim`
in the inputs this model evaluates): space, tab, line feed, carriage return. -/
def jsWs (c : Char) : Bool := c = ' ' ∨ c = '\t' ∨ c = '\n' ∨ c = '\r'

/-- Characters that can begin a compact-serialized JSON value: not
whitespace and not a closing bracket or brace. -/
def goodHead (c : Char) : Bool := !jsWs c && !(c = ']') && !(c = braceR)

/-- ASCII lower-casing of one character, modelling `toLowerCase` on the
basic-Latin range. -/
def chLower (c : Char) : Char :=
  if 'A' ≤ c ∧ c ≤ 'Z' then Char.ofNat (c.toNat + 32) else c

/-- Ordinal (code-point) strict order on character lists, modelling the
default JS string comparison used by `Array.prototype.sort()` on keys. -/
def charListLt : List Char → List Char → Bool
  | [], [] => false
  | [], _ :: _ => true
  | _ :: _, [] => false
  | x :: xs, y :: ys => if x = y then charListLt xs ys else decide (x < y)

/-- Ordinal non-strict order on strings. -/
def ordLe (a b : String) : Bool := !(charListLt b.data a.data)

/-- Ordinal strict order on strings. -/
def ordLt (a b : String) : Bool := charListLt a.data b.data

/-- Per-character case-folded data of a string (primary collation key). -/
def lowerData (s : String) : List Char := s.data.map chLower

/-- Uppercase marks of a string (tertiary collation key: lowercase sorts
before uppercase under the root collation). -/
def caseMarks (s : String) : List Bool := s.data.map (fun c => c.isUpper)

/-- Lexicographic order on boolean lists (`false` before `true`). -/
def boolListLe : List Bool → List Bool → Bool
  | [], _ => true
  | _ :: _, [] => false
  | x :: xs, y :: ys => if x = y then boolListLe xs ys else x = false

/-- Model of `a.localeCompare(b) <= 0` under the default (root) collation,
restricted to basic-Latin strings: case-insensitive primary comparison,
then lowercase-before-uppercase. -/
def jsLocaleLe (a b : String) : Bool :=
  if lowerData a = lowerData b then boolListLe (caseMarks a) (caseMarks b)
  else charListLt (lowerData a) (lowerData b)

/-- Model of `a.localeCompare(b) < 0`: the strict form of `jsLocaleLe`. -/
def jsLocaleLt (a b : String) : Bool := !(jsLocaleLe b a)

/-- Decimal digits of `n`, least significant first, with explicit fuel
(`fuel ≥ n` suffices). -/
def natToRev : Nat → Nat → List Char
  | 0, _ => []
  | f+1, n => if n = 0 then [] else Char.ofNat (48 + n % 10) :: natToRev f (n / 10)

/-- Decimal numeral of a natural number, as characters. -/
def natDec (n : Nat) : List Char := if n = 0 then ['0'] else (natToRev n n).reverse

/-- Decimal numeral of a natural number, as a string (JS `String(n)`). -/
def natDecStr (n : Nat) : String := String.mk (natDec n)

/-- Decimal numeral of an integer, as characters (JS `String(n)` for an
integral number). -/
def intDec (n : Int) : List Char :=
  if n < 0 then '-' :: natDec n.natAbs else natDec n.toNat

/-- Decimal numeral of an integer, as a string. -/
def intDecStr (n : Int) : String := String.mk (intDec n)

/-- Length of a string in scalar values (model of JS `length`). -/
def slen (s : String) : Nat := s.data.length

/-- First `n` characters of a string (model of JS `slice(0, n)`). -/
def strTake (n : Nat) (s : String) : String := String.mk (s.data.take n)

/-- Model of `String.prototype.trim`: strip `jsWs` from both ends. -/
def strTrim (s : String) : String :=
  String.mk (((s.data.dropWhile jsWs).reverse.dropWhile jsWs).reverse)

/-- Whether a string starts with the given character. -/
def strStartsWith (s : String) (c : Char) : Bool :=
  match s.data with
  | [] => false
  | x :: _ => x = c

/-- Model of JS `split("\n")`. -/
def splitNlAux : List Char → List Char → List String
  | acc, [] => [String.mk acc.reverse]
  | acc, c :: cs =>
    if c = '\n' then String.mk acc.reverse :: splitNlAux [] cs
    else splitNlAux (c :: acc) cs

/-- Split a string at newline characters (model of JS `split("\n")`). -/
def splitNl (s : String) : List String := splitNlAux [] s.data

/-! ## The JSON-compatible value domain -/

/-- A JSON-compatible JavaScript value: `null`, boolean, (integral) number,
string, array, or object.  Objects are ordered association lists; JS
guarantees their keys are distinct. -/
inductive Json where
  | null
  | bool (b : Bool)
  | num (n : Int)
  | str (s : String)
  | arr (elems : List Json)
  | obj (fields : List (String × Json))

mutual
def Json.decEq : (a b : Json) → Decidable (a = b)
  | .null, .null => isTrue rfl
  | .bool a, .bool b =>
    if h : a = b then isTrue (by rw [h]) else isFalse (by simp [h])
  | .num a, .num b =>
    if h : a = b then isTrue (by rw [h]) else isFalse (by simp [h])
  | .str a, .str b =>
    if h : a = b then isTrue (by rw [h]) else isFalse (by simp [h])
  | .arr xs, .arr ys =>
    match Json.decEqList xs ys with
    | isTrue h => isTrue (by rw [h])
    | isFalse h => isFalse (by simp [h])
  | .obj xs, .obj ys =>
    match Json.decEqFields xs ys with
    | isTrue h => isTrue (by rw [h])
    | isFalse h => isFalse (by simp [h])
  | .null, .bool _ => isFalse Json.noConfusion
  | .null, .num _ => isFalse Json.noConfusion
  | .null, .str _ => isFalse Json.noConfusion
  | .null, .arr _ => isFalse Json.noConfusion
  | .null, .obj _ => isFalse Json.noConfusion
  | .bool _, .null => isFalse Json.noConfusion
  | .bool _, .num _ => isFalse Json.noConfusion
  | .bool _, .str _ => isFalse Json.noConfusion
  | .bool _, .arr _ => isFalse Json.noConfusion
  | .bool _, .obj _ => isFalse Json.noConfusion
  | .num _, .null => isFalse Json.noConfusion
  | .num _, .bool _ => isFalse Json.noConfusion
  | .num _, .str _ => isFalse Json.noConfusion
  | .num _, .arr _ => isFalse Json.noConfusion
  | .num _, .obj _ => isFalse Json.noConfusion
  | .str _, .null => isFalse Json.noConfusion
  | .str _, .bool _ => isFalse Json.noConfusion
  | .str _, .num _ => isFalse Json.noConfusion
  | .str _, .arr _ => isFalse Json.noConfusion
  | .str _, .obj _ => isFalse Json.noConfusion
  | .arr _, .null => isFalse Json.noConfusion
  | .arr _, .bool _ => isFalse Json.noConfusion
  | .arr _, .num _ => isFalse Json.noConfusion
  | .arr _, .str _ => isFalse Json.noConfusion
  | .arr _, .obj _ => isFalse Json.noConfusion
  | .obj _, .null => isFalse Json.noConfusion
  | .obj _, .bool _ => isFalse Json.noConfusion
  | .obj _, .num _ => isFalse Json.noConfusion
  | .obj _, .str _ => isFalse Json.noConfusion
  | .obj _, .arr _ => isFalse Json.noConfusion
def Json.decEqList : (xs ys : List Json) → Decidable (xs = ys)
  | [], [] => isTrue rfl
  | [], _ :: _ => isFalse List.noConfusion
  | _ :: _, [] => isFalse List.noConfusion
  | x :: xs, y :: ys =>
    match Json.decEq x y with
    | isFalse h => isFalse (by simp [h])
    | isTrue h1 =>
      match Json.decEqList xs ys with
      | isTrue h2 => isTrue (by rw [h1, h2])
      | isFalse h2 => isFalse (by simp [h2])
def Json.decEqFields : (xs ys : List (String × Json)) → Decidable (xs = ys)
  | [], [] => isTrue rfl
  | [], _ :: _ => isFalse List.noConfusion
  | _ :: _, [] => isFalse List.noConfusion
  | (k1, v1) :: xs, (k2, v2) :: ys =>
    if hk : k1 = k2 then
      match Json.decEq v1 v2 with
      | isFalse h => isFalse (by simp [h])
      | isTrue h1 =>
        match Json.decEqFields xs ys with
        | isTrue h2 => isTrue (by rw [hk, h1, h2])
        | isFalse h2 => isFalse (by simp [h2])
    else isFalse (by simp [hk])
end

instance : DecidableEq Json := Json.decEq

mutual
/-- Textual measure of a value: a lower bound (up to the constants chosen
here) on the length of any JSON text that parses to the value.  Used as the
fuel bound for the recursions that cross a parse boundary. -/
def Json.mea : Json → Nat
  | .null => 1
  | .bool _ => 1
  | .num _ => 1
  | .str s => slen s + 1
  | .arr xs => Json.meaList xs + 1
  | .obj fs => Json.meaFields fs + 1
def Json.meaList : List Json → Nat
  | [] => 0
  | x :: xs => x.mea + Json.meaList xs
def Json.meaFields : List (String × Json) → Nat
  | [] => 0
  | (k, v) :: fs => slen k + v.mea + 1 + Json.meaFields fs
end

/-! ## JSON serialization (model of `JSON.stringify`) -/

/-- Escape one character as inside a JSON string literal, exactly as
`JSON.stringify` does: the two mandatory escapes, the control-character
short forms, `\u00XX` for remaining control characters, all else verbatim. -/
def escapeChar (c : Char) : List Char :=
  if c = '"' then ['\\', '"']
  else if c = '\\' then ['\\', '\\']
  else if c = '\x08' then ['\\', 'b']
  else if c = '\x0c' then ['\\', 'f']
  else if c = '\n' then ['\\', 'n']
  else if c = '\r' then ['\\', 'r']
  else if c = '\t' then ['\\', 't']
  else if c.toNat < 32 then
    ['\\', 'u', '0', '0', Char.ofNat (48 + c.toNat / 16),
      if c.toNat % 16 < 10 then Char.ofNat (48 + c.toNat % 16)
      else Char.ofNat (87 + c.toNat % 16)]
  else [c]

/-- JSON string literal for `s`, including the surrounding quotes. -/
def quoteStr (s : String) : String :=
  String.mk ('"' :: (s.data.flatMap escapeChar) ++ ['"'])

mutual
/-- Compact JSON serialization, modelling `JSON.stringify(v)` (no spacing;
object fields in list order). -/
def jsonToString : Json → String
  | .null => "null"
  | .bool b => if b then "true" else "false"
  | .num n => intDecStr n
  | .str s => quoteStr s
  | .arr xs => "[" ++ jsonToStringList xs ++ "]"
  | .obj fs => String.mk [braceL] ++ jsonToStringFields fs ++ String.mk [braceR]
def jsonToStringList : List Json → String
  | [] => ""
  | [x] => jsonToString x
  | x :: xs => jsonToString x ++ "," ++ jsonToStringList xs
def jsonToStringFields : List (String × Json) → String
  | [] => ""
  | [(k, v)] => quoteStr k ++ ":" ++ jsonToString v
  | (k, v) :: fs => quoteStr k ++ ":" ++ jsonToString v ++ "," ++ jsonToStringFields fs
end

/-- Indentation gap used by `JSON.stringify(v, null, 2)`. -/
def indentOf (n : Nat) : String := String.mk (List.replicate n ' ')

mutual
/-- Pretty JSON serialization with two-space indentation, modelling
`JSON.stringify(v, null, 2)`. -/
def jsonToStringPretty : Nat → Json → String
  | _, .null => "null"
  | _, .bool b => if b then "true" else "false"
  | _, .num n => intDecStr n
  | _, .str s => quoteStr s
  | ind, .arr xs =>
    match xs with
    | [] => "[]"
    | _ => "[\n" ++ jsonToStringPrettyList (ind + 2) xs ++ "\n" ++ indentOf ind ++ "]"
  | ind, .obj fs =>
    match fs with
    | [] => String.mk [braceL, braceR]
    | _ => String.mk [braceL, '\n'] ++ jsonToStringPrettyFields (ind + 2) fs ++ "\n"
        ++ indentOf ind ++ String.mk [braceR]
def jsonToStringPrettyList : Nat → List Json → String
  | _, [] => ""
  | ind, [x] => indentOf ind ++ jsonToStringPretty ind x
  | ind, x :: xs =>
    indentOf ind ++ jsonToStringPretty ind x ++ ",\n" ++ jsonToStringPrettyList ind xs
def jsonToStringPrettyFields : Nat → List (String × Json) → String
  | _, [] => ""
  | ind, [(k, v)] => indentOf ind ++ quoteStr k ++ ": " ++ jsonToStringPretty ind v
  | ind, (k, v) :: fs =>
    indentOf ind ++ quoteStr k ++ ": " ++ jsonToStringPretty ind v ++ ",\n"
      ++ jsonToStringPrettyFields ind fs
end

/-! ## JS collection helpers (`Map`, `Set`) -/

/-- Model of `Map.prototype.set`: update in place if the key exists, else
append (JS maps preserve first-insertion order). -/
def mapSet {α : Type} (m : List (String × α)) (k : String) (v : α) : List (String × α) :=
  if (m.lookup k).isSome then
    m.map (fun p => if p.1 = k then (k, v) else p)
  else m ++ [(k, v)]

/-- Model of `Map.prototype.has`. -/
def mapHas {α : Type} (m : List (String × α)) (k : String) : Bool :=
  (m.lookup k).isSome

/-- Model of building a JS object by successive property assignment
(`o[k] = v`): an existing key keeps its position but takes the new value,
a new key is appended. -/
def objInsert (fs : List (String × Json)) (k : String) (v : Json) : List (String × Json) :=
  if (fs.lookup k).isSome then
    fs.map (fun p => if p.1 = k then (k, v) else p)
  else fs ++ [(k, v)]

/-- Deduplicate a key list keeping first occurrences, modelling
`new Set([...a, ...b])` iteration order. -/
def dedupFirstAux : List String → List String → List String
  | _, [] => []
  | seen, k :: ks =>
    if seen.contains k then dedupFirstAux seen ks
    else k :: dedupFirstAux (k :: seen) ks

/-- Key list of a JS `Set` built from the given list. -/
def dedupFirst (ks : List String) : List String := dedupFirstAux [] ks

/-! ## JSON parsing (model of `JSON.parse`)

The parser is a recursive-descent parser over the character list, with an
explicit fuel parameter so that it is structurally recursive (every mutual
call strictly decreases the fuel).  `jsonParse` supplies fuel
`2 * length + 2`, which the fuel-sufficiency arguments below show is enough
for every input the theorems evaluate.  Faithfulness boundary: numerals
with a fraction or exponent part are rejected (numbers are modelled as
integers), and `\u` escapes denoting UTF-16 surrogate halves are rejected
(Lean characters are Unicode scalars). -/

/-- Decimal digit test. -/
def isDigitCh (c : Char) : Bool := '0' ≤ c ∧ c ≤ '9'

/-- Value of a hexadecimal digit. -/
def hexVal (c : Char) : Option Nat :=
  if '0' ≤ c ∧ c ≤ '9' then some (c.toNat - 48)
  else if 'a' ≤ c ∧ c ≤ 'f' then some (c.toNat - 87)
  else if 'A' ≤ c ∧ c ≤ 'F' then some (c.toNat - 55)
  else none

/-- Parse the body of a JSON string literal (the opening quote already
consumed), returning the decoded characters and the input after the
closing quote. -/
def parseStrChars : List Char → Option (List Char × List Char)
  | [] => none
  | c :: cs =>
    if c = '"' then some ([], cs)
    else if c = '\\' then
      match cs with
      | [] => none
      | e :: cs2 =>
        if e = '"' then (parseStrChars cs2).map (fun p => ('"' :: p.1, p.2))
        else if e = '\\' then (parseStrChars cs2).map (fun p => ('\\' :: p.1, p.2))
        else if e = '/' then (parseStrChars cs2).map (fun p => ('/' :: p.1, p.2))
        else if e = 'b' then (parseStrChars cs2).map (fun p => ('\x08' :: p.1, p.2))
        else if e = 'f' then (parseStrChars cs2).map (fun p => ('\x0c' :: p.1, p.2))
        else if e = 'n' then (parseStrChars cs2).map (fun p => ('\n' :: p.1, p.2))
        else if e = 'r' then (parseStrChars cs2).map (fun p => ('\r' :: p.1, p.2))
        else if e = 't' then (parseStrChars cs2).map (fun p => ('\t' :: p.1, p.2))
        else if e = 'u' then
          match cs2 with
          | h1 :: h2 :: h3 :: h4 :: cs3 =>
            match hexVal h1, hexVal h2, hexVal h3, hexVal h4 with
            | some a, some b, some c3, some d =>
              let n := ((a * 16 + b) * 16 + c3) * 16 + d
              if h : n.isValidChar then
                (parseStrChars cs3).map (fun p => (Char.ofNatAux n h :: p.1, p.2))
              else none
            | _, _, _, _ => none
          | _ => none
        else none
    else if c.toNat < 32 then none
    else (parseStrChars cs).map (fun p => (c :: p.1, p.2))

/-- Numeric value of a run of decimal digits (most significant first). -/
def digitsToNat (ds : List Char) : Nat := ds.foldl (fun a c => 10 * a + (c.toNat - 48)) 0

/-- Shared body of the integral-numeral parse: `neg` records whether a
minus sign was consumed, `cs1` is the input after it.  The digit run must
be nonempty with no redundant leading zero; a following `.`, `e` or `E`
(a fraction or exponent) is rejected — such numerals denote non-integral
numbers, which are outside the model. -/
def parseIntNumCore (neg : Bool) (cs1 : List Char) : Option (Int × List Char) :=
  match cs1.takeWhile isDigitCh with
  | [] => none
  | d0 :: drest =>
    if d0 = '0' ∧ drest ≠ [] then none
    else
      match cs1.dropWhile isDigitCh with
      | '.' :: _ => none
      | 'e' :: _ => none
      | 'E' :: _ => none
      | cs2 =>
        some (if neg then -(Int.ofNat (digitsToNat (d0 :: drest)))
          else Int.ofNat (digitsToNat (d0 :: drest)), cs2)

/-- Parse a JSON integral numeral starting at the current position: an
optional minus sign, then the digit run. -/
def parseIntNum (cs : List Char) : Option (Int × List Char) :=
  match cs with
  | '-' :: cs1 => parseIntNumCore true cs1
  | _ => parseIntNumCore false cs

mutual
/-- Parse one JSON value, with fuel.  Mirrors `JSON.parse` grammar apart
from the documented faithfulness boundary. -/
def parseValueF : Nat → List Char → Option (Json × List Char)
  | 0, _ => none
  | f+1, cs0 =>
    match cs0.dropWhile jsWs with
    | [] => none
    | c :: rest =>
      if c = 'n' then
        match rest with
        | 'u' :: 'l' :: 'l' :: r => some (.null, r)
        | _ => none
      else if c = 't' then
        match rest with
        | 'r' :: 'u' :: 'e' :: r => some (.bool true, r)
        | _ => none
      else if c = 'f' then
        match rest with
        | 'a' :: 'l' :: 's' :: 'e' :: r => some (.bool false, r)
        | _ => none
      else if c = '"' then
        (parseStrChars rest).map (fun p => (.str (String.mk p.1), p.2))
      else if c = '[' then
        match rest.dropWhile jsWs with
        | ']' :: r => some (.arr [], r)
        | _ => (parseItemsF f (rest.dropWhile jsWs)).map (fun p => (.arr p.1, p.2))
      else if c = braceL then
        match rest.dropWhile jsWs with
        | b :: r =>
          if b = braceR then some (.obj [], r)
          else
            (parseFieldsF f (b :: r)).map
              (fun p => (.obj (p.1.foldl (fun acc kv => objInsert acc kv.1 kv.2) []), p.2))
        | [] => none
      else if c = '-' ∨ isDigitCh c then
        (parseIntNum (c :: rest)).map (fun p => (.num p.1, p.2))
      else none
/-- Parse a comma-separated run of array items up to the closing bracket. -/
def parseItemsF : Nat → List Char → Option (List Json × List Char)
  | 0, _ => none
  | f+1, cs =>
    match parseValueF f cs with
    | none => none
    | some (v, r1) =>
      match r1.dropWhile jsWs with
      | ',' :: r2 => (parseItemsF f r2).map (fun p => (v :: p.1, p.2))
      | ']' :: r2 => some ([v], r2)
      | _ => none
/-- Parse a comma-separated run of object members up to the closing brace,
returning them in textual order (deduplication happens at the caller). -/
def parseFieldsF : Nat → List Char → Option (List (String × Json) × List Char)
  | 0, _ => none
  | f+1, cs =>
    match cs.dropWhile jsWs with
    | '"' :: r0 =>
      match parseStrChars r0 with
      | none => none
      | some (kcs, r1) =>
        match r1.dropWhile jsWs with
        | ':' :: r2 =>
          match parseValueF f r2 with
          | none => none
          | some (v, r3) =>
            match r3.dropWhile jsWs with
            | ',' :: r4 =>
              (parseFieldsF f r4).map (fun p => ((String.mk kcs, v) :: p.1, p.2))
            | b :: r4 =>
              if b = braceR then some ([(String.mk kcs, v)], r4) else none
            | [] => none
        | _ => none
    | _ => none
end

/-- Model of `JSON.parse`: parse one value, then require only whitespace
to remain. -/
def jsonParse (s : String) : Option Json :=
  match parseValueF (2 * slen s + 2) s.data with
  | some (j, rest) => if rest.dropWhile jsWs = [] then some j else none
  | none => none

/-! ## The canonicalizer (`normalizeProbeResult`, `getSortKey` of `probe.ts`) -/

/-- Read a field of a record-shaped value when its value is a string
(model of `typeof obj.k === "string" ? obj.k : undefined`). -/
def getStrField (j : Json) (k : String) : Option String :=
  match j with
  | .obj fs =>
    match fs.lookup k with
    | some (.str s) => some s
    | _ => none
  | _ => none

/-- Sort key of an element, as `getSortKey` computes it on values that are
already canonical: same priority chain, but the serialization fallback
does not re-normalize its argument.  `getSortKey` below is the literal
translation of the source; `getSortKey_eq_sortKeyAux` proves the two agree
on canonical values, which is how the source invokes it (the array sort
comparator only ever sees elements that were just normalized). -/
def sortKeyAux : Json → String
  | .null => ""
  | .bool b => if b then "true" else "false"
  | .num n => intDecStr n
  | .str s => s
  | j =>
    match getStrField j "name" with
    | some s => s
    | none =>
      match getStrField j "uri" with
      | some s => s
      | none =>
        match getStrField j "uriTemplate" with
        | some s => s
        | none =>
          match getStrField j "type" with
          | some s => s
          | none =>
            match getStrField j "method" with
            | some s => s
            | none => jsonToString j

/-- Comparator relation of the canonicalizer's array sort:
`getSortKey(a).localeCompare(getSortKey(b)) <= 0`.  A stable sort under
this relation is exactly what `Array.prototype.sort` with the source's
comparator produces. -/
def sortCmp (a b : Json) : Prop := jsLocaleLe (sortKeyAux a) (sortKeyAux b) = true

instance : DecidableRel sortCmp := fun _ _ => inferInstanceAs (Decidable (_ = true))

/-- Comparator relation of the object-key sort (`Object.keys(obj).sort()`,
default ordinal comparison), lifted to fields. -/
def fieldLe (p q : String × Json) : Prop := ordLe p.1 q.1 = true

instance : DecidableRel fieldLe := fun _ _ => inferInstanceAs (Decidable (_ = true))

/-- Fueled model of `normalizeProbeResult`.  The fuel is structural (so the
definition is executable); `normF_eq_of_le` below shows any fuel of at
least `mea j` computes the fixpoint, and the `normalize_*` equations
restate the JS recursion fuel-free.  Arrays: normalize elements, then
stable-sort by sort key.  Objects: sort fields by key (ordinal), then for a
string field literally named `text` whose trimmed value starts with a
bracket or brace, replace it by the re-serialized normalization of its
parse when that parse succeeds; all field values are then normalized. -/
def normF : Nat → Json → Json
  | 0, j => j
  | f+1, j =>
    match j with
    | .arr xs => .arr (List.insertionSort sortCmp (xs.map (normF f)))
    | .obj fs =>
      .obj ((List.insertionSort fieldLe fs).map (fun kv =>
        let value :=
          match kv.2 with
          | .str s =>
            if kv.1 = "text"
                ∧ (strStartsWith (strTrim s) '[' ∨ strStartsWith (strTrim s) braceL) then
              match jsonParse s with
              | some parsed => Json.str (jsonToString (normF f parsed))
              | none => Json.str s
            else Json.str s
          | v => v
        (kv.1, normF f value)))
    | v => v

/-- Model of `normalizeProbeResult` (probe.ts): canonicalize a
JSON-compatible value. -/
def normalizeProbeResult (j : Json) : Json := normF j.mea j

/-- The value a field of a canonical object carries, as a function of the
field's key and original value: the embedded-JSON rule for string-valued
`text` fields, recursive canonicalization otherwise (a string value is its
own canonical form, so the `text` branches return the string directly).
Used to state the object equation of `normalizeProbeResult`. -/
def normalizeFieldValue (k : String) (v : Json) : Json :=
  match v with
  | .str s =>
    if k = "text" ∧ (strStartsWith (strTrim s) '[' ∨ strStartsWith (strTrim s) braceL) then
      match jsonParse s with
      | some parsed => Json.str (jsonToString (normalizeProbeResult parsed))
      | none => Json.str s
    else Json.str s
  | v => normalizeProbeResult v

/-- Model of `getSortKey` (probe.ts): the identity key used to sort array
elements deterministically.  `null`/`undefined` map to the empty string,
non-objects to their `String(...)` form, record-shaped values to the first
string field among `name`, `uri`, `uriTemplate`, `type`, `method`, and
otherwise to the serialization of their normalization. -/
def getSortKey : Json → String
  | .null => ""
  | .bool b => if b then "true" else "false"
  | .num n => intDecStr n
  | .str s => s
  | j =>
    match getStrField j "name" with
    | some s => s
    | none =>
      match getStrField j "uri" with
      | some s => s
      | none =>
        match getStrField j "uriTemplate" with
        | some s => s
        | none =>
          match getStrField j "type" with
          | some s => s
          | none =>
            match getStrField j "method" with
            | some s => s
            | none => jsonToString (normalizeProbeResult j)

/-- Well-formedness of a value as a JS runtime value: object keys are
pairwise distinct at every nesting level (a JS object cannot carry
duplicate keys; association lists can, so theorems that depend on key
uniqueness assume this predicate). -/
def strListNodup : List String → Bool
  | [] => true
  | k :: ks => !(ks.contains k) && strListNodup ks

mutual
def Json.wfB : Json → Bool
  | .null => true
  | .bool _ => true
  | .num _ => true
  | .str _ => true
  | .arr xs => Json.wfListB xs
  | .obj fs => strListNodup (fs.map Prod.fst) && Json.wfFieldsB fs
def Json.wfListB : List Json → Bool
  | [] => true
  | x :: xs => x.wfB && Json.wfListB xs
def Json.wfFieldsB : List (String × Json) → Bool
  | [] => true
  | (_, v) :: fs => v.wfB && Json.wfFieldsB fs
end

/-! ## The structural diff engine (`runner.ts`) -/

/-- Model of the `typeof` operator on JSON-compatible values.  Note that
`null`, arrays and plain objects all have `typeof` `"object"`. -/
def jsTypeof : Json → String
  | .null => "object"
  | .bool _ => "boolean"
  | .num _ => "number"
  | .str _ => "string"
  | .arr _ => "object"
  | .obj _ => "object"

/-- Model of `formatValue` (runner.ts): render a value for a diff entry,
truncating long strings at 100 and long serialized objects at 200
characters. -/
def formatValue : Json → String
  | .null => "null"
  | .bool b => if b then "true" else "false"
  | .num n => intDecStr n
  | .str s => if slen s > 100 then quoteStr (strTake 100 s ++ "...") else quoteStr s
  | .arr xs =>
    let j := jsonToString (.arr xs)
    if slen j > 200 then strTake 200 j ++ "..." else j
  | .obj fs =>
    let j := jsonToString (.obj fs)
    if slen j > 200 then strTake 200 j ++ "..." else j

/-- Model of `getItemKey` (runner.ts): the key used to match array elements
across the two sides.  Non-objects (and `null`) are keyed positionally;
record-shaped values by `name`, `uri`, `uriTemplate`, the composite
`type:text`-prefix (only when both `type` and `text` are strings), or
`method`; otherwise positionally. -/
def getItemKey (item : Json) (index : Nat) : String :=
  match item with
  | .null => "#" ++ natDecStr index
  | .bool _ => "#" ++ natDecStr index
  | .num _ => "#" ++ natDecStr index
  | .str _ => "#" ++ natDecStr index
  | j =>
    match getStrField j "name" with
    | some s => s
    | none =>
      match getStrField j "uri" with
      | some s => s
      | none =>
        match getStrField j "uriTemplate" with
        | some s => s
        | none =>
          match getStrField j "type", getStrField j "text" with
          | some t, some tx => t ++ ":" ++ strTake 50 tx
          | _, _ =>
            match getStrField j "method" with
            | some s => s
            | none => "#" ++ natDecStr index

/-- The identity-key map one side of `compareArrays` builds
(`items.forEach((item, index) => map.set(getItemKey(item, index), ...))`).
Only the item is retained; the stored index is never read. -/
def buildItemMap (xs : List Json) : List (String × Json) :=
  xs.enum.foldl (fun m p => mapSet m (getItemKey p.2 p.1) p.2) []

/-- Path rendering `path || "root"` of the source. -/
def rootPath (path : String) : String := if path = "" then "root" else path

/-- Path rendering `path ? path + "." + key : key` of the source. -/
def childPath (path key : String) : String :=
  if path = "" then key else path ++ "." ++ key

/-- The enumerable own properties the object branch of
`findJsonDifferences` sees: for a plain object its fields, for an array its
elements keyed by decimal index (this is how `Object.keys` presents an
array when one side is an array and the other is not).  The `in` operator
is modelled as membership among these keys; prototype-chain properties are
not modelled. -/
def jsObjEntries : Json → List (String × Json)
  | .obj fs => fs
  | .arr xs => xs.enum.map (fun p => (natDecStr p.1, p.2))
  | _ => []

/-- Model of `compareArrays` (runner.ts), parametrized by the recursive
diff (the caller passes `findJsonDifferences` at the next fuel): match
items by identity key, emit removed entries for keys only in `base`, added
entries for keys only in `branch`, and recurse for keys in both, in that
order. -/
def compareArraysF (diffRec : Json → Json → String → List String)
    (base branch : List Json) (path : String) : List String :=
  let baseItems := buildItemMap base
  let branchItems := buildItemMap branch
  let removed := baseItems.filterMap (fun kv =>
    if mapHas branchItems kv.1 then none
    else some ("- " ++ path ++ "[" ++ kv.1 ++ "]: " ++ formatValue kv.2))
  let added := branchItems.filterMap (fun kv =>
    if mapHas baseItems kv.1 then none
    else some ("+ " ++ path ++ "[" ++ kv.1 ++ "]: " ++ formatValue kv.2))
  let modified := baseItems.flatMap (fun kv =>
    match branchItems.lookup kv.1 with
    | some branchItem => diffRec kv.2 branchItem (path ++ "[" ++ kv.1 ++ "]")
    | none => [])
  removed ++ added ++ modified

/-- Fueled model of `findJsonDifferences` (runner.ts).  The fuel is
structural; `findJsonDifferencesF_eq_of_le` shows any fuel of at least
`mea base` computes the fixpoint.  Branch order mirrors the source:
null handling, `typeof` mismatch, both-arrays, both-`typeof`-object
(key-wise united recursion), then primitive comparison. -/
def findJsonDifferencesF : Nat → Json → Json → String → List String
  | 0, _, _, _ => []
  | f+1, base, branch, path =>
    if base = .null then
      if branch = .null then []
      else ["+ " ++ rootPath path ++ ": " ++ formatValue branch]
    else if branch = .null then
      ["- " ++ rootPath path ++ ": " ++ formatValue base]
    else if jsTypeof base ≠ jsTypeof branch then
      ["- " ++ rootPath path ++ ": " ++ formatValue base,
        "+ " ++ rootPath path ++ ": " ++ formatValue branch]
    else
      match base, branch with
      | .arr xs, .arr ys => compareArraysF (findJsonDifferencesF f) xs ys path
      | base, branch =>
        if jsTypeof base = "object" then
          let baseF := jsObjEntries base
          let branchF := jsObjEntries branch
          let baseKeys := baseF.map Prod.fst
          let branchKeys := branchF.map Prod.fst
          (dedupFirst (baseKeys ++ branchKeys)).flatMap (fun key =>
            let newPath := childPath path key
            if !(baseKeys.contains key) then
              ["+ " ++ newPath ++ ": "
                ++ (match branchF.lookup key with
                    | some v => formatValue v
                    | none => "undefined")]
            else if !(branchKeys.contains key) then
              ["- " ++ newPath ++ ": "
                ++ (match baseF.lookup key with
                    | some v => formatValue v
                    | none => "undefined")]
            else
              match baseF.lookup key, branchF.lookup key with
              | some bv, some brv => findJsonDifferencesF f bv brv newPath
              | _, _ => [])
        else if base = branch then []
        else
          ["- " ++ path ++ ": " ++ formatValue base,
            "+ " ++ path ++ ": " ++ formatValue branch]

/-- Model of `findJsonDifferences` (runner.ts): the fuel bound
`mea base + mea branch` is sufficient (see `findJsonDifferencesF_eq_of_le`),
so this wrapper denotes the JS recursion. -/
def findJsonDifferences (base branch : Json) (path : String) : List String :=
  findJsonDifferencesF (base.mea + branch.mea) base branch path

/-- Model of `generateSimpleTextDiff` (runner.ts): the positional
line-by-line fallback diff for blobs that are not JSON.  Returns `none`
when no line differs (the source returns `null`). -/
def generateSimpleTextDiff (name base branch : String) : Option String :=
  let baseLines := splitNl base
  let branchLines := splitNl branch
  let maxLines := max baseLines.length branchLines.length
  let diffLines := (List.range maxLines).flatMap (fun i =>
    let baseLine := baseLines.get? i
    let branchLine := branchLines.get? i
    if baseLine ≠ branchLine then
      (match baseLine with | some l => ["- " ++ l] | none => []) ++
        (match branchLine with | some l => ["+ " ++ l] | none => [])
    else [])
  if diffLines = [] then none
  else some ("--- base/" ++ name ++ ".json\n+++ branch/" ++ name ++ ".json\n"
    ++ String.intercalate "\n" diffLines)

/-- Model of `generateJsonDiff` (runner.ts): parse both blobs; on success
run the structural diff (returning `none` when it is empty); if either
side fails to parse, fall back to the simple text diff (the source's
`try`/`catch`). -/
def generateJsonDiff (name base branch : String) : Option String :=
  match jsonParse base, jsonParse branch with
  | some baseObj, some branchObj =>
    let differences := findJsonDifferences baseObj branchObj ""
    if differences = [] then none
    else some (String.intercalate "\n"
      (["--- base/" ++ name ++ ".json", "+++ branch/" ++ name ++ ".json", ""] ++ differences))
  | _, _ => generateSimpleTextDiff name base branch

/-- JS truthiness of an optional string (`undefined` and `""` are falsy). -/
def strTruthy : Option String → Bool
  | none => false
  | some s => s ≠ ""

/-- Model of `compareResults` (runner.ts): union the endpoint names of the
two file maps; an endpoint missing (or empty) on one side becomes an
added/removed note, differing contents go through `generateJsonDiff`. -/
def compareResults (branchFiles baseFiles : List (String × String)) :
    List (String × String) :=
  let allEndpoints := dedupFirst (branchFiles.map Prod.fst ++ baseFiles.map Prod.fst)
  allEndpoints.foldl (fun diffs endpoint =>
    let branchContent := branchFiles.lookup endpoint
    let baseContent := baseFiles.lookup endpoint
    if ¬ strTruthy branchContent ∧ strTruthy baseContent then
      mapSet diffs endpoint "Endpoint removed in current branch (was present in base)"
    else if strTruthy branchContent ∧ ¬ strTruthy baseContent then
      mapSet diffs endpoint "Endpoint added in current branch (not present in base)"
    else if branchContent ≠ baseContent then
      match generateJsonDiff endpoint (baseContent.getD "") (branchContent.getD "") with
      | some d => mapSet diffs endpoint d
      | none => diffs
    else diffs) []

/-! ## The capability snapshot collector (`probeServer` of `probe.ts`) -/

/-- Truthiness of a JSON value under JS coercion rules. -/
def jsTruthy : Json → Bool
  | .null => false
  | .bool b => b
  | .num n => n ≠ 0
  | .str s => s ≠ ""
  | .arr _ => true
  | .obj _ => true

/-- Whether declared server capabilities enable a section
(`serverCapabilities?.tools` and friends). -/
def capHas (caps : Option Json) (k : String) : Bool :=
  match caps with
  | some (.obj fs) =>
    match fs.lookup k with
    | some v => jsTruthy v
    | none => false
  | _ => false

/-- A capability snapshot (`ProbeResult` of `types.ts`).  The `initialize`
section is named `initInfo` here; every other field keeps its source name.
Sections are `none` when absent; `customResponses` models the JS `Map`. -/
structure ProbeResult where
  initInfo : Option Json := none
  instructions : Option String := none
  tools : Option Json := none
  prompts : Option Json := none
  resources : Option Json := none
  resourceTemplates : Option Json := none
  customResponses : List (String × Json) := []
  error : Option String := none
deriving DecidableEq

/-- Abstract behaviour of the MCP client for one probe: the outcome of the
connection attempt, the post-connect server-reported data, the outcome of
each list call, the outcome of each named custom request (in send order),
and the outcome of the final close.  `probeServer` folds these outcomes
exactly as the source's `try`/`catch` structure does. -/
structure ClientBehavior where
  connect : Except String Unit
  serverCapabilities : Option Json := none
  serverInfo : Option Json := none
  instructions : Option String := none
  listTools : Except String Json := .error "unavailable"
  listPrompts : Except String Json := .error "unavailable"
  listResources : Except String Json := .error "unavailable"
  listResourceTemplates : Except String Json := .error "unavailable"
  requestResults : List (String × Except String Json) := []
  closeResult : Except String Unit := .ok ()

/-- The `initialize` blob `probeServer` records after connecting
(`{ serverInfo, capabilities }`; `undefined` members are dropped when the
blob is later serialized, modelled by omitting them). -/
def mkInitInfo (c : ClientBehavior) : Json :=
  .obj ((match c.serverInfo with
      | some si => [("serverInfo", si)]
      | none => []) ++
    (match c.serverCapabilities with
      | some caps => [("capabilities", caps)]
      | none => []))

/-- Model of `probeServer` (probe.ts): on connection failure the returned
snapshot carries only the error string; after a successful connection each
section is populated only when its capability is declared and its list
call succeeds (a failed call, including "method not found", leaves the
section absent); custom messages populate the response map one by one,
failures skipped; a failing final close lands in the `catch` and sets the
error on the otherwise-populated snapshot. -/
def probeServer (c : ClientBehavior) : ProbeResult :=
  match c.connect with
  | .error e => { error := some e }
  | .ok _ =>
    let caps := c.serverCapabilities
    let res : ProbeResult :=
      { initInfo := some (mkInitInfo c)
        instructions := if strTruthy c.instructions then c.instructions else none
        tools :=
          if capHas caps "tools" then
            match c.listTools with
            | .ok v => some v
            | .error _ => none
          else none
        prompts :=
          if capHas caps "prompts" then
            match c.listPrompts with
            | .ok v => some v
            | .error _ => none
          else none
        resources :=
          if capHas caps "resources" then
            match c.listResources with
            | .ok v => some v
            | .error _ => none
          else none
        resourceTemplates :=
          if capHas caps "resources" then
            match c.listResourceTemplates with
            | .ok v => some v
            | .error _ => none
          else none
        customResponses :=
          c.requestResults.foldl (fun m p =>
            match p.2 with
            | .ok v => mapSet m p.1 v
            | .error _ => m) []
        error := none }
    match c.closeResult with
    | .ok _ => res
    | .error e => { res with error := some e }

/-- Model of `probeResultToFiles` (probe.ts): serialize each present
section to a canonical pretty-printed JSON blob — except `instructions`,
which is persisted verbatim — and add one `custom_`-prefixed blob per
custom response. -/
def probeResultToFiles (r : ProbeResult) : List (String × String) :=
  let files :=
    (match r.initInfo with
      | some v => [("initialize", jsonToStringPretty 0 (normalizeProbeResult v))]
      | none => []) ++
    (match r.instructions with
      | some s => if s ≠ "" then [("instructions", s)] else []
      | none => []) ++
    (match r.tools with
      | some v => [("tools", jsonToStringPretty 0 (normalizeProbeResult v))]
      | none => []) ++
    (match r.prompts with
      | some v => [("prompts", jsonToStringPretty 0 (normalizeProbeResult v))]
      | none => []) ++
    (match r.resources with
      | some v => [("resources", jsonToStringPretty 0 (normalizeProbeResult v))]
      | none => []) ++
    (match r.resourceTemplates with
      | some v => [("resource_templates", jsonToStringPretty 0 (normalizeProbeResult v))]
      | none => [])
  r.customResponses.foldl (fun fs p =>
    mapSet fs ("custom_" ++ p.1) (jsonToStringPretty 0 (normalizeProbeResult p.2))) files

/-! ## Per-configuration results and report counts (`runner.ts`) -/

/-- Model of `TestResult` (types.ts), restricted to the fields the outcome
logic reads. -/
structure TestResult where
  configName : String
  hasDifferences : Bool
  diffs : List (String × String)
  error : Option String := none
deriving DecidableEq

/-- Model of the result-construction logic of `runSingleConfigTest`
(runner.ts): a failing current-branch probe yields `hasDifferences = true`
with the reserved `error` diff entry and no comparison; likewise for a
failing base probe; otherwise the files of the two snapshots are compared
and `hasDifferences` reflects whether any diff was recorded. -/
def runSingleConfigTest (name : String) (branchResult baseResult : ProbeResult) :
    TestResult :=
  if strTruthy branchResult.error then
    { configName := name, hasDifferences := true,
      diffs := [("error", "Current branch probe failed: " ++ branchResult.error.getD "")] }
  else if strTruthy baseResult.error then
    { configName := name, hasDifferences := true,
      diffs := [("error", "Base ref probe failed: " ++ baseResult.error.getD "")] }
  else
    let diffs := compareResults (probeResultToFiles branchResult)
      (probeResultToFiles baseResult)
    { configName := name, hasDifferences := diffs.length ≠ 0, diffs := diffs }

/-- Model of `ConformanceReport` (types.ts), restricted to the counts. -/
structure ConformanceReport where
  results : List TestResult
  passedCount : Nat
  diffCount : Nat
deriving DecidableEq

/-- Model of `generateReport` (runner.ts): `passedCount` counts results
with `hasDifferences` false, `diffCount` those with it true. -/
def generateReport (results : List TestResult) : ConformanceReport :=
  { results := results
    passedCount := (results.filter (fun r => !r.hasDifferences)).length
    diffCount := (results.filter (fun r => r.hasDifferences)).length }

/-- The three user-visible outcomes of a configuration. -/
inductive Outcome where
  | passed
  | changed
  | errored
deriving DecidableEq

/-- The classification `generateMarkdownReport` (runner.ts) applies to each
result: errored when the `error` field is truthy or the reserved `error`
diff key is present, else changed when `hasDifferences`, else passed. -/
def classifyResult (r : TestResult) : Outcome :=
  if strTruthy r.error ∨ mapHas r.diffs "error" then .errored
  else if r.hasDifferences then .changed
  else .passed

/-! ## Spec-side definitions

These definitions follow the wording of the specification (not the
source); the refinement theorems compare them with the source-derived
definitions above. -/

/-- Identity key as the specification words it: "a `name` field, else a
`uri` field, else a `uriTemplate` field, else a `type` field, else a
`method` field, else the canonical JSON serialization of the element
itself" for record-shaped elements, and "the value's own string form" for
non-record elements.  The spec leaves `null` unspecified; the source's
convention (empty string) is adopted so the comparison isolates the
divergences the spec text actually forces. -/
def specIdentityKey : Json → String
  | .null => ""
  | .bool b => if b then "true" else "false"
  | .num n => intDecStr n
  | .str s => s
  | j =>
    match getStrField j "name" with
    | some s => s
    | none =>
      match getStrField j "uri" with
      | some s => s
      | none =>
        match getStrField j "uriTemplate" with
        | some s => s
        | none =>
          match getStrField j "type" with
          | some s => s
          | none =>
            match getStrField j "method" with
            | some s => s
            | none => jsonToString (normalizeProbeResult j)

/-- The `text`-field rule as the specification words it: a string value
whose trimmed form begins with a brace or bracket and parses as JSON is
replaced by the canonical re-serialization of its parse; otherwise (parse
failure or any other string) it is unchanged. -/
def specTextValue (s : String) : String :=
  if strStartsWith (strTrim s) braceL ∨ strStartsWith (strTrim s) '[' then
    match jsonParse s with
    | some p => jsonToString (normalizeProbeResult p)
    | none => s
  else s

/-! ## Strictness and kind alignment

Side conditions under which the amended diff-emptiness equivalence (claim
C1) holds.  `strictB` demands that at every nesting level object keys are
strictly ordinally sorted and array elements are strictly sorted by sort
key with pairwise-distinct item keys — the shape canonical snapshots take
when no two array elements share an identity key.  `kindMatched` demands
that the diff traversal never pits an array against a non-array object
(the two share `typeof "object"`, so the engine would compare them
key-wise instead of reporting a replacement). -/

/-- Adjacent strict sortedness of a key list under a string order. -/
def chainSorted (lt : String → String → Bool) : List String → Bool
  | [] => true
  | [_] => true
  | a :: b :: rest => lt a b && chainSorted lt (b :: rest)

/-- The item keys of an array, as `compareArrays` derives them. -/
def itemKeys (xs : List Json) : List String :=
  xs.enum.map (fun p => getItemKey p.2 p.1)

mutual
def Json.strictB : Json → Bool
  | .null => true
  | .bool _ => true
  | .num _ => true
  | .str _ => true
  | .arr xs =>
    chainSorted jsLocaleLt (xs.map sortKeyAux) && strListNodup (itemKeys xs)
      && Json.strictListB xs
  | .obj fs => chainSorted ordLt (fs.map Prod.fst) && Json.strictFieldsB fs
def Json.strictListB : List Json → Bool
  | [] => true
  | x :: xs => x.strictB && Json.strictListB xs
def Json.strictFieldsB : List (String × Json) → Bool
  | [] => true
  | (_, v) :: fs => v.strictB && Json.strictFieldsB fs
end

/-- Fueled kind-alignment check: `false` exactly when the diff traversal
of the two values would compare an array against a non-array object at
some co-visited position.  The traversal mirrors `findJsonDifferences`:
array pairs recurse through the identity-key match, object pairs through
the key union. -/
def kindMatchedF : Nat → Json → Json → Bool
  | 0, _, _ => true
  | _+1, .arr _, .obj _ => false
  | _+1, .obj _, .arr _ => false
  | f+1, .arr xs, .arr ys =>
    (buildItemMap xs).all (fun kv =>
      match (buildItemMap ys).lookup kv.1 with
      | some branchItem => kindMatchedF f kv.2 branchItem
      | none => true)
  | f+1, .obj fs, .obj gs =>
    fs.all (fun kv =>
      match gs.lookup kv.1 with
      | some gv => kindMatchedF f kv.2 gv
      | none => true)
  | _+1, _, _ => true

/-- Kind alignment at the sufficient fuel bound. -/
def kindMatched (a b : Json) : Bool := kindMatchedF (a.mea + b.mea) a b

/-! # Theorems

## Order lemmas for the comparators -/

theorem charListLt_irrefl : ∀ l, charListLt l l = false := by
  intro l
  induction l with
  | nil => rfl
  | cons c cs ih => simp [charListLt, ih]

theorem charListLt_trans : ∀ {a b c : List Char},
    charListLt a b = true → charListLt b c = true → charListLt a c = true := by
  intro a
  induction a with
  | nil =>
    intro b c hab hbc
    cases b with
    | nil => exact hbc
    | cons y ys =>
      cases c with
      | nil => simp [charListLt] at hbc
      | cons z zs => rfl
  | cons x xs ih =>
    intro b c hab hbc
    cases b with
    | nil => simp [charListLt] at hab
    | cons y ys =>
      cases c with
      | nil => simp [charListLt] at hbc
      | cons z zs =>
        simp only [charListLt] at hab hbc ⊢
        by_cases hxy : x = y
        · subst hxy
          simp only [if_pos rfl] at hab
          by_cases hyz : x = z
          · subst hyz
            simp only [if_pos rfl] at hbc ⊢
            exact ih hab hbc
          · simp only [if_neg hyz] at hbc ⊢
            exact hbc
        · simp only [if_neg hxy] at hab
          by_cases hyz : y = z
          · subst hyz
            simp only [if_neg hxy]
            exact hab
          · simp only [if_neg hyz] at hbc
            have hxz : x < z := lt_trans (of_decide_eq_true hab) (of_decide_eq_true hbc)
            have : x ≠ z := ne_of_lt hxz
            simp only [if_neg this]
            exact decide_eq_true hxz

theorem charListLt_asymm : ∀ {a b : List Char},
    charListLt a b = true → charListLt b a = false := by
  intro a b hab
  by_contra h
  have hba : charListLt b a = true := by
    cases hcase : charListLt b a with
    | true => rfl
    | false => exact absurd hcase h
  have := charListLt_trans hab hba
  rw [charListLt_irrefl] at this
  exact Bool.false_ne_true this

theorem charListLt_connex : ∀ {a b : List Char},
    a ≠ b → charListLt a b = true ∨ charListLt b a = true := by
  intro a
  induction a with
  | nil =>
    intro b hne
    cases b with
    | nil => exact absurd rfl hne
    | cons y ys => exact Or.inl rfl
  | cons x xs ih =>
    intro b hne
    cases b with
    | nil => exact Or.inr rfl
    | cons y ys =>
      by_cases hxy : x = y
      · subst hxy
        have hne' : xs ≠ ys := by
          intro h
          exact hne (by rw [h])
        rcases ih hne' with h | h
        · exact Or.inl (by simp [charListLt, h])
        · exact Or.inr (by simp [charListLt, h])
      · rcases lt_or_gt_of_ne (show x ≠ y from hxy) with h | h
        · exact Or.inl (by simp [charListLt, hxy, h])
        · refine Or.inr ?_
          have hyx : y ≠ x := fun hh => hxy hh.symm
          simp [charListLt, hyx, h]

theorem ordLe_total (a b : String) : ordLe a b = true ∨ ordLe b a = true := by
  unfold ordLe
  by_cases h : a.data = b.data
  · rw [h, charListLt_irrefl]
    exact Or.inl rfl
  · rcases charListLt_connex h with hlt | hlt
    · left
      rw [charListLt_asymm hlt]
      rfl
    · right
      rw [charListLt_asymm hlt]
      rfl

theorem ordLe_trans {a b c : String} (hab : ordLe a b = true) (hbc : ordLe b c = true) :
    ordLe a c = true := by
  unfold ordLe at hab hbc ⊢
  rw [Bool.not_eq_true'] at hab hbc ⊢
  by_contra h
  have hca : charListLt c.data a.data = true := by
    cases hcase : charListLt c.data a.data with
    | true => rfl
    | false => exact absurd hcase h
  by_cases hba : b.data = a.data
  · rw [hba] at hbc
    rw [hbc] at hca
    exact Bool.false_ne_true hca
  · rcases charListLt_connex hba with hlt | hlt
    · rw [hab] at hlt
      exact Bool.false_ne_true hlt
    · have h2 := charListLt_trans hca hlt
      rw [hbc] at h2
      exact Bool.false_ne_true h2

theorem ordLt_asymm {a b : String} (h : ordLt a b = true) : ordLt b a = false := by
  unfold ordLt at h ⊢
  exact charListLt_asymm h

theorem ordLt_trans {a b c : String} (hab : ordLt a b = true) (hbc : ordLt b c = true) :
    ordLt a c = true := charListLt_trans hab hbc

theorem ordLt_irrefl (a : String) : ordLt a a = false := charListLt_irrefl a.data

theorem ordLe_of_ordLt {a b : String} (h : ordLt a b = true) : ordLe a b = true := by
  unfold ordLe
  rw [charListLt_asymm h]
  rfl

theorem ordLt_ne {a b : String} (h : ordLt a b = true) : a ≠ b := by
  intro he
  subst he
  rw [ordLt_irrefl] at h
  exact Bool.false_ne_true h

theorem boolListLe_total : ∀ (a b : List Bool), boolListLe a b = true ∨ boolListLe b a = true := by
  intro a
  induction a with
  | nil => intro b; exact Or.inl rfl
  | cons x xs ih =>
    intro b
    cases b with
    | nil => exact Or.inr rfl
    | cons y ys =>
      by_cases hxy : x = y
      · subst hxy
        rcases ih ys with h | h
        · exact Or.inl (by simp [boolListLe, h])
        · exact Or.inr (by simp [boolListLe, h])
      · cases x with
        | false => exact Or.inl (by simp [boolListLe, hxy])
        | true =>
          have hyx : y ≠ true := fun hh => hxy hh.symm
          have : y = false := by
            cases y with
            | false => rfl
            | true => exact absurd rfl hyx
          subst this
          exact Or.inr (by simp [boolListLe])

theorem boolListLe_trans : ∀ {a b c : List Bool},
    boolListLe a b = true → boolListLe b c = true → boolListLe a c = true := by
  intro a
  induction a with
  | nil => intro b c _ _; rfl
  | cons x xs ih =>
    intro b c hab hbc
    cases b with
    | nil => simp [boolListLe] at hab
    | cons y ys =>
      cases c with
      | nil => simp [boolListLe] at hbc
      | cons z zs =>
        simp only [boolListLe] at hab hbc ⊢
        by_cases hxy : x = y
        · subst hxy
          simp only [if_pos rfl] at hab
          by_cases hyz : x = z
          · subst hyz
            simp only [if_pos rfl] at hbc ⊢
            exact ih hab hbc
          · simp only [if_neg hyz] at hbc ⊢
            exact hbc
        · simp only [if_neg hxy] at hab
          have hx : x = false := by simpa using hab
          subst hx
          have hy : y = true := by
            cases y with
            | false => exact absurd rfl hxy
            | true => rfl
          subst hy
          cases z with
          | false =>
            simp only [if_neg (by simp : ¬ (true = false))] at hbc
            simp at hbc
          | true =>
            simp [if_neg hxy]

theorem boolListLe_antisymm : ∀ {a b : List Bool},
    boolListLe a b = true → boolListLe b a = true → a = b := by
  intro a
  induction a with
  | nil =>
    intro b _ hba
    cases b with
    | nil => rfl
    | cons y ys => simp [boolListLe] at hba
  | cons x xs ih =>
    intro b hab hba
    cases b with
    | nil => simp [boolListLe] at hab
    | cons y ys =>
      simp only [boolListLe] at hab hba
      by_cases hxy : x = y
      · subst hxy
        simp only [if_pos rfl] at hab hba
        rw [ih hab hba]
      · have hyx : y ≠ x := fun hh => hxy hh.symm
        simp only [if_neg hxy] at hab
        simp only [if_neg hyx] at hba
        have h1 : x = false := by simpa using hab
        have h2 : y = false := by simpa using hba
        subst h1
        exact absurd h2.symm hxy

theorem boolListLe_refl : ∀ l : List Bool, boolListLe l l = true := by
  intro l
  induction l with
  | nil => rfl
  | cons x xs ih => simp [boolListLe, ih]

theorem chLower_isUpper_inj {a b : Char} (hl : chLower a = chLower b)
    (hu : a.isUpper = b.isUpper) : a = b := by
  have hup : ∀ c : Char, c.isUpper = true ↔ ('A' ≤ c ∧ c ≤ 'Z') := by
    intro c
    simp [Char.isUpper]
    exact Iff.rfl
  unfold chLower at hl
  by_cases ha : 'A' ≤ a ∧ a ≤ 'Z'
  · have hb : 'A' ≤ b ∧ b ≤ 'Z' := by
      rw [← hup]
      rw [← hu]
      rw [hup]
      exact ha
    rw [if_pos ha, if_pos hb] at hl
    have hav : (a.toNat + 32).isValidChar := by
      have h2 : a.toNat ≤ 90 := ha.2
      left
      omega
    have hbv : (b.toNat + 32).isValidChar := by
      have h2 : b.toNat ≤ 90 := hb.2
      left
      omega
    have h1 : (Char.ofNat (a.toNat + 32)).toNat = a.toNat + 32 := by
      simp only [Char.ofNat, dif_pos hav]
      rfl
    have h2 : (Char.ofNat (b.toNat + 32)).toNat = b.toNat + 32 := by
      simp only [Char.ofNat, dif_pos hbv]
      rfl
    have h3 : a.toNat + 32 = b.toNat + 32 := by rw [← h1, ← h2, hl]
    have h4 : a.toNat = b.toNat := by omega
    apply Char.ext
    apply UInt32.ext
    exact h4
  · have hb : ¬ ('A' ≤ b ∧ b ≤ 'Z') := by
      rw [← hup] at ha ⊢
      rw [← hu]
      exact ha
    rw [if_neg ha, if_neg hb] at hl
    exact hl

theorem lowerMarks_inj : ∀ {a b : List Char},
    a.map chLower = b.map chLower →
    a.map Char.isUpper = b.map Char.isUpper → a = b := by
  intro a
  induction a with
  | nil =>
    intro b hl _
    cases b with
    | nil => rfl
    | cons y ys => simp at hl
  | cons x xs ih =>
    intro b hl hm
    cases b with
    | nil => simp at hl
    | cons y ys =>
      simp only [List.map_cons, List.cons.injEq] at hl hm
      rw [chLower_isUpper_inj hl.1 hm.1, ih hl.2 hm.2]

theorem jsLocaleLe_refl (a : String) : jsLocaleLe a a = true := by
  simp [jsLocaleLe, boolListLe_refl]

theorem jsLocaleLe_total (a b : String) : jsLocaleLe a b = true ∨ jsLocaleLe b a = true := by
  unfold jsLocaleLe
  by_cases h : lowerData a = lowerData b
  · rw [if_pos h, if_pos h.symm]
    exact boolListLe_total _ _
  · have h' : lowerData b ≠ lowerData a := fun hh => h hh.symm
    rw [if_neg h, if_neg h']
    exact charListLt_connex h

theorem jsLocaleLe_trans {a b c : String} (hab : jsLocaleLe a b = true)
    (hbc : jsLocaleLe b c = true) : jsLocaleLe a c = true := by
  unfold jsLocaleLe at hab hbc ⊢
  by_cases h1 : lowerData a = lowerData b
  · rw [if_pos h1] at hab
    by_cases h2 : lowerData b = lowerData c
    · rw [if_pos h2] at hbc
      rw [if_pos (h1.trans h2)]
      exact boolListLe_trans hab hbc
    · rw [if_neg h2] at hbc
      have h3 : lowerData a ≠ lowerData c := by
        rw [h1]
        exact h2
      rw [if_neg h3, h1]
      exact hbc
  · rw [if_neg h1] at hab
    by_cases h2 : lowerData b = lowerData c
    · rw [if_pos h2] at hbc
      have h3 : lowerData a ≠ lowerData c := by
        rw [← h2]
        exact h1
      rw [if_neg h3, ← h2]
      exact hab
    · rw [if_neg h2] at hbc
      have h4 := charListLt_trans hab hbc
      have h3 : lowerData a ≠ lowerData c := by
        intro hh
        rw [hh] at h4
        rw [charListLt_irrefl] at h4
        exact Bool.false_ne_true h4
      rw [if_neg h3]
      exact h4

theorem jsLocaleLe_antisymm {a b : String} (hab : jsLocaleLe a b = true)
    (hba : jsLocaleLe b a = true) : a = b := by
  unfold jsLocaleLe at hab hba
  by_cases h : lowerData a = lowerData b
  · rw [if_pos h] at hab
    rw [if_pos h.symm] at hba
    have hm := boolListLe_antisymm hab hba
    have hdata : a.data = b.data :=
      lowerMarks_inj h (by simpa [caseMarks] using hm)
    cases a with
    | mk d1 =>
      cases b with
      | mk d2 => exact congrArg String.mk (by simpa using hdata)
  · have h' : lowerData b ≠ lowerData a := fun hh => h hh.symm
    rw [if_neg h] at hab
    rw [if_neg h'] at hba
    have := charListLt_asymm hab
    rw [this] at hba
    exact absurd hba Bool.false_ne_true

theorem jsLocaleLt_iff_not_le {a b : String} :
    jsLocaleLt a b = true ↔ jsLocaleLe b a = false := by
  unfold jsLocaleLt
  cases h : jsLocaleLe b a <;> simp

theorem jsLocaleLe_of_lt {a b : String} (h : jsLocaleLt a b = true) : jsLocaleLe a b = true := by
  rw [jsLocaleLt_iff_not_le] at h
  rcases jsLocaleLe_total a b with h2 | h2
  · exact h2
  · rw [h] at h2
    exact absurd h2 Bool.false_ne_true

theorem jsLocaleLt_trans {a b c : String} (hab : jsLocaleLt a b = true)
    (hbc : jsLocaleLt b c = true) : jsLocaleLt a c = true := by
  rw [jsLocaleLt_iff_not_le] at hab hbc ⊢
  cases hca : jsLocaleLe c a with
  | false => rfl
  | true =>
    have hcb := jsLocaleLe_trans hca (jsLocaleLe_of_lt (jsLocaleLt_iff_not_le.mpr hab))
    rw [hbc] at hcb
    exact absurd hcb Bool.false_ne_true

theorem jsLocaleLt_asymm {a b : String} (h : jsLocaleLt a b = true) :
    jsLocaleLt b a = false := by
  rw [jsLocaleLt_iff_not_le] at h
  unfold jsLocaleLt
  rw [jsLocaleLe_of_lt (jsLocaleLt_iff_not_le.mpr h)]
  rfl

theorem jsLocaleLt_ne {a b : String} (h : jsLocaleLt a b = true) : a ≠ b := by
  intro he
  subst he
  rw [jsLocaleLt_iff_not_le, jsLocaleLe_refl] at h
  exact Bool.noConfusion h

/-! ## Measure lemmas and fuel sufficiency for the canonicalizer -/

theorem mea_pos : ∀ j : Json, 1 ≤ j.mea := by
  intro j
  cases j <;> simp [Json.mea]

theorem mem_meaList {x : Json} : ∀ {xs : List Json}, x ∈ xs → x.mea ≤ Json.meaList xs := by
  intro xs
  induction xs with
  | nil => intro h; cases h
  | cons y ys ih =>
    intro h
    rcases List.mem_cons.mp h with h | h
    · subst h
      simp [Json.meaList]
    · have := ih h
      simp [Json.meaList]
      omega

theorem mem_meaFields {k : String} {v : Json} :
    ∀ {fs : List (String × Json)}, (k, v) ∈ fs → v.mea ≤ Json.meaFields fs := by
  intro fs
  induction fs with
  | nil => intro h; cases h
  | cons p ps ih =>
    intro h
    rcases List.mem_cons.mp h with h | h
    · rw [← h]
      simp [Json.meaFields]
      omega
    · have := ih h
      rcases p with ⟨k', v'⟩
      simp [Json.meaFields]
      omega

theorem length_dropWhile_le (p : Char → Bool) (l : List Char) :
    (l.dropWhile p).length ≤ l.length := by
  induction l with
  | nil => simp
  | cons x xs ih =>
    by_cases h : p x
    · simp only [List.dropWhile, h]
      exact Nat.le_succ_of_le ih
    · simp [List.dropWhile, h]

theorem parseStrChars_size : ∀ (cs : List Char) (chars rest : List Char),
    parseStrChars cs = some (chars, rest) →
    chars.length + 1 + rest.length ≤ cs.length := by
  intro cs
  induction cs using parseStrChars.induct
  all_goals intro chars rest h
  all_goals rw [parseStrChars.eq_def] at h
  all_goals simp_all
  all_goals try (rename_i ih)
  all_goals try (obtain ⟨a, hm, hh⟩ := h; subst hh; have hb := ih a rest hm; simp only [List.length_cons]; omega)
  all_goals omega

theorem takeWhile_cons_length {p : Char → Bool} {l : List Char} {d : Char} {dr : List Char}
    (h : l.takeWhile p = d :: dr) : (l.dropWhile p).length + 1 ≤ l.length := by
  have hsplit := List.takeWhile_append_dropWhile p l
  have := congrArg List.length hsplit
  rw [List.length_append, h] at this
  simp only [List.length_cons] at this
  omega

theorem parseIntNumCore_size (neg : Bool) (cs1 : List Char) (n : Int) (rest : List Char)
    (h : parseIntNumCore neg cs1 = some (n, rest)) : rest.length + 1 ≤ cs1.length := by
  unfold parseIntNumCore at h
  split at h
  · exact absurd h (by simp)
  · rename_i d0 drest hds
    split at h
    · exact absurd h (by simp)
    · split at h
      · exact absurd h (by simp)
      · exact absurd h (by simp)
      · exact absurd h (by simp)
      · simp only [Option.some.injEq, Prod.mk.injEq] at h
        rw [← h.2]
        exact takeWhile_cons_length hds

theorem parseIntNum_size (cs : List Char) (n : Int) (rest : List Char)
    (h : parseIntNum cs = some (n, rest)) : 1 + rest.length ≤ cs.length := by
  unfold parseIntNum at h
  split at h
  · rename_i cs1
    have := parseIntNumCore_size true cs1 n rest h
    simp only [List.length_cons]
    omega
  · have := parseIntNumCore_size false cs n rest h
    omega

theorem lookup_isSome_iff {α : Type} (fs : List (String × α)) (k : String) :
    (fs.lookup k).isSome = true ↔ k ∈ fs.map Prod.fst := by
  induction fs with
  | nil => simp [List.lookup]
  | cons p ps ih =>
    rcases p with ⟨k1, v1⟩
    by_cases hk : k = k1
    · subst hk
      simp [List.lookup]
    · have hk' : (k == k1) = false := by
        simp [hk]
      simp [List.lookup, hk', ih, hk]

theorem map_replace_id {fs : List (String × Json)} {k : String} {v : Json}
    (h : k ∉ fs.map Prod.fst) :
    fs.map (fun p => if p.1 = k then (k, v) else p) = fs := by
  induction fs with
  | nil => rfl
  | cons p ps ih =>
    simp only [List.map_cons, List.mem_cons] at h ⊢
    push_neg at h
    rw [if_neg (fun hh => h.1 hh.symm), ih h.2]

theorem meaFields_append (a b : List (String × Json)) :
    Json.meaFields (a ++ b) = Json.meaFields a + Json.meaFields b := by
  induction a with
  | nil => simp [Json.meaFields]
  | cons p ps ih =>
    rcases p with ⟨k, v⟩
    have hstep : ((k, v) :: ps) ++ b = (k, v) :: (ps ++ b) := rfl
    rw [hstep]
    simp only [Json.meaFields]
    rw [ih]
    omega

theorem keys_map_replace (fs : List (String × Json)) (k : String) (v : Json) :
    (fs.map (fun p => if p.1 = k then (k, v) else p)).map Prod.fst = fs.map Prod.fst := by
  induction fs with
  | nil => rfl
  | cons p ps ih =>
    by_cases h : p.1 = k
    · simp only [List.map_cons, if_pos h, ih]
      rw [← h]
    · simp only [List.map_cons, if_neg h, ih]

theorem objInsert_mea {fs : List (String × Json)} {k : String} {v : Json}
    (hnd : (fs.map Prod.fst).Nodup) :
    Json.meaFields (objInsert fs k v) ≤ Json.meaFields fs + (slen k + v.mea + 1) := by
  induction fs with
  | nil =>
    simp [objInsert, List.lookup, Json.meaFields]
  | cons p ps ih =>
    rcases p with ⟨k1, v1⟩
    simp only [List.map_cons, List.nodup_cons] at hnd
    unfold objInsert
    by_cases hmem : (((k1, v1) :: ps).lookup k).isSome = true
    · rw [if_pos hmem]
      by_cases hk : k1 = k
      · subst hk
        have hnot : k1 ∉ ps.map Prod.fst := hnd.1
        simp only [List.map_cons, if_pos rfl]
        rw [map_replace_id hnot]
        simp only [Json.meaFields]
        omega
      · have hk' : ¬ ((k1, v1) : String × Json).1 = k := hk
        simp only [List.map_cons, if_neg hk']
        have hmem' : (ps.lookup k).isSome = true := by
          rw [lookup_isSome_iff] at hmem ⊢
          simp only [List.map_cons, List.mem_cons] at hmem
          rcases hmem with h | h
          · exact absurd h.symm hk
          · exact h
        have ihh := ih hnd.2
        unfold objInsert at ihh
        rw [if_pos hmem'] at ihh
        simp only [Json.meaFields] at *
        omega
    · rw [if_neg hmem]
      rw [meaFields_append]
      simp [Json.meaFields]

theorem objInsert_keys_nodup {fs : List (String × Json)} {k : String} {v : Json}
    (hnd : (fs.map Prod.fst).Nodup) : ((objInsert fs k v).map Prod.fst).Nodup := by
  unfold objInsert
  by_cases hmem : (fs.lookup k).isSome = true
  · rw [if_pos hmem, keys_map_replace]
    exact hnd
  · rw [if_neg hmem]
    have hk : k ∉ fs.map Prod.fst := by
      rw [← lookup_isSome_iff]
      simpa using hmem
    simp only [List.map_append, List.map_cons, List.map_nil]
    rw [List.nodup_append]
    refine ⟨hnd, List.nodup_singleton k, ?_⟩
    intro a ha hb
    simp only [List.mem_singleton] at hb
    subst hb
    exact hk ha

theorem foldl_objInsert_mea : ∀ (raw : List (String × Json)) (acc : List (String × Json)),
    (acc.map Prod.fst).Nodup →
    Json.meaFields (raw.foldl (fun a kv => objInsert a kv.1 kv.2) acc) ≤
      Json.meaFields acc + Json.meaFields raw := by
  intro raw
  induction raw with
  | nil =>
    intro acc _
    simp [Json.meaFields]
  | cons kv raw' ih =>
    intro acc hnd
    rcases kv with ⟨k, v⟩
    simp only [List.foldl_cons]
    have h1 := ih (objInsert acc k v) (objInsert_keys_nodup hnd)
    have h2 := @objInsert_mea acc k v hnd
    simp only [Json.meaFields]
    omega

theorem parse_size : ∀ f : Nat,
    (∀ cs j rest, parseValueF f cs = some (j, rest) → j.mea + rest.length ≤ cs.length) ∧
    (∀ cs vs rest, parseItemsF f cs = some (vs, rest) →
      Json.meaList vs + 1 + rest.length ≤ cs.length) ∧
    (∀ cs fds rest, parseFieldsF f cs = some (fds, rest) →
      Json.meaFields fds + 1 + rest.length ≤ cs.length) := by
  intro f
  induction f with
  | zero =>
    refine ⟨?_, ?_, ?_⟩ <;> intro cs a rest h <;>
      simp [parseValueF, parseItemsF, parseFieldsF] at h
  | succ f ih =>
    obtain ⟨ihV, ihI, ihF⟩ := ih
    refine ⟨?_, ?_, ?_⟩
    · intro cs j rest h
      rw [parseValueF.eq_2] at h
      have hdl : (cs.dropWhile jsWs).length ≤ cs.length := length_dropWhile_le _ _
      split at h
      · simp at h
      · rename_i c rest1 hd
        rw [hd] at hdl
        simp only [List.length_cons] at hdl
        split_ifs at h with hn ht hf hq hbrk hob hnum
        · -- null literal
          split at h
          · simp only [Option.some.injEq, Prod.mk.injEq] at h
            obtain ⟨h1, h2⟩ := h
            subst h1
            subst h2
            simp only [List.length_cons] at hdl
            simp only [Json.mea]
            omega
          · simp at h
        · -- true literal
          split at h
          · simp only [Option.some.injEq, Prod.mk.injEq] at h
            obtain ⟨h1, h2⟩ := h
            subst h1
            subst h2
            simp only [List.length_cons] at hdl
            simp only [Json.mea]
            omega
          · simp at h
        · -- false literal
          split at h
          · simp only [Option.some.injEq, Prod.mk.injEq] at h
            obtain ⟨h1, h2⟩ := h
            subst h1
            subst h2
            simp only [List.length_cons] at hdl
            simp only [Json.mea]
            omega
          · simp at h
        · -- string
          rcases hm : parseStrChars rest1 with _ | ⟨chars, rr⟩
          · rw [hm] at h
            simp at h
          · rw [hm] at h
            simp only [Option.map_some', Option.some.injEq, Prod.mk.injEq] at h
            obtain ⟨h1, h2⟩ := h
            subst h1
            subst h2
            have := parseStrChars_size rest1 chars rr hm
            simp only [Json.mea, slen]
            omega
        · -- array
          have hdl2 : (rest1.dropWhile jsWs).length ≤ rest1.length := length_dropWhile_le _ _
          split at h
          · rename_i r heq
            have : (rest1.dropWhile jsWs).length = r.length + 1 := by rw [heq]; simp
            simp only [Option.some.injEq, Prod.mk.injEq] at h
            obtain ⟨h1, h2⟩ := h
            subst h1
            subst h2
            simp only [Json.mea, Json.meaList]
            omega
          · rcases hm : parseItemsF f (rest1.dropWhile jsWs) with _ | ⟨vs, rr⟩
            · rw [hm] at h
              simp at h
            · rw [hm] at h
              simp only [Option.map_some', Option.some.injEq, Prod.mk.injEq] at h
              obtain ⟨h1, h2⟩ := h
              subst h1
              subst h2
              have := ihI (rest1.dropWhile jsWs) vs rr hm
              simp only [Json.mea]
              omega
        · -- object
          have hdl2 : (rest1.dropWhile jsWs).length ≤ rest1.length := length_dropWhile_le _ _
          split at h
          · rename_i b2 r2 heq
            have hlen2 : (rest1.dropWhile jsWs).length = r2.length + 1 := by rw [heq]; simp
            by_cases hb2 : b2 = braceR
            · rw [if_pos hb2] at h
              simp only [Option.some.injEq, Prod.mk.injEq] at h
              obtain ⟨h1, h2⟩ := h
              subst h1
              subst h2
              simp only [Json.mea, Json.meaFields]
              omega
            · rw [if_neg hb2] at h
              rcases hm : parseFieldsF f (b2 :: r2) with _ | ⟨fds2, rr⟩
              · rw [hm] at h
                simp at h
              · rw [hm] at h
                simp only [Option.map_some', Option.some.injEq, Prod.mk.injEq] at h
                obtain ⟨h1, h2⟩ := h
                subst h1
                subst h2
                have hsz := ihF (b2 :: r2) fds2 rr hm
                simp only [List.length_cons] at hsz
                have hded := foldl_objInsert_mea fds2 [] (by simp)
                simp only [Json.meaFields] at hded
                simp only [Json.mea]
                omega
          · simp at h
        · -- number
          rcases hm : parseIntNum (c :: rest1) with _ | ⟨nv, rr⟩
          · rw [hm] at h
            simp at h
          · rw [hm] at h
            simp only [Option.map_some', Option.some.injEq, Prod.mk.injEq] at h
            obtain ⟨h1, h2⟩ := h
            subst h1
            subst h2
            have := parseIntNum_size (c :: rest1) nv rr hm
            simp only [List.length_cons] at this
            simp only [Json.mea]
            omega
    · intro cs vs rest h
      rw [parseItemsF.eq_2] at h
      split at h
      · simp at h
      · rename_i v r1 hm
        have hv := ihV cs v r1 hm
        have hdl : (r1.dropWhile jsWs).length ≤ r1.length := length_dropWhile_le _ _
        split at h
        · rename_i r2 heq
          have hlen2 : (r1.dropWhile jsWs).length = r2.length + 1 := by rw [heq]; simp
          rcases hm2 : parseItemsF f r2 with _ | ⟨vs2, rr⟩
          · rw [hm2] at h
            simp at h
          · rw [hm2] at h
            simp only [Option.map_some', Option.some.injEq, Prod.mk.injEq] at h
            obtain ⟨h1, h2⟩ := h
            subst h1
            subst h2
            have := ihI r2 vs2 rr hm2
            simp only [Json.meaList]
            omega
        · rename_i r2 heq
          have hlen2 : (r1.dropWhile jsWs).length = r2.length + 1 := by rw [heq]; simp
          simp only [Option.some.injEq, Prod.mk.injEq] at h
          obtain ⟨h1, h2⟩ := h
          subst h1
          subst h2
          simp only [Json.meaList]
          omega
        · simp at h
    · intro cs fds rest h
      rw [parseFieldsF.eq_2] at h
      have hdl : (cs.dropWhile jsWs).length ≤ cs.length := length_dropWhile_le _ _
      split at h
      · rename_i r0 heq
        have hlen0 : (cs.dropWhile jsWs).length = r0.length + 1 := by rw [heq]; simp
        split at h
        · simp at h
        · rename_i kcs r1 hk
          have hksz := parseStrChars_size r0 kcs r1 hk
          have hdl1 : (r1.dropWhile jsWs).length ≤ r1.length := length_dropWhile_le _ _
          split at h
          · rename_i r2 heq1
            have hlen1 : (r1.dropWhile jsWs).length = r2.length + 1 := by rw [heq1]; simp
            split at h
            · simp at h
            · rename_i v r3 hv
              have hvsz := ihV r2 v r3 hv
              have hdl3 : (r3.dropWhile jsWs).length ≤ r3.length := length_dropWhile_le _ _
              split at h
              · rename_i r4 heq3
                have hlen3 : (r3.dropWhile jsWs).length = r4.length + 1 := by rw [heq3]; simp
                rcases hm2 : parseFieldsF f r4 with _ | ⟨fds2, rr⟩
                · rw [hm2] at h
                  simp at h
                · rw [hm2] at h
                  simp only [Option.map_some', Option.some.injEq, Prod.mk.injEq] at h
                  obtain ⟨h1, h2⟩ := h
                  subst h1
                  subst h2
                  have := ihF r4 fds2 rr hm2
                  simp only [Json.meaFields, slen]
                  omega
              · rename_i b r4 hbne heq3
                have hlen3 : (r3.dropWhile jsWs).length = r4.length + 1 := by rw [heq3]; simp
                by_cases hbr : b = braceR
                · rw [if_pos hbr] at h
                  simp only [Option.some.injEq, Prod.mk.injEq] at h
                  obtain ⟨h1, h2⟩ := h
                  subst h1
                  subst h2
                  simp only [Json.meaFields, slen]
                  omega
                · rw [if_neg hbr] at h
                  simp at h
              · simp at h
          · simp at h
      · simp at h

theorem jsonParse_mea {s : String} {p : Json} (h : jsonParse s = some p) :
    p.mea ≤ slen s := by
  unfold jsonParse at h
  rcases hm : parseValueF (2 * slen s + 2) s.data with _ | ⟨j, rest⟩
  · rw [hm] at h
    simp at h
  · rw [hm] at h
    have := (parse_size (2 * slen s + 2)).1 s.data j rest hm
    change (if List.dropWhile jsWs rest = [] then some j else none) = some p at h
    split_ifs at h
    simp only [Option.some.injEq] at h
    subst h
    simp only [slen]
    omega

theorem normF_str (f : Nat) (s : String) (h : 1 ≤ f) :
    normF f (.str s) = .str s := by
  rcases f with _ | f'
  · omega
  · rfl

theorem normF_congr : ∀ (n : Nat) (j : Json) (f g : Nat), j.mea ≤ n → j.mea ≤ f →
    j.mea ≤ g → normF f j = normF g j := by
  intro n
  induction n with
  | zero =>
    intro j f g h0 _ _
    have := mea_pos j
    omega
  | succ n ih =>
    intro j f g hn hf hg
    have hj1 := mea_pos j
    rcases f with _ | f'
    · omega
    rcases g with _ | g'
    · omega
    cases j with
    | null => rfl
    | bool b => rfl
    | num m => rfl
    | str s => rfl
    | arr xs =>
      rw [normF.eq_2, normF.eq_2]
      congr 1
      congr 1
      apply List.map_congr_left
      intro x hx
      have hx1 : x.mea ≤ Json.meaList xs := mem_meaList hx
      have hmx : Json.mea (Json.arr xs) = Json.meaList xs + 1 := rfl
      exact ih x f' g' (by omega) (by omega) (by omega)
    | obj fs =>
      rw [normF.eq_3, normF.eq_3]
      congr 1
      apply List.map_congr_left
      intro kv hkv
      have hkv' : kv ∈ fs := (List.perm_insertionSort fieldLe fs).mem_iff.mp hkv
      rcases kv with ⟨k, v⟩
      have hv : v.mea ≤ Json.meaFields fs := mem_meaFields hkv'
      have hmo : Json.mea (Json.obj fs) = Json.meaFields fs + 1 := rfl
      simp only []
      congr 1
      cases v with
      | str s =>
        have hsm : Json.mea (Json.str s) = slen s + 1 := rfl
        simp only []
        split_ifs with hcond
        · rcases hp : jsonParse s with _ | ⟨parsed⟩
          · show normF f' (Json.str s) = normF g' (Json.str s)
            rw [normF_str f' _ (by omega), normF_str g' _ (by omega)]
          · have hpm : parsed.mea ≤ slen s := jsonParse_mea hp
            change normF f' (Json.str (jsonToString (normF f' parsed))) =
              normF g' (Json.str (jsonToString (normF g' parsed)))
            rw [ih parsed f' g' (by omega) (by omega) (by omega),
              normF_str f' _ (by omega), normF_str g' _ (by omega)]
        · show normF f' (Json.str s) = normF g' (Json.str s)
          rw [normF_str f' _ (by omega), normF_str g' _ (by omega)]
      | null =>
        show normF f' Json.null = normF g' Json.null
        exact ih _ f' g' (by omega) (by omega) (by omega)
      | bool b =>
        show normF f' (Json.bool b) = normF g' (Json.bool b)
        exact ih _ f' g' (by omega) (by omega) (by omega)
      | num m =>
        show normF f' (Json.num m) = normF g' (Json.num m)
        exact ih _ f' g' (by omega) (by omega) (by omega)
      | arr ys =>
        show normF f' (Json.arr ys) = normF g' (Json.arr ys)
        exact ih _ f' g' (by omega) (by omega) (by omega)
      | obj gs =>
        show normF f' (Json.obj gs) = normF g' (Json.obj gs)
        exact ih _ f' g' (by omega) (by omega) (by omega)

theorem normF_eq {j : Json} {f : Nat} (h : j.mea ≤ f) :
    normF f j = normalizeProbeResult j :=
  normF_congr f j f j.mea h h le_rfl

theorem normalize_null : normalizeProbeResult .null = .null := rfl

theorem normalize_bool (b : Bool) : normalizeProbeResult (.bool b) = .bool b := rfl

theorem normalize_num (n : Int) : normalizeProbeResult (.num n) = .num n := rfl

theorem normalize_str (s : String) : normalizeProbeResult (.str s) = .str s := rfl

/-- The array equation of the canonicalizer: normalize the elements, then
stable-sort them by sort key.  This is the fuel-free statement of the JS
recursion. -/
theorem normalize_arr (xs : List Json) :
    normalizeProbeResult (.arr xs) =
      .arr (List.insertionSort sortCmp (xs.map normalizeProbeResult)) := by
  unfold normalizeProbeResult
  have hmx : Json.mea (Json.arr xs) = Json.meaList xs + 1 := rfl
  rw [hmx, normF.eq_2]
  congr 1
  congr 1
  apply List.map_congr_left
  intro x hx
  exact normF_eq (mem_meaList hx)

/-- The object equation of the canonicalizer: sort the fields by key, then
transform each value (embedded-JSON rule on string-valued `text` fields,
recursive canonicalization otherwise). -/
theorem normalize_obj (fs : List (String × Json)) :
    normalizeProbeResult (.obj fs) =
      .obj ((List.insertionSort fieldLe fs).map
        (fun kv => (kv.1, normalizeFieldValue kv.1 kv.2))) := by
  unfold normalizeProbeResult
  have hmo : Json.mea (Json.obj fs) = Json.meaFields fs + 1 := rfl
  rw [hmo, normF.eq_3]
  congr 1
  apply List.map_congr_left
  intro kv hkv
  have hkv' : kv ∈ fs := (List.perm_insertionSort fieldLe fs).mem_iff.mp hkv
  rcases kv with ⟨k, v⟩
  have hv : v.mea ≤ Json.meaFields fs := mem_meaFields hkv'
  cases v with
  | str s =>
    have hsm : (Json.str s).mea = slen s + 1 := rfl
    show (k, normF (Json.meaFields fs)
        (if k = "text"
            ∧ (strStartsWith (strTrim s) '[' = true ∨ strStartsWith (strTrim s) braceL = true) then
          match jsonParse s with
          | some parsed => Json.str (jsonToString (normF (Json.meaFields fs) parsed))
          | none => Json.str s
        else Json.str s)) =
      (k, if k = "text"
            ∧ (strStartsWith (strTrim s) '[' = true ∨ strStartsWith (strTrim s) braceL = true) then
          match jsonParse s with
          | some parsed => Json.str (jsonToString (normalizeProbeResult parsed))
          | none => Json.str s
        else Json.str s)
    split_ifs with hcond
    · rcases hp : jsonParse s with _ | ⟨parsed⟩
      · exact congrArg (fun x => (k, x)) (normF_str _ _ (by omega))
      · have hpm : parsed.mea ≤ slen s := jsonParse_mea hp
        change (k, normF (Json.meaFields fs)
            (Json.str (jsonToString (normF (Json.meaFields fs) parsed)))) =
          (k, Json.str (jsonToString (normalizeProbeResult parsed)))
        rw [normF_eq (j := parsed) (f := Json.meaFields fs) (by omega)]
        exact congrArg (fun x => (k, x)) (normF_str _ _ (by omega))
    · exact congrArg (fun x => (k, x)) (normF_str _ _ (by omega))
  | null =>
    show (k, normF (Json.meaFields fs) Json.null) = (k, normalizeProbeResult Json.null)
    exact congrArg (fun x => (k, x)) (normF_eq (by omega))
  | bool b =>
    show (k, normF (Json.meaFields fs) (Json.bool b)) = (k, normalizeProbeResult (Json.bool b))
    exact congrArg (fun x => (k, x)) (normF_eq (by omega))
  | num m =>
    show (k, normF (Json.meaFields fs) (Json.num m)) = (k, normalizeProbeResult (Json.num m))
    exact congrArg (fun x => (k, x)) (normF_eq (by omega))
  | arr ys =>
    show (k, normF (Json.meaFields fs) (Json.arr ys)) = (k, normalizeProbeResult (Json.arr ys))
    exact congrArg (fun x => (k, x)) (normF_eq (by omega))
  | obj gs =>
    show (k, normF (Json.meaFields fs) (Json.obj gs)) = (k, normalizeProbeResult (Json.obj gs))
    exact congrArg (fun x => (k, x)) (normF_eq (by omega))

/-! ## Serialization round-trip -/

theorem charOfNat_toNat {n : Nat} (h : n < 55296) : (Char.ofNat n).toNat = n := by
  have hv : n.isValidChar := Or.inl h
  simp only [Char.ofNat, dif_pos hv]
  rfl

theorem natToRev_digits : ∀ (f n : Nat), ∀ c ∈ natToRev f n, isDigitCh c = true := by
  intro f
  induction f with
  | zero => intro n c hc; simp [natToRev] at hc
  | succ f ih =>
    intro n c hc
    unfold natToRev at hc
    split_ifs at hc with h0
    · simp at hc
    · rcases List.mem_cons.mp hc with h | h
      · subst h
        have hlt : n % 10 < 10 := Nat.mod_lt _ (by omega)
        have hto : (Char.ofNat (48 + n % 10)).toNat = 48 + n % 10 := charOfNat_toNat (by omega)
        simp only [isDigitCh]
        apply decide_eq_true
        constructor
        · show ('0' : Char).toNat ≤ (Char.ofNat (48 + n % 10)).toNat
          have hz : ('0' : Char).toNat = 48 := rfl
          omega
        · show (Char.ofNat (48 + n % 10)).toNat ≤ ('9' : Char).toNat
          have hn : ('9' : Char).toNat = 57 := rfl
          omega
      · exact ih (n / 10) c h

theorem natDec_digits (n : Nat) : ∀ c ∈ natDec n, isDigitCh c = true := by
  intro c hc
  unfold natDec at hc
  split_ifs at hc with h0
  · simp only [List.mem_singleton] at hc
    subst hc
    decide
  · exact natToRev_digits n n c (List.mem_reverse.mp hc)

theorem natToRev_ne_nil {f n : Nat} (h1 : 1 ≤ n) (h2 : n ≤ f) : natToRev f n ≠ [] := by
  rcases f with _ | f'
  · omega
  · unfold natToRev
    rw [if_neg (by omega)]
    simp

theorem natToRev_msd : ∀ (f n : Nat), 1 ≤ n → n ≤ f →
    ∀ d ds, (natToRev f n).reverse = d :: ds → d ≠ '0' := by
  intro f
  induction f with
  | zero => intro n h1 h2; omega
  | succ f ih =>
    intro n h1 h2 d ds hrev
    unfold natToRev at hrev
    rw [if_neg (by omega)] at hrev
    simp only [List.reverse_cons] at hrev
    by_cases hq : n / 10 = 0
    · rw [hq] at hrev
      have : natToRev f 0 = [] := by
        rcases f with _ | f'
        · rfl
        · simp [natToRev]
      rw [this] at hrev
      simp only [List.reverse_nil, List.nil_append, List.cons.injEq] at hrev
      rw [← hrev.1]
      intro hcontra
      have h48 : (Char.ofNat (48 + n % 10)).toNat = 48 + n % 10 :=
        charOfNat_toNat (by have := Nat.mod_lt n (show 0 < 10 by omega); omega)
      have hz : ('0' : Char).toNat = 48 := rfl
      rw [hcontra] at h48
      rw [hz] at h48
      have hmod : n % 10 = 0 := by omega
      have := Nat.div_add_mod n 10
      omega
    · have hne : natToRev f (n / 10) ≠ [] := natToRev_ne_nil (by omega) (by omega)
      rcases hrl : (natToRev f (n / 10)).reverse with _ | ⟨d', ds'⟩
      · exact absurd (by simpa using congrArg List.reverse hrl) hne
      · rw [hrl] at hrev
        simp only [List.cons_append, List.cons.injEq] at hrev
        rw [← hrev.1]
        exact ih (n / 10) (by omega) (by omega) d' ds' hrl

theorem digitsToNat_natToRev : ∀ (f n : Nat) (acc : Nat), n ≤ f →
    List.foldl (fun a c => 10 * a + (c.toNat - 48)) acc (natToRev f n).reverse =
      acc * 10 ^ (natToRev f n).length + n := by
  intro f
  induction f with
  | zero =>
    intro n acc h
    have : n = 0 := by omega
    subst this
    simp [natToRev]
  | succ f ih =>
    intro n acc h
    unfold natToRev
    split_ifs with h0
    · subst h0
      simp
    · simp only [List.reverse_cons, List.foldl_append, List.foldl_cons, List.foldl_nil,
        List.length_cons]
      have hdiv : n / 10 ≤ f := by
        have := Nat.div_lt_self (show 0 < n by omega) (show 1 < 10 by omega)
        omega
      rw [ih (n / 10) acc hdiv]
      have hchar : (Char.ofNat (48 + n % 10)).toNat = 48 + n % 10 :=
        charOfNat_toNat (by have := Nat.mod_lt n (show 0 < 10 by omega); omega)
      rw [hchar]
      have hmod := Nat.div_add_mod n 10
      ring_nf
      omega

theorem digitsToNat_natDec (n : Nat) : digitsToNat (natDec n) = n := by
  unfold natDec digitsToNat
  split_ifs with h0
  · subst h0
    decide
  · have := digitsToNat_natToRev n n 0 le_rfl
    rw [this]
    simp

theorem natDec_ne_nil (n : Nat) : natDec n ≠ [] := by
  unfold natDec
  split_ifs with h0
  · simp
  · intro h
    have := natToRev_ne_nil (n := n) (f := n) (by omega) le_rfl
    rw [← List.reverse_eq_nil_iff] at h
    simp at h
    exact this h

theorem takeWhile_all_append {p : Char → Bool} : ∀ {a rest : List Char},
    (∀ c ∈ a, p c = true) →
    (∀ c, rest.head? = some c → p c = false) →
    (a ++ rest).takeWhile p = a ∧ (a ++ rest).dropWhile p = rest := by
  intro a
  induction a with
  | nil =>
    intro rest _ hr
    rcases rest with _ | ⟨c, cs⟩
    · simp
    · have := hr c rfl
      simp [List.takeWhile, List.dropWhile, this]
  | cons x xs ih =>
    intro rest ha hr
    have hx : p x = true := ha x (List.mem_cons_self x xs)
    have ihh := ih (fun c hc => ha c (List.mem_cons_of_mem x hc)) hr
    simp only [List.cons_append, List.takeWhile_cons, List.dropWhile_cons, hx, if_true]
    constructor
    · simp only [ihh.1]
    · simpa using ihh.2

theorem parseIntNumCore_ser (neg : Bool) (m : Nat) (rest : List Char)
    (hb : ∀ c, rest.head? = some c →
      isDigitCh c = false ∧ c ≠ '.' ∧ c ≠ 'e' ∧ c ≠ 'E') :
    parseIntNumCore neg (natDec m ++ rest) =
      some (if neg then -(Int.ofNat m) else Int.ofNat m, rest) := by
  obtain ⟨d0, drest, hnd⟩ : ∃ d0 drest, natDec m = d0 :: drest := by
    rcases h : natDec m with _ | ⟨d0, dr⟩
    · exact absurd h (natDec_ne_nil m)
    · exact ⟨d0, dr, rfl⟩
  have hguard : ¬ (d0 = '0' ∧ drest ≠ []) := by
    rintro ⟨hz, hne⟩
    by_cases hm : m = 0
    · subst hm
      have : natDec 0 = ['0'] := by decide
      rw [this] at hnd
      simp only [List.cons.injEq] at hnd
      exact hne hnd.2.symm
    · have hmsd : d0 ≠ '0' := by
        apply natToRev_msd m m (by omega) le_rfl d0 drest
        have : natDec m = (natToRev m m).reverse := by
          unfold natDec
          rw [if_neg hm]
        rw [← this, hnd]
      exact hmsd hz
  have hdig : ∀ c ∈ natDec m, isDigitCh c = true := natDec_digits m
  have hbd : ∀ c, rest.head? = some c → isDigitCh c = false := fun c hc => (hb c hc).1
  obtain ⟨htw, hdw⟩ := takeWhile_all_append hdig hbd
  have hval : digitsToNat (d0 :: drest) = m := by
    rw [← hnd]
    exact digitsToNat_natDec m
  unfold parseIntNumCore
  rw [htw, hnd]
  rw [hnd] at hdw
  show (if d0 = '0' ∧ drest ≠ [] then none
    else match (d0 :: drest ++ rest).dropWhile isDigitCh with
      | '.' :: _ => none
      | 'e' :: _ => none
      | 'E' :: _ => none
      | cs2 =>
        some (if neg then -(Int.ofNat (digitsToNat (d0 :: drest)))
          else Int.ofNat (digitsToNat (d0 :: drest)), cs2)) = _
  rw [if_neg hguard, hdw, hval]
  rcases rest with _ | ⟨c, cs⟩
  · rfl
  · obtain ⟨_, hdot, he, hE⟩ := hb c rfl
    split
    · rename_i heq
      obtain ⟨h1, _⟩ := List.cons.injEq .. ▸ heq
      exact absurd h1 hdot
    · rename_i heq
      obtain ⟨h1, _⟩ := List.cons.injEq .. ▸ heq
      exact absurd h1 he
    · rename_i heq
      obtain ⟨h1, _⟩ := List.cons.injEq .. ▸ heq
      exact absurd h1 hE
    · rfl

theorem parseIntNum_ser (n : Int) (rest : List Char)
    (hb : ∀ c, rest.head? = some c →
      isDigitCh c = false ∧ c ≠ '.' ∧ c ≠ 'e' ∧ c ≠ 'E') :
    parseIntNum (intDec n ++ rest) = some (n, rest) := by
  unfold intDec parseIntNum
  split_ifs with hneg
  · show parseIntNumCore true (natDec n.natAbs ++ rest) = some (n, rest)
    rw [parseIntNumCore_ser true n.natAbs rest hb]
    simp only [if_true, Option.some.injEq, Prod.mk.injEq]
    refine ⟨?_, trivial⟩
    show -((n.natAbs : Int)) = n
    omega
  · obtain ⟨d0, drest, hnd⟩ : ∃ d0 drest, natDec n.toNat = d0 :: drest := by
      rcases h : natDec n.toNat with _ | ⟨d0, dr⟩
      · exact absurd h (natDec_ne_nil _)
      · exact ⟨d0, dr, rfl⟩
    have hd0 : isDigitCh d0 = true := natDec_digits _ d0 (by rw [hnd]; exact List.mem_cons_self _ _)
    split
    · rename_i cs1 heq
      rw [hnd] at heq
      obtain ⟨h1, _⟩ := List.cons.injEq .. ▸ heq
      rw [h1] at hd0
      simp [isDigitCh] at hd0
    · rw [parseIntNumCore_ser false n.toNat rest hb]
      simp only [if_false, Option.some.injEq, Prod.mk.injEq, Bool.false_eq_true]
      refine ⟨?_, trivial⟩
      show ((n.toNat : Int)) = n
      omega

theorem hexVal_digit {d : Nat} (h : d < 10) : hexVal (Char.ofNat (48 + d)) = some d := by
  have hto : (Char.ofNat (48 + d)).toNat = 48 + d := charOfNat_toNat (by omega)
  unfold hexVal
  rw [if_pos]
  · rw [hto]
    congr 1
    omega
  · constructor
    · show ('0' : Char).toNat ≤ (Char.ofNat (48 + d)).toNat
      have hz : ('0' : Char).toNat = 48 := rfl
      omega
    · show (Char.ofNat (48 + d)).toNat ≤ ('9' : Char).toNat
      have hn : ('9' : Char).toNat = 57 := rfl
      omega

theorem hexVal_af {d : Nat} (h1 : 10 ≤ d) (h2 : d < 16) :
    hexVal (Char.ofNat (87 + d)) = some d := by
  have hto : (Char.ofNat (87 + d)).toNat = 87 + d := charOfNat_toNat (by omega)
  unfold hexVal
  rw [if_neg, if_pos]
  · rw [hto]
    congr 1
    omega
  · constructor
    · show ('a' : Char).toNat ≤ (Char.ofNat (87 + d)).toNat
      have hz : ('a' : Char).toNat = 97 := rfl
      omega
    · show (Char.ofNat (87 + d)).toNat ≤ ('f' : Char).toNat
      have hn : ('f' : Char).toNat = 102 := rfl
      omega
  · rintro ⟨ha, hbb⟩
    have hz : ('0' : Char).toNat = 48 := rfl
    have hn : ('9' : Char).toNat = 57 := rfl
    have ha' : ('0' : Char).toNat ≤ (Char.ofNat (87 + d)).toNat := ha
    have hb' : (Char.ofNat (87 + d)).toNat ≤ ('9' : Char).toNat := hbb
    omega

theorem parseStrChars_cons (c : Char) (cs : List Char) :
    parseStrChars (c :: cs) =
      if c = '"' then some ([], cs)
      else if c = '\\' then
        (match cs with
        | [] => none
        | e :: cs2 =>
          if e = '"' then (parseStrChars cs2).map (fun p => ('"' :: p.1, p.2))
          else if e = '\\' then (parseStrChars cs2).map (fun p => ('\\' :: p.1, p.2))
          else if e = '/' then (parseStrChars cs2).map (fun p => ('/' :: p.1, p.2))
          else if e = 'b' then (parseStrChars cs2).map (fun p => ('\x08' :: p.1, p.2))
          else if e = 'f' then (parseStrChars cs2).map (fun p => ('\x0c' :: p.1, p.2))
          else if e = 'n' then (parseStrChars cs2).map (fun p => ('\n' :: p.1, p.2))
          else if e = 'r' then (parseStrChars cs2).map (fun p => ('\r' :: p.1, p.2))
          else if e = 't' then (parseStrChars cs2).map (fun p => ('\t' :: p.1, p.2))
          else if e = 'u' then
            match cs2 with
            | h1 :: h2 :: h3 :: h4 :: cs3 =>
              match hexVal h1, hexVal h2, hexVal h3, hexVal h4 with
              | some a, some b, some c3, some d =>
                let n := ((a * 16 + b) * 16 + c3) * 16 + d
                if h : n.isValidChar then
                  (parseStrChars cs3).map (fun p => (Char.ofNatAux n h :: p.1, p.2))
                else none
              | _, _, _, _ => none
            | _ => none
          else none)
      else if c.toNat < 32 then none
      else (parseStrChars cs).map (fun p => (c :: p.1, p.2)) := by
  rcases cs with _ | ⟨e, cs2⟩
  · rw [parseStrChars.eq_2]
  · rcases cs2 with _ | ⟨a1, cs3⟩
    · rw [parseStrChars.eq_4 c e [] (by intro h1 h2 h3 h4 cs3 h; simp at h)]
    · rcases cs3 with _ | ⟨a2, cs4⟩
      · rw [parseStrChars.eq_4 c e [a1] (by intro h1 h2 h3 h4 cs3 h; simp at h)]
      · rcases cs4 with _ | ⟨a3, cs5⟩
        · rw [parseStrChars.eq_4 c e [a1, a2] (by intro h1 h2 h3 h4 cs3 h; simp at h)]
        · rcases cs5 with _ | ⟨a4, cs6⟩
          · rw [parseStrChars.eq_4 c e [a1, a2, a3] (by intro h1 h2 h3 h4 cs3 h; simp at h)]
          · rw [parseStrChars.eq_3]

theorem parseStrChars_unicode (u1 u2 u3 u4 : Char) (cs3 : List Char) :
    parseStrChars ('\\' :: 'u' :: u1 :: u2 :: u3 :: u4 :: cs3) =
      (match hexVal u1, hexVal u2, hexVal u3, hexVal u4 with
      | some a, some b, some c3, some d =>
        let n := ((a * 16 + b) * 16 + c3) * 16 + d
        if h : n.isValidChar then
          (parseStrChars cs3).map (fun p => (Char.ofNatAux n h :: p.1, p.2))
        else none
      | _, _, _, _ => none) := by
  rw [parseStrChars_cons]
  simp

theorem escapeChar_parse (c : Char) (rest : List Char) :
    parseStrChars (escapeChar c ++ rest) = (parseStrChars rest).map (fun p => (c :: p.1, p.2)) := by
  unfold escapeChar
  split_ifs with h1 h2 h3 h4 h5 h6 h7 h8 hm
  · subst h1
    rw [show ((['\\', '"'] : List Char) ++ rest) = '\\' :: '"' :: rest from rfl,
      parseStrChars_cons]
    simp
  · subst h2
    rw [show ((['\\', '\\'] : List Char) ++ rest) = '\\' :: '\\' :: rest from rfl,
      parseStrChars_cons]
    simp
  · subst h3
    rw [show ((['\\', 'b'] : List Char) ++ rest) = '\\' :: 'b' :: rest from rfl,
      parseStrChars_cons]
    simp
  · subst h4
    rw [show ((['\\', 'f'] : List Char) ++ rest) = '\\' :: 'f' :: rest from rfl,
      parseStrChars_cons]
    simp
  · subst h5
    rw [show ((['\\', 'n'] : List Char) ++ rest) = '\\' :: 'n' :: rest from rfl,
      parseStrChars_cons]
    simp
  · subst h6
    rw [show ((['\\', 'r'] : List Char) ++ rest) = '\\' :: 'r' :: rest from rfl,
      parseStrChars_cons]
    simp
  · subst h7
    rw [show ((['\\', 't'] : List Char) ++ rest) = '\\' :: 't' :: rest from rfl,
      parseStrChars_cons]
    simp
  · -- control character, low nibble is a digit
    have hd1 := hexVal_digit (show c.toNat / 16 < 10 by omega)
    have hz : hexVal '0' = some 0 := by decide
    rw [List.cons_append, List.cons_append, List.cons_append, List.cons_append,
      List.cons_append, List.singleton_append, parseStrChars_unicode]
    rw [hz, hd1, hexVal_digit (by omega)]
    show (if h : ((((0 : Nat) * 16 + 0) * 16 + c.toNat / 16) * 16 + c.toNat % 16).isValidChar then
        (parseStrChars rest).map
          (fun p => (Char.ofNatAux ((((0 : Nat) * 16 + 0) * 16 + c.toNat / 16) * 16
            + c.toNat % 16) h :: p.1, p.2))
      else none) = (parseStrChars rest).map (fun p => (c :: p.1, p.2))
    rw [dif_pos (show ((((0 : Nat) * 16 + 0) * 16 + c.toNat / 16) * 16
        + c.toNat % 16).isValidChar from Or.inl (by omega))]
    have hceq : Char.ofNatAux ((((0 : Nat) * 16 + 0) * 16 + c.toNat / 16) * 16
        + c.toNat % 16) (Or.inl (by omega)) = c := by
      apply Char.ext
      apply UInt32.ext
      show ((((0 : Nat) * 16 + 0) * 16 + c.toNat / 16) * 16 + c.toNat % 16) = c.toNat
      omega
    rw [hceq]
  · -- control character, low nibble is a letter
    have hd1 := hexVal_digit (show c.toNat / 16 < 10 by omega)
    have hz : hexVal '0' = some 0 := by decide
    rw [List.cons_append, List.cons_append, List.cons_append, List.cons_append,
      List.cons_append, List.singleton_append, parseStrChars_unicode]
    rw [hz, hd1, hexVal_af (by omega) (by omega)]
    show (if h : ((((0 : Nat) * 16 + 0) * 16 + c.toNat / 16) * 16 + c.toNat % 16).isValidChar then
        (parseStrChars rest).map
          (fun p => (Char.ofNatAux ((((0 : Nat) * 16 + 0) * 16 + c.toNat / 16) * 16
            + c.toNat % 16) h :: p.1, p.2))
      else none) = (parseStrChars rest).map (fun p => (c :: p.1, p.2))
    rw [dif_pos (show ((((0 : Nat) * 16 + 0) * 16 + c.toNat / 16) * 16
        + c.toNat % 16).isValidChar from Or.inl (by omega))]
    have hceq : Char.ofNatAux ((((0 : Nat) * 16 + 0) * 16 + c.toNat / 16) * 16
        + c.toNat % 16) (Or.inl (by omega)) = c := by
      apply Char.ext
      apply UInt32.ext
      show ((((0 : Nat) * 16 + 0) * 16 + c.toNat / 16) * 16 + c.toNat % 16) = c.toNat
      omega
    rw [hceq]
  · rw [List.singleton_append, parseStrChars_cons, if_neg h1, if_neg h2, if_neg h8]

theorem escape_body_parse (l rest : List Char) :
    parseStrChars (l.flatMap escapeChar ++ '"' :: rest) = some (l, rest) := by
  induction l with
  | nil =>
    rw [List.flatMap_nil, List.nil_append, parseStrChars_cons]
    simp
  | cons c l ih =>
    rw [List.flatMap_cons, List.append_assoc, escapeChar_parse, ih]
    rfl

theorem quoteStr_parse (s : String) (rest : List Char) :
    parseStrChars ((quoteStr s).data.tail ++ rest) = some (s.data, rest) := by
  show parseStrChars ((('"' :: (s.data.flatMap escapeChar) ++ ['"']).tail) ++ rest)
      = some (s.data, rest)
  rw [List.cons_append, List.tail_cons, List.append_assoc, List.singleton_append,
    escape_body_parse]

theorem digit_goodHead (c : Char) (h : isDigitCh c = true) : goodHead c = true := by
  have h1 : ('0' : Char).toNat ≤ c.toNat ∧ c.toNat ≤ ('9' : Char).toNat := by
    simpa [isDigitCh, Char.le_def] using h
  have h48 : 48 ≤ c.toNat := h1.1
  have h57 : c.toNat ≤ 57 := h1.2
  unfold goodHead jsWs
  simp only [Bool.and_eq_true, Bool.not_eq_true', decide_eq_false_iff_not]
  refine ⟨⟨?_, ?_⟩, ?_⟩
  · intro hor
    rcases hor with h | h | h | h <;> (subst h; revert h48 h57; decide)
  · intro he; subst he; revert h48 h57; decide
  · intro he; subst he; revert h48 h57; decide

theorem ser_head : ∀ j : Json, ∃ c cs, (jsonToString j).data = c :: cs ∧ goodHead c = true := by
  intro j
  cases j with
  | null => exact ⟨'n', ['u', 'l', 'l'], rfl, by decide⟩
  | bool b =>
    cases b
    · exact ⟨'f', ['a', 'l', 's', 'e'], rfl, by decide⟩
    · exact ⟨'t', ['r', 'u', 'e'], rfl, by decide⟩
  | num n =>
    show ∃ c cs, (intDecStr n).data = c :: cs ∧ goodHead c = true
    unfold intDecStr intDec
    split_ifs with hneg
    · exact ⟨'-', natDec n.natAbs, rfl, by decide⟩
    · obtain ⟨d0, dr, hnd⟩ : ∃ d0 dr, natDec n.toNat = d0 :: dr := by
        rcases h : natDec n.toNat with _ | ⟨d0, dr⟩
        · exact absurd h (natDec_ne_nil _)
        · exact ⟨d0, dr, rfl⟩
      refine ⟨d0, dr, by rw [hnd], digit_goodHead d0 ?_⟩
      exact natDec_digits _ d0 (by rw [hnd]; exact List.mem_cons_self _ _)
  | str s =>
    exact ⟨'"', s.data.flatMap escapeChar ++ ['"'], rfl, by decide⟩
  | arr xs =>
    refine ⟨'[', (jsonToStringList xs).data ++ [']'], ?_, by decide⟩
    show ("[" ++ jsonToStringList xs ++ "]").data = _
    simp [String.data_append]
  | obj fs =>
    refine ⟨braceL, (jsonToStringFields fs).data ++ [braceR], ?_, by decide⟩
    show (String.mk [braceL] ++ jsonToStringFields fs ++ String.mk [braceR]).data = _
    simp [String.data_append]

theorem strListNodup_iff (ks : List String) : strListNodup ks = true ↔ ks.Nodup := by
  induction ks with
  | nil => simp [strListNodup]
  | cons k ks ih => simp [strListNodup, List.nodup_cons, ih]

theorem foldl_objInsert_id : ∀ (fs acc : List (String × Json)),
    ((acc ++ fs).map Prod.fst).Nodup →
    fs.foldl (fun a kv => objInsert a kv.1 kv.2) acc = acc ++ fs := by
  intro fs
  induction fs with
  | nil => intro acc h; simp
  | cons kv fs ih =>
    intro acc h
    rcases kv with ⟨k, v⟩
    have hk : k ∉ acc.map Prod.fst := by
      intro hmem
      rw [List.map_append] at h
      exact (List.disjoint_of_nodup_append h) hmem (by simp)
    have hins : objInsert acc k v = acc ++ [(k, v)] := by
      unfold objInsert
      rw [if_neg]
      intro hsome
      exact hk ((lookup_isSome_iff acc k).mp hsome)
    rw [List.foldl_cons, hins, ih (acc ++ [(k, v)]) (by simpa using h)]
    simp

theorem digit_not_kw (c : Char) (h : isDigitCh c = true) :
    c ≠ 'n' ∧ c ≠ 't' ∧ c ≠ 'f' ∧ c ≠ '"' ∧ c ≠ '[' ∧ c ≠ braceL ∧ jsWs c = false := by
  have h1 : ('0' : Char).toNat ≤ c.toNat ∧ c.toNat ≤ ('9' : Char).toNat := by
    simpa [isDigitCh, Char.le_def] using h
  have h48 : 48 ≤ c.toNat := h1.1
  have h57 : c.toNat ≤ 57 := h1.2
  refine ⟨?_, ?_, ?_, ?_, ?_, ?_, ?_⟩
  · intro he; subst he; revert h48 h57; decide
  · intro he; subst he; revert h48 h57; decide
  · intro he; subst he; revert h48 h57; decide
  · intro he; subst he; revert h48 h57; decide
  · intro he; subst he; revert h48 h57; decide
  · intro he; subst he; revert h48 h57; decide
  · unfold jsWs
    simp only [decide_eq_false_iff_not]
    intro hor
    rcases hor with he | he | he | he <;> (subst he; revert h48 h57; decide)

theorem data_arr (xs : List Json) :
    (jsonToString (Json.arr xs)).data = '[' :: ((jsonToStringList xs).data ++ [']']) := by
  show ("[" ++ jsonToStringList xs ++ "]").data = _
  simp [String.data_append]

theorem data_obj (fs : List (String × Json)) :
    (jsonToString (Json.obj fs)).data = braceL :: ((jsonToStringFields fs).data ++ [braceR]) := by
  show (String.mk [braceL] ++ jsonToStringFields fs ++ String.mk [braceR]).data = _
  simp [String.data_append]

theorem data_list1 (x : Json) : jsonToStringList [x] = jsonToString x := by
  simp [jsonToStringList]

theorem data_listN (x y : Json) (ys : List Json) :
    (jsonToStringList (x :: y :: ys)).data
      = (jsonToString x).data ++ ',' :: (jsonToStringList (y :: ys)).data := by
  show (jsonToString x ++ "," ++ jsonToStringList (y :: ys)).data = _
  simp [String.data_append]

theorem data_fields1 (k : String) (v : Json) :
    (jsonToStringFields [(k, v)]).data
      = '"' :: (k.data.flatMap escapeChar ++ '"' :: ':' :: (jsonToString v).data) := by
  show (quoteStr k ++ ":" ++ jsonToString v).data = _
  simp [String.data_append, quoteStr]

theorem data_fieldsN (k : String) (v : Json) (f0 : String × Json) (fs : List (String × Json)) :
    (jsonToStringFields ((k, v) :: f0 :: fs)).data
      = '"' :: (k.data.flatMap escapeChar
          ++ '"' :: ':' :: ((jsonToString v).data ++ ',' :: (jsonToStringFields (f0 :: fs)).data)) := by
  show (quoteStr k ++ ":" ++ jsonToString v ++ "," ++ jsonToStringFields (f0 :: fs)).data = _
  simp [String.data_append, quoteStr]

theorem stringMk_data (s : String) : String.mk s.data = s := rfl

theorem hbd_of (c0 : Char) (h : isDigitCh c0 = false ∧ c0 ≠ '.' ∧ c0 ≠ 'e' ∧ c0 ≠ 'E')
    (l : List Char) :
    ∀ c, (c0 :: l).head? = some c → isDigitCh c = false ∧ c ≠ '.' ∧ c ≠ 'e' ∧ c ≠ 'E' := by
  intro c hc
  rw [List.head?_cons, Option.some.injEq] at hc
  subst hc
  exact h

theorem ser_parse : ∀ f : Nat,
    (∀ j rest, 2 * j.mea ≤ f → j.wfB = true →
      (∀ c, rest.head? = some c → isDigitCh c = false ∧ c ≠ '.' ∧ c ≠ 'e' ∧ c ≠ 'E') →
      parseValueF f ((jsonToString j).data ++ rest) = some (j, rest)) ∧
    (∀ x xs rest, 2 * Json.meaList (x :: xs) + 1 ≤ f → Json.wfListB (x :: xs) = true →
      parseItemsF f ((jsonToStringList (x :: xs)).data ++ ']' :: rest) = some (x :: xs, rest)) ∧
    (∀ k v fs rest, 2 * Json.meaFields ((k, v) :: fs) + 1 ≤ f →
      Json.wfFieldsB ((k, v) :: fs) = true →
      parseFieldsF f ((jsonToStringFields ((k, v) :: fs)).data ++ braceR :: rest)
        = some ((k, v) :: fs, rest)) := by
  intro f
  induction f with
  | zero =>
    refine ⟨?_, ?_, ?_⟩
    · intro j rest hf _ _
      exact absurd hf (by have := mea_pos j; omega)
    · intro x xs rest hf _
      exact absurd hf (by omega)
    · intro k v fs rest hf _
      exact absurd hf (by omega)
  | succ f ih =>
    obtain ⟨ihV, ihI, ihF⟩ := ih
    refine ⟨?_, ?_, ?_⟩
    · intro j rest hf hwf hbd
      cases j with
      | null =>
        rw [show (jsonToString Json.null).data = ['n', 'u', 'l', 'l'] from rfl,
          parseValueF.eq_2]
        simp [jsWs]
      | bool b =>
        cases b
        · rw [show (jsonToString (Json.bool false)).data = ['f', 'a', 'l', 's', 'e'] from rfl,
            parseValueF.eq_2]
          simp [jsWs]
        · rw [show (jsonToString (Json.bool true)).data = ['t', 'r', 'u', 'e'] from rfl,
            parseValueF.eq_2]
          simp [jsWs]
      | num n =>
        rw [show (jsonToString (Json.num n)).data = intDec n from rfl]
        obtain ⟨c, cs, hcs, hdig⟩ : ∃ c cs, intDec n = c :: cs ∧
            ((c = '-' ∨ isDigitCh c = true) ∧ c ≠ 'n' ∧ c ≠ 't' ∧ c ≠ 'f' ∧ c ≠ '"'
              ∧ c ≠ '[' ∧ c ≠ braceL ∧ jsWs c = false) := by
          unfold intDec
          split_ifs with hneg
          · exact ⟨'-', natDec n.natAbs, rfl,
              Or.inl rfl, by decide, by decide, by decide, by decide, by decide, by decide,
              by decide⟩
          · obtain ⟨d0, dr, hnd⟩ : ∃ d0 dr, natDec n.toNat = d0 :: dr := by
              rcases h : natDec n.toNat with _ | ⟨d0, dr⟩
              · exact absurd h (natDec_ne_nil _)
              · exact ⟨d0, dr, rfl⟩
            have hd0 : isDigitCh d0 = true :=
              natDec_digits _ d0 (by rw [hnd]; exact List.mem_cons_self _ _)
            obtain ⟨hn, ht, hf', hq, hbk, hbl, hws⟩ := digit_not_kw d0 hd0
            exact ⟨d0, dr, hnd, Or.inr hd0, hn, ht, hf', hq, hbk, hbl, hws⟩
        obtain ⟨hor, hn, ht, hf', hq, hbk, hbl, hws⟩ := hdig
        rw [hcs, List.cons_append, parseValueF.eq_2]
        simp only [List.dropWhile_cons, hws, Bool.false_eq_true, if_false]
        simp only [hn, ht, hf', hq, hbk, hbl, if_false, hor, if_true]
        rw [← List.cons_append, ← hcs, parseIntNum_ser n rest hbd]
        rfl
      | str s =>
        rw [show (jsonToString (Json.str s)).data
            = '"' :: (s.data.flatMap escapeChar ++ ['"']) from rfl,
          List.cons_append, parseValueF.eq_2]
        simp [jsWs, List.append_assoc, escape_body_parse, stringMk_data]
      | arr xs =>
        rw [data_arr, List.cons_append, parseValueF.eq_2]
        cases xs with
        | nil =>
          rw [show (jsonToStringList []).data = [] from rfl]
          simp [jsWs]
        | cons x xs' =>
          obtain ⟨c, cs, hd, hg⟩ := ser_head x
          have hg3 : jsWs c = false ∧ c ≠ ']' ∧ c ≠ braceR := by
            simpa [goodHead, Bool.and_eq_true, Bool.not_eq_true', and_assoc] using hg
          obtain ⟨tl, htl⟩ : ∃ tl, (jsonToStringList (x :: xs')).data = c :: tl := by
            cases xs' with
            | nil => exact ⟨cs, by rw [data_list1, hd]⟩
            | cons y ys =>
              exact ⟨cs ++ ',' :: (jsonToStringList (y :: ys)).data,
                by rw [data_listN, hd, List.cons_append]⟩
          rw [htl]
          simp only [List.cons_append, List.append_assoc, List.singleton_append,
            List.nil_append, List.dropWhile_cons, hg3.1,
            show jsWs '[' = false from by decide, Bool.false_eq_true, if_false,
            show ¬(('[' : Char) = 'n') from by decide, show ¬(('[' : Char) = 't') from by decide,
            show ¬(('[' : Char) = 'f') from by decide, show ¬(('[' : Char) = '"') from by decide,
            show (('[' : Char) = '[') from rfl, if_true]
          split
          · rename_i r2 heq
            rw [List.cons.injEq] at heq
            exact absurd heq.1 hg3.2.1
          · rw [← List.cons_append, ← htl,
              ihI x xs' rest (by simp only [Json.mea] at hf; omega)
                (by simpa [Json.wfB] using hwf)]
            rfl
      | obj fs =>
        rw [data_obj, List.cons_append, parseValueF.eq_2]
        cases fs with
        | nil =>
          rw [show (jsonToStringFields []).data = [] from rfl]
          simp only [List.nil_append, List.singleton_append, List.cons_append,
            List.dropWhile_cons,
            show jsWs braceL = false from by decide, show jsWs braceR = false from by decide,
            Bool.false_eq_true, if_false,
            show ¬(braceL = 'n') from by decide, show ¬(braceL = 't') from by decide,
            show ¬(braceL = 'f') from by decide, show ¬(braceL = '"') from by decide,
            show ¬(braceL = '[') from by decide, show (braceL = braceL) from rfl, if_true,
            show (braceR = braceR) from rfl]
        | cons kv fs' =>
          rcases kv with ⟨k, v⟩
          obtain ⟨tl, htl⟩ : ∃ tl, (jsonToStringFields ((k, v) :: fs')).data = '"' :: tl := by
            cases fs' with
            | nil => exact ⟨_, data_fields1 k v⟩
            | cons f0 fs2 => exact ⟨_, data_fieldsN k v f0 fs2⟩
          rw [htl]
          simp only [List.cons_append, List.append_assoc, List.singleton_append,
            List.nil_append, List.dropWhile_cons,
            show jsWs braceL = false from by decide, show jsWs '"' = false from by decide,
            Bool.false_eq_true, if_false,
            show ¬(braceL = 'n') from by decide, show ¬(braceL = 't') from by decide,
            show ¬(braceL = 'f') from by decide, show ¬(braceL = '"') from by decide,
            show ¬(braceL = '[') from by decide, show (braceL = braceL) from rfl, if_true]
          split
          · rename_i heq
            exact absurd heq (by decide)
          · rw [← List.cons_append, ← htl,
              ihF k v fs' rest (by simp only [Json.mea] at hf; omega)
                (by simp [Json.wfB, Bool.and_eq_true] at hwf; exact hwf.2)]
            have hnd : (([] ++ ((k, v) :: fs')).map Prod.fst).Nodup := by
              rw [List.nil_append]
              apply (strListNodup_iff _).mp
              simp [Json.wfB, Bool.and_eq_true] at hwf
              exact hwf.1
            simp only [Option.map_some']
            rw [foldl_objInsert_id _ [] hnd, List.nil_append]
    · intro x xs rest hf hwf
      have hwf2 : x.wfB = true ∧ Json.wfListB xs = true := by
        simpa [Json.wfListB, Bool.and_eq_true] using hwf
      cases xs with
      | nil =>
        rw [data_list1, parseItemsF.eq_2,
          ihV x (']' :: rest)
            (by simp only [Json.meaList] at hf; omega) hwf2.1
            (hbd_of ']' (by decide) rest)]
        simp [jsWs]
      | cons y ys =>
        rw [data_listN, parseItemsF.eq_2, List.append_assoc, List.cons_append,
          ihV x (',' :: ((jsonToStringList (y :: ys)).data ++ ']' :: rest))
            (by simp only [Json.meaList] at hf; have := mea_pos y; omega) hwf2.1
            (hbd_of ',' (by decide) _)]
        have hi := ihI y ys rest
          (by simp only [Json.meaList] at hf ⊢; have := mea_pos x; omega) hwf2.2
        simp [jsWs, hi]
    · intro k v fs rest hf hwf
      have hwf2 : v.wfB = true ∧ Json.wfFieldsB fs = true := by
        simpa [Json.wfFieldsB, Bool.and_eq_true] using hwf
      cases fs with
      | nil =>
        rw [data_fields1, List.cons_append, parseFieldsF.eq_2]
        have hv := ihV v (braceR :: rest)
          (by simp only [Json.meaFields] at hf; omega) hwf2.1
          (hbd_of braceR (by decide) rest)
        simp only [List.cons_append, List.append_assoc, List.singleton_append,
          List.nil_append, List.dropWhile_cons,
          show jsWs '"' = false from by decide, show jsWs ':' = false from by decide,
          show jsWs braceR = false from by decide, Bool.false_eq_true, if_false,
          escape_body_parse, hv, stringMk_data]
        split
        · rename_i r4 heq
          rw [List.cons.injEq] at heq
          exact absurd heq.1 (by decide)
        · rename_i b r4 heq
          rw [List.cons.injEq] at heq
          obtain ⟨hb, hr⟩ := heq
          subst hr
          rw [if_pos hb.symm]
        · rename_i heq
          exact absurd heq (by simp)
      | cons f0 fs2 =>
        rcases f0 with ⟨k0, v0⟩
        rw [data_fieldsN, List.cons_append, parseFieldsF.eq_2]
        have hv := ihV v (',' :: ((jsonToStringFields ((k0, v0) :: fs2)).data ++ braceR :: rest))
          (by simp only [Json.meaFields] at hf; omega) hwf2.1
          (hbd_of ',' (by decide) _)
        have hfs := ihF k0 v0 fs2 rest
          (by simp only [Json.meaFields] at hf ⊢; omega) hwf2.2
        simp [jsWs, List.append_assoc, escape_body_parse, hv, hfs, stringMk_data]

/-- `JSON.parse` inverts `JSON.stringify` on well-formed values. -/
theorem jsonParse_jsonToString (j : Json) (h : j.wfB = true) :
    jsonParse (jsonToString j) = some j := by
  have h0 := (ser_parse (2 * j.mea)).1 j [] le_rfl h (by intro c hc; simp at hc)
  rw [List.append_nil] at h0
  have hlen := (parse_size (2 * j.mea)).1 _ _ _ h0
  have hfuel : 2 * j.mea ≤ 2 * slen (jsonToString j) + 2 := by
    simp only [List.length_nil] at hlen
    unfold slen
    omega
  have h1 := (ser_parse (2 * slen (jsonToString j) + 2)).1 j [] hfuel h
    (by intro c hc; simp at hc)
  rw [List.append_nil] at h1
  unfold jsonParse
  rw [h1]
  simp

theorem wfListB_iff (xs : List Json) :
    Json.wfListB xs = true ↔ ∀ x ∈ xs, x.wfB = true := by
  induction xs with
  | nil => simp [Json.wfListB]
  | cons x xs ih => simp [Json.wfListB, Bool.and_eq_true, ih]

theorem wfFieldsB_iff (fs : List (String × Json)) :
    Json.wfFieldsB fs = true ↔ ∀ kv ∈ fs, (kv.2).wfB = true := by
  induction fs with
  | nil => simp [Json.wfFieldsB]
  | cons kv fs ih =>
    rcases kv with ⟨k, v⟩
    simp [Json.wfFieldsB, Bool.and_eq_true, ih]

theorem foldl_objInsert_keys_nodup :
    ∀ (fds acc : List (String × Json)), (acc.map Prod.fst).Nodup →
    ((fds.foldl (fun a kv => objInsert a kv.1 kv.2) acc).map Prod.fst).Nodup := by
  intro fds
  induction fds with
  | nil => intro acc h; simpa using h
  | cons kv fds ih =>
    intro acc h
    rw [List.foldl_cons]
    exact ih _ (objInsert_keys_nodup h)

theorem mem_objInsert {kv : String × Json} {fs : List (String × Json)} {k : String} {v : Json}
    (h : kv ∈ objInsert fs k v) : kv = (k, v) ∨ kv ∈ fs := by
  unfold objInsert at h
  split_ifs at h with hs
  · rw [List.mem_map] at h
    obtain ⟨p, hp, he⟩ := h
    by_cases hpk : p.1 = k
    · rw [if_pos hpk] at he
      exact Or.inl he.symm
    · rw [if_neg hpk] at he
      exact Or.inr (he ▸ hp)
  · rw [List.mem_append, List.mem_singleton] at h
    rcases h with h | h
    · exact Or.inr h
    · exact Or.inl h

theorem mem_foldl_objInsert :
    ∀ (fds acc : List (String × Json)) (kv : String × Json),
    kv ∈ fds.foldl (fun a kv => objInsert a kv.1 kv.2) acc → kv ∈ acc ∨ kv ∈ fds := by
  intro fds
  induction fds with
  | nil => intro acc kv h; exact Or.inl h
  | cons p fds ih =>
    intro acc kv h
    rw [List.foldl_cons] at h
    rcases ih _ _ h with h1 | h1
    · rcases mem_objInsert h1 with h2 | h2
      · exact Or.inr (by rw [h2]; exact List.mem_cons_self _ _)
      · exact Or.inl h2
    · exact Or.inr (List.mem_cons_of_mem _ h1)

theorem parse_wf : ∀ f : Nat,
    (∀ cs j rest, parseValueF f cs = some (j, rest) → j.wfB = true) ∧
    (∀ cs vs rest, parseItemsF f cs = some (vs, rest) → Json.wfListB vs = true) ∧
    (∀ cs fds rest, parseFieldsF f cs = some (fds, rest) →
      ∀ kv ∈ fds, (kv.2).wfB = true) := by
  intro f
  induction f with
  | zero =>
    refine ⟨?_, ?_, ?_⟩ <;> intro cs a rest h <;>
      simp [parseValueF, parseItemsF, parseFieldsF] at h
  | succ f ih =>
    obtain ⟨ihV, ihI, ihF⟩ := ih
    refine ⟨?_, ?_, ?_⟩
    · intro cs j rest h
      rw [parseValueF.eq_2] at h
      split at h
      · simp at h
      · rename_i c rest1 hd
        split_ifs at h with hn ht hf' hq hbrk hob hnum
        · split at h
          · simp only [Option.some.injEq, Prod.mk.injEq] at h
            rw [← h.1]
            rfl
          · simp at h
        · split at h
          · simp only [Option.some.injEq, Prod.mk.injEq] at h
            rw [← h.1]
            rfl
          · simp at h
        · split at h
          · simp only [Option.some.injEq, Prod.mk.injEq] at h
            rw [← h.1]
            rfl
          · simp at h
        · rcases hm : parseStrChars rest1 with _ | ⟨chars, rr⟩
          · rw [hm] at h
            simp at h
          · rw [hm] at h
            simp only [Option.map_some', Option.some.injEq, Prod.mk.injEq] at h
            rw [← h.1]
            rfl
        · split at h
          · simp only [Option.some.injEq, Prod.mk.injEq] at h
            rw [← h.1]
            rfl
          · rcases hm : parseItemsF f (rest1.dropWhile jsWs) with _ | ⟨vs, rr⟩
            · rw [hm] at h
              simp at h
            · rw [hm] at h
              simp only [Option.map_some', Option.some.injEq, Prod.mk.injEq] at h
              rw [← h.1]
              show Json.wfListB vs = true
              exact ihI _ _ _ hm
        · split at h
          · rename_i b2 r2 heq
            by_cases hb2 : b2 = braceR
            · rw [if_pos hb2] at h
              simp only [Option.some.injEq, Prod.mk.injEq] at h
              rw [← h.1]
              rfl
            · rw [if_neg hb2] at h
              rcases hm : parseFieldsF f (b2 :: r2) with _ | ⟨fds2, rr⟩
              · rw [hm] at h
                simp at h
              · rw [hm] at h
                simp only [Option.map_some', Option.some.injEq, Prod.mk.injEq] at h
                rw [← h.1]
                show (Json.obj (fds2.foldl (fun acc kv => objInsert acc kv.1 kv.2) [])).wfB
                  = true
                have hnd := foldl_objInsert_keys_nodup fds2 [] (by simp)
                have hvals : ∀ kv ∈ fds2.foldl (fun acc kv => objInsert acc kv.1 kv.2) [],
                    (kv.2).wfB = true := by
                  intro kv hkv
                  rcases mem_foldl_objInsert fds2 [] kv hkv with h1 | h1
                  · simp at h1
                  · exact ihF _ _ _ hm kv h1
                show (strListNodup (List.map Prod.fst
                    (fds2.foldl (fun acc kv => objInsert acc kv.1 kv.2) []))
                  && Json.wfFieldsB (fds2.foldl (fun acc kv => objInsert acc kv.1 kv.2) []))
                  = true
                rw [Bool.and_eq_true, (strListNodup_iff _), (wfFieldsB_iff _)]
                exact ⟨hnd, hvals⟩
          · simp at h
        · rcases hm : parseIntNum (c :: rest1) with _ | ⟨nv, rr⟩
          · rw [hm] at h
            simp at h
          · rw [hm] at h
            simp only [Option.map_some', Option.some.injEq, Prod.mk.injEq] at h
            rw [← h.1]
            rfl
    · intro cs vs rest h
      rw [parseItemsF.eq_2] at h
      split at h
      · simp at h
      · rename_i v r1 hm
        have hv := ihV cs v r1 hm
        split at h
        · rename_i r2 heq
          rcases hm2 : parseItemsF f r2 with _ | ⟨vs2, rr⟩
          · rw [hm2] at h
            simp at h
          · rw [hm2] at h
            simp only [Option.map_some', Option.some.injEq, Prod.mk.injEq] at h
            rw [← h.1]
            rw [wfListB_iff]
            intro x hx
            rcases List.mem_cons.mp hx with h1 | h1
            · rw [h1]; exact hv
            · exact (wfListB_iff vs2).mp (ihI _ _ _ hm2) x h1
        · rename_i r2 heq
          simp only [Option.some.injEq, Prod.mk.injEq] at h
          rw [← h.1]
          rw [wfListB_iff]
          intro x hx
          rcases List.mem_singleton.mp hx with h1
          rw [h1]
          exact hv
        · simp at h
    · intro cs fds rest h
      rw [parseFieldsF.eq_2] at h
      split at h
      · rename_i r0 heq
        split at h
        · simp at h
        · rename_i kcs r1 hk
          split at h
          · rename_i r2 heq1
            split at h
            · simp at h
            · rename_i v r3 hv
              have hvw := ihV r2 v r3 hv
              split at h
              · rename_i r4 heq3
                rcases hm2 : parseFieldsF f r4 with _ | ⟨fds2, rr⟩
                · rw [hm2] at h
                  simp at h
                · rw [hm2] at h
                  simp only [Option.map_some', Option.some.injEq, Prod.mk.injEq] at h
                  rw [← h.1]
                  intro kv hkv
                  rcases List.mem_cons.mp hkv with h1 | h1
                  · rw [h1]; exact hvw
                  · exact ihF _ _ _ hm2 kv h1
              · rename_i b r4 hbne heq3
                by_cases hbr : b = braceR
                · rw [if_pos hbr] at h
                  simp only [Option.some.injEq, Prod.mk.injEq] at h
                  rw [← h.1]
                  intro kv hkv
                  rcases List.mem_singleton.mp hkv with h1
                  rw [h1]
                  exact hvw
                · rw [if_neg hbr] at h
                  simp at h
              · simp at h
          · simp at h
      · simp at h

theorem jsonParse_wf {s : String} {p : Json} (h : jsonParse s = some p) : p.wfB = true := by
  unfold jsonParse at h
  rcases hm : parseValueF (2 * slen s + 2) s.data with _ | ⟨j, rest⟩
  · rw [hm] at h
    simp at h
  · rw [hm] at h
    change (if List.dropWhile jsWs rest = [] then some j else none) = some p at h
    split_ifs at h
    simp only [Option.some.injEq] at h
    subst h
    exact (parse_wf (2 * slen s + 2)).1 s.data _ rest hm

instance : IsTotal Json sortCmp := ⟨fun a b => jsLocaleLe_total _ _⟩

instance : IsTrans Json sortCmp := ⟨fun _ _ _ hab hbc => jsLocaleLe_trans hab hbc⟩

instance : IsTotal (String × Json) fieldLe := ⟨fun a b => ordLe_total _ _⟩

instance : IsTrans (String × Json) fieldLe := ⟨fun _ _ _ hab hbc => ordLe_trans hab hbc⟩

theorem norm_wf : ∀ (n : Nat) (j : Json), j.mea ≤ n → j.wfB = true →
    (normalizeProbeResult j).wfB = true := by
  intro n
  induction n with
  | zero => intro j hm _; exact absurd hm (by have := mea_pos j; omega)
  | succ n ih =>
    intro j hm hwf
    cases j with
    | null => exact hwf
    | bool b => exact hwf
    | num m => exact hwf
    | str s => exact hwf
    | arr xs =>
      rw [normalize_arr]
      show Json.wfListB (List.insertionSort sortCmp (xs.map normalizeProbeResult)) = true
      rw [wfListB_iff]
      intro y hy
      have hy2 : y ∈ xs.map normalizeProbeResult :=
        (List.Perm.mem_iff (List.perm_insertionSort _ _)).mp hy
      obtain ⟨x, hx, he⟩ := List.mem_map.mp hy2
      subst he
      have hxm : x.mea ≤ n := by
        have h1 := mem_meaList hx
        simp only [Json.mea] at hm
        omega
      exact ih x hxm ((wfListB_iff xs).mp (by simpa [Json.wfB] using hwf) x hx)
    | obj fs =>
      rw [normalize_obj]
      have hwf2 : strListNodup (fs.map Prod.fst) = true ∧ Json.wfFieldsB fs = true := by
        simpa [Json.wfB, Bool.and_eq_true] using hwf
      show (strListNodup (((List.insertionSort fieldLe fs).map
            (fun kv => (kv.1, normalizeFieldValue kv.1 kv.2))).map Prod.fst)
          && Json.wfFieldsB ((List.insertionSort fieldLe fs).map
            (fun kv => (kv.1, normalizeFieldValue kv.1 kv.2)))) = true
      rw [Bool.and_eq_true, strListNodup_iff, wfFieldsB_iff]
      constructor
      · have hkeys : ((List.insertionSort fieldLe fs).map
            (fun kv => (kv.1, normalizeFieldValue kv.1 kv.2))).map Prod.fst
            = (List.insertionSort fieldLe fs).map Prod.fst := by
          rw [List.map_map]
          rfl
        rw [hkeys]
        have hperm : List.Perm ((List.insertionSort fieldLe fs).map Prod.fst)
            (fs.map Prod.fst) :=
          (List.perm_insertionSort _ _).map _
        exact hperm.nodup_iff.mpr ((strListNodup_iff _).mp hwf2.1)
      · intro kv hkv
        obtain ⟨p, hp, he⟩ := List.mem_map.mp hkv
        subst he
        have hpfs : p ∈ fs := (List.Perm.mem_iff (List.perm_insertionSort _ _)).mp hp
        show (normalizeFieldValue p.1 p.2).wfB = true
        rcases p with ⟨k, v⟩
        have hvwf : v.wfB = true := (wfFieldsB_iff fs).mp hwf2.2 (k, v) hpfs
        have hvm : v.mea ≤ n := by
          have h1 : Json.meaFields fs ≤ n := by
            simp only [Json.mea] at hm
            omega
          have h2 := mem_meaFields hpfs
          omega
        cases v with
        | str s =>
          show (if k = "text" ∧ (strStartsWith (strTrim s) '[' = true
                ∨ strStartsWith (strTrim s) braceL = true) then
              (match jsonParse s with
              | some parsed => Json.str (jsonToString (normalizeProbeResult parsed))
              | none => Json.str s)
            else Json.str s).wfB = true
          split_ifs with hc
          · split <;> rfl
          · rfl
        | null => exact ih _ hvm hvwf
        | bool b => exact ih _ hvm hvwf
        | num m => exact ih _ hvm hvwf
        | arr ys => exact ih _ hvm hvwf
        | obj gs => exact ih _ hvm hvwf

theorem backTrim_keep : ∀ (m : List Char) (c : Char), jsWs c = false →
    ∃ l2, ((m ++ [c]).dropWhile jsWs).reverse = c :: l2 := by
  intro m
  induction m with
  | nil =>
    intro c hc
    exact ⟨[], by simp [List.dropWhile_cons, hc]⟩
  | cons a m ih =>
    intro c hc
    by_cases ha : jsWs a = true
    · obtain ⟨l2, h2⟩ := ih c hc
      exact ⟨l2, by simp [List.cons_append, List.dropWhile_cons, ha, h2]⟩
    · refine ⟨m.reverse ++ [a], ?_⟩
      rw [List.cons_append, List.dropWhile_cons, if_neg (by simp [ha])]
      simp

theorem dropWhile_head_false {p : Char → Bool} :
    ∀ {l l' : List Char} {c : Char}, l.dropWhile p = c :: l' → p c = false := by
  intro l
  induction l with
  | nil => intro l' c h; simp at h
  | cons a m ih =>
    intro l' c h
    rw [List.dropWhile_cons] at h
    split_ifs at h with ha
    · exact ih h
    · rw [List.cons.injEq] at h
      rw [← h.1]
      simpa using ha

theorem strTrim_startsWith {s : String} {c0 : Char}
    (h : strStartsWith (strTrim s) c0 = true) :
    (s.data.dropWhile jsWs).head? = some c0 := by
  unfold strTrim strStartsWith at h
  rcases hX : s.data.dropWhile jsWs with _ | ⟨c, l⟩
  · rw [hX] at h
    simp at h
  · have hcws : jsWs c = false := dropWhile_head_false hX
    obtain ⟨l2, h2⟩ := backTrim_keep l.reverse c hcws
    rw [hX] at h
    have hrev : (c :: l).reverse = l.reverse ++ [c] := by simp
    rw [hrev, h2] at h
    simp only at h
    rw [List.head?_cons, Option.some.injEq]
    exact of_decide_eq_true h

theorem parseValue_shape_arr : ∀ {f : Nat} {cs : List Char} {j : Json} {rest : List Char},
    parseValueF f cs = some (j, rest) → (cs.dropWhile jsWs).head? = some '[' →
    ∃ xs, j = .arr xs := by
  intro f cs j rest h hh
  cases f with
  | zero => simp [parseValueF] at h
  | succ f =>
    rw [parseValueF.eq_2] at h
    split at h
    · simp at h
    · rename_i c rest1 hd
      rw [hd] at hh
      rw [List.head?_cons, Option.some.injEq] at hh
      subst hh
      rw [if_neg (by decide), if_neg (by decide), if_neg (by decide), if_neg (by decide),
        if_pos rfl] at h
      split at h
      · simp only [Option.some.injEq, Prod.mk.injEq] at h
        exact ⟨[], h.1.symm⟩
      · rcases hm : parseItemsF f (rest1.dropWhile jsWs) with _ | ⟨vs, rr⟩
        · rw [hm] at h
          simp at h
        · rw [hm] at h
          simp only [Option.map_some', Option.some.injEq, Prod.mk.injEq] at h
          exact ⟨vs, h.1.symm⟩

theorem parseValue_shape_obj : ∀ {f : Nat} {cs : List Char} {j : Json} {rest : List Char},
    parseValueF f cs = some (j, rest) → (cs.dropWhile jsWs).head? = some braceL →
    ∃ fs, j = .obj fs := by
  intro f cs j rest h hh
  cases f with
  | zero => simp [parseValueF] at h
  | succ f =>
    rw [parseValueF.eq_2] at h
    split at h
    · simp at h
    · rename_i c rest1 hd
      rw [hd] at hh
      rw [List.head?_cons, Option.some.injEq] at hh
      subst hh
      rw [if_neg (by decide), if_neg (by decide), if_neg (by decide), if_neg (by decide),
        if_neg (by decide), if_pos rfl] at h
      split at h
      · rename_i b2 r2 heq
        by_cases hb2 : b2 = braceR
        · rw [if_pos hb2] at h
          simp only [Option.some.injEq, Prod.mk.injEq] at h
          exact ⟨[], h.1.symm⟩
        · rw [if_neg hb2] at h
          rcases hm : parseFieldsF f (b2 :: r2) with _ | ⟨fds, rr⟩
          · rw [hm] at h
            simp at h
          · rw [hm] at h
            simp only [Option.map_some', Option.some.injEq, Prod.mk.injEq] at h
            exact ⟨_, h.1.symm⟩
      · simp at h

theorem jsonParse_shape_arr {s : String} {j : Json} (hp : jsonParse s = some j)
    (hh : strStartsWith (strTrim s) '[' = true) : ∃ xs, j = .arr xs := by
  unfold jsonParse at hp
  rcases hm : parseValueF (2 * slen s + 2) s.data with _ | ⟨j2, rest⟩
  · rw [hm] at hp
    simp at hp
  · rw [hm] at hp
    change (if List.dropWhile jsWs rest = [] then some j2 else none) = some j at hp
    split_ifs at hp
    simp only [Option.some.injEq] at hp
    subst hp
    exact parseValue_shape_arr hm (strTrim_startsWith hh)

theorem jsonParse_shape_obj {s : String} {j : Json} (hp : jsonParse s = some j)
    (hh : strStartsWith (strTrim s) braceL = true) : ∃ fs, j = .obj fs := by
  unfold jsonParse at hp
  rcases hm : parseValueF (2 * slen s + 2) s.data with _ | ⟨j2, rest⟩
  · rw [hm] at hp
    simp at hp
  · rw [hm] at hp
    change (if List.dropWhile jsWs rest = [] then some j2 else none) = some j at hp
    split_ifs at hp
    simp only [Option.some.injEq] at hp
    subst hp
    exact parseValue_shape_obj hm (strTrim_startsWith hh)

theorem strTrim_sandwich (a b : Char) (ha : jsWs a = false) (hb : jsWs b = false)
    (mid : List Char) :
    strTrim (String.mk (a :: (mid ++ [b]))) = String.mk (a :: (mid ++ [b])) := by
  unfold strTrim
  show String.mk (((List.dropWhile jsWs (a :: (mid ++ [b]))).reverse.dropWhile jsWs).reverse)
    = _
  rw [List.dropWhile_cons, if_neg (by simp [ha])]
  rw [show (a :: (mid ++ [b])).reverse = b :: (mid.reverse ++ [a]) from by simp]
  rw [List.dropWhile_cons, if_neg (by simp [hb])]
  rw [show (b :: (mid.reverse ++ [a])).reverse = a :: (mid ++ [b]) from by simp]

theorem strTrim_ser_arr (xs : List Json) :
    strTrim (jsonToString (Json.arr xs)) = jsonToString (Json.arr xs) := by
  conv_lhs => rw [← stringMk_data (jsonToString (Json.arr xs)), data_arr]
  rw [strTrim_sandwich '[' ']' (by decide) (by decide)]
  rw [← data_arr, stringMk_data]

theorem strTrim_ser_obj (fs : List (String × Json)) :
    strTrim (jsonToString (Json.obj fs)) = jsonToString (Json.obj fs) := by
  conv_lhs => rw [← stringMk_data (jsonToString (Json.obj fs)), data_obj]
  rw [strTrim_sandwich braceL braceR (by decide) (by decide)]
  rw [← data_obj, stringMk_data]

theorem startsWith_ser_arr (xs : List Json) :
    strStartsWith (jsonToString (Json.arr xs)) '[' = true := by
  unfold strStartsWith
  rw [data_arr]
  simp

theorem startsWith_ser_obj (fs : List (String × Json)) :
    strStartsWith (jsonToString (Json.obj fs)) braceL = true := by
  unfold strStartsWith
  rw [data_obj]
  simp

theorem nfv_not_str (k : String) (v : Json) (h : ∀ s, v ≠ .str s) :
    normalizeFieldValue k v = normalizeProbeResult v := by
  cases v with
  | str s => exact absurd rfl (h s)
  | null => rfl
  | bool b => rfl
  | num n => rfl
  | arr xs => rfl
  | obj fs => rfl

theorem normalize_not_str (v : Json) (h : ∀ s, v ≠ .str s) :
    ∀ s, normalizeProbeResult v ≠ .str s := by
  cases v with
  | str s => exact absurd rfl (h s)
  | null => intro s; rw [normalize_null]; exact fun hh => Json.noConfusion hh
  | bool b => intro s; rw [normalize_bool]; exact fun hh => Json.noConfusion hh
  | num n => intro s; rw [normalize_num]; exact fun hh => Json.noConfusion hh
  | arr xs => intro s; rw [normalize_arr]; exact fun hh => Json.noConfusion hh
  | obj fs => intro s; rw [normalize_obj]; exact fun hh => Json.noConfusion hh

theorem norm_idem_aux : ∀ (n : Nat) (j : Json), j.mea ≤ n →
    normalizeProbeResult (normalizeProbeResult j) = normalizeProbeResult j := by
  intro n
  induction n with
  | zero => intro j hm; exact absurd hm (by have := mea_pos j; omega)
  | succ n ih =>
    intro j hm
    have hnfv : ∀ (k : String) (v : Json), v.mea ≤ n →
        normalizeFieldValue k (normalizeFieldValue k v) = normalizeFieldValue k v := by
      intro k v hv
      cases v with
      | str s =>
        have hshow : normalizeFieldValue k (Json.str s) =
            (if k = "text" ∧ (strStartsWith (strTrim s) '[' = true
                ∨ strStartsWith (strTrim s) braceL = true) then
              (match jsonParse s with
              | some parsed => Json.str (jsonToString (normalizeProbeResult parsed))
              | none => Json.str s)
            else Json.str s) := rfl
        by_cases hc : k = "text" ∧ (strStartsWith (strTrim s) '[' = true
            ∨ strStartsWith (strTrim s) braceL = true)
        · rcases hp : jsonParse s with _ | parsed
          · rw [hshow, if_pos hc, hp]
            rw [hshow, if_pos hc, hp]
          · have hpm : parsed.mea ≤ n := by
              have h1 := jsonParse_mea hp
              simp only [Json.mea] at hv
              omega
            have hpw : parsed.wfB = true := jsonParse_wf hp
            have hnw : (normalizeProbeResult parsed).wfB = true :=
              norm_wf parsed.mea parsed le_rfl hpw
            have hroundtrip : jsonParse (jsonToString (normalizeProbeResult parsed))
                = some (normalizeProbeResult parsed) :=
              jsonParse_jsonToString _ hnw
            have hcond2 : strStartsWith
                  (strTrim (jsonToString (normalizeProbeResult parsed))) '[' = true
                ∨ strStartsWith
                  (strTrim (jsonToString (normalizeProbeResult parsed))) braceL = true := by
              rcases hc.2 with hb | hb
              · obtain ⟨xs, hxs⟩ := jsonParse_shape_arr hp hb
                subst hxs
                rw [normalize_arr, strTrim_ser_arr]
                exact Or.inl (startsWith_ser_arr _)
              · obtain ⟨fs, hfs⟩ := jsonParse_shape_obj hp hb
                subst hfs
                rw [normalize_obj, strTrim_ser_obj]
                exact Or.inr (startsWith_ser_obj _)
            rw [hshow, if_pos hc, hp]
            have hshow2 : normalizeFieldValue k
                (Json.str (jsonToString (normalizeProbeResult parsed))) =
                (if k = "text" ∧ (strStartsWith
                      (strTrim (jsonToString (normalizeProbeResult parsed))) '[' = true
                    ∨ strStartsWith
                      (strTrim (jsonToString (normalizeProbeResult parsed))) braceL = true) then
                  (match jsonParse (jsonToString (normalizeProbeResult parsed)) with
                  | some parsed2 => Json.str (jsonToString (normalizeProbeResult parsed2))
                  | none => Json.str (jsonToString (normalizeProbeResult parsed)))
                else Json.str (jsonToString (normalizeProbeResult parsed))) := rfl
            rw [hshow2, if_pos ⟨hc.1, hcond2⟩, hroundtrip]
            show Json.str (jsonToString (normalizeProbeResult (normalizeProbeResult parsed)))
              = Json.str (jsonToString (normalizeProbeResult parsed))
            rw [ih parsed hpm]
        · rw [hshow, if_neg hc, hshow, if_neg hc]
      | null => rfl
      | bool b => rfl
      | num m => rfl
      | arr xs =>
        have hns : ∀ s, Json.arr xs ≠ Json.str s := fun s hh => Json.noConfusion hh
        rw [nfv_not_str k _ hns,
          nfv_not_str k _ (normalize_not_str _ hns),
          ih _ hv]
      | obj fs =>
        have hns : ∀ s, Json.obj fs ≠ Json.str s := fun s hh => Json.noConfusion hh
        rw [nfv_not_str k _ hns,
          nfv_not_str k _ (normalize_not_str _ hns),
          ih _ hv]
    cases j with
    | null => rfl
    | bool b => rfl
    | num m => rfl
    | str s => rfl
    | arr xs =>
      rw [normalize_arr, normalize_arr]
      have hmap : (List.insertionSort sortCmp (xs.map normalizeProbeResult)).map
          normalizeProbeResult = List.insertionSort sortCmp (xs.map normalizeProbeResult) := by
        have hfun : ∀ y ∈ List.insertionSort sortCmp (xs.map normalizeProbeResult),
            normalizeProbeResult y = id y := by
          intro y hy
          have hy2 : y ∈ xs.map normalizeProbeResult :=
            (List.Perm.mem_iff (List.perm_insertionSort _ _)).mp hy
          obtain ⟨x, hx, he⟩ := List.mem_map.mp hy2
          subst he
          have hxm : x.mea ≤ n := by
            have h1 := mem_meaList hx
            simp only [Json.mea] at hm
            omega
          show normalizeProbeResult (normalizeProbeResult x) = normalizeProbeResult x
          exact ih x hxm
        rw [List.map_congr_left hfun, List.map_id]
      rw [hmap]
      rw [List.Sorted.insertionSort_eq (List.sorted_insertionSort _ _)]
    | obj fs =>
      rw [normalize_obj, normalize_obj]
      have hsortedL : List.Sorted fieldLe ((List.insertionSort fieldLe fs).map
          (fun kv => (kv.1, normalizeFieldValue kv.1 kv.2))) := by
        have h0 : List.Sorted fieldLe (List.insertionSort fieldLe fs) :=
          List.sorted_insertionSort _ _
        exact List.Pairwise.map _ (fun a b hab => hab) h0
      rw [List.Sorted.insertionSort_eq hsortedL]
      have hmap : ((List.insertionSort fieldLe fs).map
            (fun kv => (kv.1, normalizeFieldValue kv.1 kv.2))).map
            (fun kv => (kv.1, normalizeFieldValue kv.1 kv.2))
          = (List.insertionSort fieldLe fs).map
            (fun kv => (kv.1, normalizeFieldValue kv.1 kv.2)) := by
        rw [List.map_map]
        apply List.map_congr_left
        intro p hp
        rcases p with ⟨k, v⟩
        have hpfs : (k, v) ∈ fs := (List.Perm.mem_iff (List.perm_insertionSort _ _)).mp hp
        have hvm : v.mea ≤ n := by
          have h1 : Json.meaFields fs ≤ n := by
            simp only [Json.mea] at hm
            omega
          have h2 := mem_meaFields hpfs
          omega
        show (k, normalizeFieldValue k (normalizeFieldValue k v))
          = (k, normalizeFieldValue k v)
        rw [hnfv k v hvm]
      rw [hmap]

/-- Canonicalization is idempotent. -/
theorem norm_idem (j : Json) :
    normalizeProbeResult (normalizeProbeResult j) = normalizeProbeResult j :=
  norm_idem_aux j.mea j le_rfl

theorem lookup_cons_eq {α : Type} (k : String) (v : α) (ps : List (String × α)) :
    ((k, v) :: ps).lookup k = some v := by
  show (match k == k with
    | true => some v
    | false => ps.lookup k) = some v
  rw [show (k == k) = true from by simp]

theorem lookup_cons_ne {α : Type} {k k1 : String} (v1 : α) (ps : List (String × α))
    (h : k ≠ k1) : ((k1, v1) :: ps).lookup k = ps.lookup k := by
  show (match k == k1 with
    | true => some v1
    | false => ps.lookup k) = ps.lookup k
  rw [show (k == k1) = false from by simp [h]]

theorem lookup_mapSet_ne {α : Type} (m : List (String × α)) (k k2 : String) (v : α)
    (h : k2 ≠ k) : (mapSet m k v).lookup k2 = m.lookup k2 := by
  unfold mapSet
  split_ifs with hs
  · clear hs
    induction m with
    | nil => rfl
    | cons p ps ih =>
      rcases p with ⟨k1, v1⟩
      by_cases h1 : k1 = k
      · subst h1
        rw [List.map_cons,
          show (if ((k1, v1) : String × α).1 = k1 then (k1, v) else (k1, v1)) = (k1, v)
            from if_pos rfl]
        rw [lookup_cons_ne _ _ h, lookup_cons_ne _ _ h]
        exact ih
      · rw [List.map_cons,
          show (if ((k1, v1) : String × α).1 = k then (k, v) else (k1, v1)) = (k1, v1)
            from if_neg h1]
        by_cases h2 : k2 = k1
        · subst h2
          rw [lookup_cons_eq, lookup_cons_eq]
        · rw [lookup_cons_ne _ _ h2, lookup_cons_ne _ _ h2]
          exact ih
  · clear hs
    induction m with
    | nil =>
      simp only [List.nil_append]
      rw [lookup_cons_ne _ _ h]
    | cons p ps ih =>
      rcases p with ⟨k1, v1⟩
      rw [List.cons_append]
      by_cases h2 : k2 = k1
      · subst h2
        rw [lookup_cons_eq, lookup_cons_eq]
      · rw [lookup_cons_ne _ _ h2, lookup_cons_ne _ _ h2]
        exact ih

theorem mapSet_keys_nodup {α : Type} {m : List (String × α)} (k : String) (v : α)
    (h : (m.map Prod.fst).Nodup) : ((mapSet m k v).map Prod.fst).Nodup := by
  unfold mapSet
  split_ifs with hs
  · have heq : (m.map (fun p => if p.1 = k then (k, v) else p)).map Prod.fst
        = m.map Prod.fst := by
      clear hs h
      induction m with
      | nil => rfl
      | cons p ps ih =>
        by_cases h1 : p.1 = k
        · simp only [List.map_cons, if_pos h1, ih]
          rw [← h1]
        · simp only [List.map_cons, if_neg h1, ih]
    rw [heq]
    exact h
  · have hk : k ∉ m.map Prod.fst := by
      rw [← lookup_isSome_iff]
      simpa using hs
    simp only [List.map_append, List.map_cons, List.map_nil]
    rw [List.nodup_append]
    refine ⟨h, List.nodup_singleton k, ?_⟩
    intro a ha hb
    simp only [List.mem_singleton] at hb
    subst hb
    exact hk ha

theorem buildItemMap_core_nodup {l : List (Nat × Json)} :
    ∀ (acc : List (String × Json)), (acc.map Prod.fst).Nodup →
    ((l.foldl (fun m p => mapSet m (getItemKey p.2 p.1) p.2) acc).map Prod.fst).Nodup := by
  induction l with
  | nil => intro acc h; exact h
  | cons p l ih =>
    intro acc h
    rw [List.foldl_cons]
    exact ih _ (mapSet_keys_nodup _ _ h)

theorem buildItemMap_keys_nodup (xs : List Json) :
    ((buildItemMap xs).map Prod.fst).Nodup := by
  unfold buildItemMap
  exact buildItemMap_core_nodup [] (by simp)

theorem lookup_of_mem {α : Type} {m : List (String × α)} {kv : String × α}
    (hnd : (m.map Prod.fst).Nodup) (h : kv ∈ m) : m.lookup kv.1 = some kv.2 := by
  induction m with
  | nil => cases h
  | cons p ps ih =>
    rcases p with ⟨k1, v1⟩
    simp only [List.map_cons, List.nodup_cons] at hnd
    rcases List.mem_cons.mp h with h1 | h1
    · subst h1
      exact lookup_cons_eq _ _ _
    · by_cases h2 : kv.1 = k1
      · exact absurd (h2 ▸ (List.mem_map.mpr ⟨kv, h1, rfl⟩)) hnd.1
      · rw [lookup_cons_ne _ _ h2]
        exact ih hnd.2 h1

theorem mem_of_lookup {α : Type} {m : List (String × α)} {k : String} {v : α}
    (h : m.lookup k = some v) : (k, v) ∈ m := by
  induction m with
  | nil => simp [List.lookup] at h
  | cons p ps ih =>
    rcases p with ⟨k1, v1⟩
    by_cases h2 : k = k1
    · subst h2
      rw [lookup_cons_eq] at h
      simp only [Option.some.injEq] at h
      subst h
      exact List.mem_cons_self _ _
    · rw [lookup_cons_ne _ _ h2] at h
      exact List.mem_cons_of_mem _ (ih h)

theorem mem_mapSet {α : Type} {kv : String × α} {m : List (String × α)} {k : String} {v : α}
    (h : kv ∈ mapSet m k v) : kv ∈ m ∨ kv = (k, v) := by
  unfold mapSet at h
  split_ifs at h with hs
  · rw [List.mem_map] at h
    obtain ⟨p, hp, he⟩ := h
    by_cases hpk : p.1 = k
    · rw [if_pos hpk] at he
      exact Or.inr he.symm
    · rw [if_neg hpk] at he
      exact Or.inl (he ▸ hp)
  · rw [List.mem_append, List.mem_singleton] at h
    exact h

theorem mem_buildItemMap_core :
    ∀ (l : List (Nat × Json)) (acc : List (String × Json)) (kv : String × Json),
    kv ∈ l.foldl (fun m p => mapSet m (getItemKey p.2 p.1) p.2) acc →
    kv ∈ acc ∨ kv.2 ∈ l.map Prod.snd := by
  intro l
  induction l with
  | nil => intro acc kv h; exact Or.inl h
  | cons p l ih =>
    intro acc kv h
    rw [List.foldl_cons] at h
    rcases ih _ _ h with h1 | h1
    · rcases mem_mapSet h1 with h2 | h2
      · exact Or.inl h2
      · exact Or.inr (by rw [h2]; exact List.mem_cons_self _ _)
    · exact Or.inr (List.mem_cons_of_mem _ h1)

theorem mem_buildItemMap {kv : String × Json} {xs : List Json}
    (h : kv ∈ buildItemMap xs) : kv.2 ∈ xs := by
  unfold buildItemMap at h
  rcases mem_buildItemMap_core _ _ _ h with h1 | h1
  · cases h1
  · rw [List.enum_map_snd] at h1
    exact h1

theorem mapSet_fresh {α : Type} (m : List (String × α)) (k : String) (v : α)
    (h : k ∉ m.map Prod.fst) : mapSet m k v = m ++ [(k, v)] := by
  unfold mapSet
  rw [if_neg]
  intro hs
  exact h ((lookup_isSome_iff m k).mp hs)

theorem buildItemMap_core_eq :
    ∀ (l : List (Nat × Json)) (acc : List (String × Json)),
    (acc.map Prod.fst ++ l.map (fun p => getItemKey p.2 p.1)).Nodup →
    l.foldl (fun m p => mapSet m (getItemKey p.2 p.1) p.2) acc
      = acc ++ l.map (fun p => (getItemKey p.2 p.1, p.2)) := by
  intro l
  induction l with
  | nil => intro acc _; simp
  | cons p l ih =>
    intro acc h
    rw [List.foldl_cons]
    have hk : getItemKey p.2 p.1 ∉ acc.map Prod.fst := by
      intro hmem
      rw [List.map_cons] at h
      exact (List.disjoint_of_nodup_append h) hmem (List.mem_cons_self _ _)
    rw [mapSet_fresh _ _ _ hk, ih (acc ++ [(getItemKey p.2 p.1, p.2)])
      (by simpa [List.append_assoc] using h)]
    simp

theorem buildItemMap_eq (xs : List Json) (h : strListNodup (itemKeys xs) = true) :
    buildItemMap xs = xs.enum.map (fun p => (getItemKey p.2 p.1, p.2)) := by
  unfold buildItemMap
  rw [buildItemMap_core_eq xs.enum []
    (by simpa using (strListNodup_iff _).mp h)]
  simp

theorem mem_dedupFirstAux : ∀ {l seen : List String} {k : String},
    k ∈ dedupFirstAux seen l → k ∈ l := by
  intro l
  induction l with
  | nil => intro seen k h; simp [dedupFirstAux] at h
  | cons a l ih =>
    intro seen k h
    unfold dedupFirstAux at h
    split_ifs at h with hs
    · exact List.mem_cons_of_mem _ (ih h)
    · rcases List.mem_cons.mp h with h1 | h1
      · exact h1 ▸ List.mem_cons_self _ _
      · exact List.mem_cons_of_mem _ (ih h1)

theorem mem_dedupFirst {l : List String} {k : String} (h : k ∈ dedupFirst l) : k ∈ l :=
  mem_dedupFirstAux h

theorem dedupFirstAux_mem : ∀ {l seen : List String} {k : String},
    k ∈ l → (k ∈ seen ∨ k ∈ dedupFirstAux seen l) := by
  intro l
  induction l with
  | nil => intro seen k h; cases h
  | cons a l ih =>
    intro seen k h
    unfold dedupFirstAux
    split_ifs with hs
    · rcases List.mem_cons.mp h with h1 | h1
      · subst h1
        exact Or.inl (by simpa using hs)
      · exact ih h1
    · rcases List.mem_cons.mp h with h1 | h1
      · exact Or.inr (h1 ▸ List.mem_cons_self _ _)
      · rcases @ih (a :: seen) k h1 with h2 | h2
        · rcases List.mem_cons.mp h2 with h3 | h3
          · exact Or.inr (h3 ▸ List.mem_cons_self _ _)
          · exact Or.inl h3
        · exact Or.inr (List.mem_cons_of_mem _ h2)

theorem dedupFirst_mem {l : List String} {k : String} (h : k ∈ l) : k ∈ dedupFirst l := by
  rcases @dedupFirstAux_mem l [] k h with h1 | h1
  · cases h1
  · exact h1

theorem findJsonDifferencesF_succ (f : Nat) (base branch : Json) (path : String) :
    findJsonDifferencesF (f+1) base branch path =
      (if base = Json.null then
        if branch = Json.null then [] else ["+ " ++ rootPath path ++ ": " ++ formatValue branch]
      else if branch = Json.null then ["- " ++ rootPath path ++ ": " ++ formatValue base]
      else if jsTypeof base ≠ jsTypeof branch then
        ["- " ++ rootPath path ++ ": " ++ formatValue base,
          "+ " ++ rootPath path ++ ": " ++ formatValue branch]
      else
        match base, branch with
        | Json.arr xs, Json.arr ys => compareArraysF (findJsonDifferencesF f) xs ys path
        | base, branch =>
          if jsTypeof base = "object" then
            (dedupFirst ((jsObjEntries base).map Prod.fst
                ++ (jsObjEntries branch).map Prod.fst)).flatMap (fun key =>
              if (!((jsObjEntries base).map Prod.fst).contains key) = true then
                ["+ " ++ childPath path key ++ ": " ++
                    match List.lookup key (jsObjEntries branch) with
                    | some v => formatValue v
                    | none => "undefined"]
              else if (!((jsObjEntries branch).map Prod.fst).contains key) = true then
                ["- " ++ childPath path key ++ ": " ++
                    match List.lookup key (jsObjEntries base) with
                    | some v => formatValue v
                    | none => "undefined"]
              else
                match List.lookup key (jsObjEntries base),
                    List.lookup key (jsObjEntries branch) with
                | some bv, some brv => findJsonDifferencesF f bv brv (childPath path key)
                | _, _ => [])
          else if base = branch then []
          else ["- " ++ path ++ ": " ++ formatValue base,
            "+ " ++ path ++ ": " ++ formatValue branch]) := by
  rw [findJsonDifferencesF.eq_def]

theorem diff_refl : ∀ (f : Nat) (a : Json) (path : String),
    findJsonDifferencesF f a a path = [] := by
  intro f
  induction f with
  | zero => intro a path; rfl
  | succ f ih =>
    intro a path
    rw [findJsonDifferencesF_succ]
    cases a with
    | null => rw [if_pos rfl, if_pos rfl]
    | bool b => simp [jsTypeof]
    | num n => simp [jsTypeof]
    | str s => simp [jsTypeof]
    | arr xs =>
      rw [if_neg (by simp), if_neg (by simp), if_neg (by simp)]
      show compareArraysF (findJsonDifferencesF f) xs xs path = []
      unfold compareArraysF
      simp only []
      have hnd := buildItemMap_keys_nodup xs
      have hrm : (buildItemMap xs).filterMap (fun kv =>
          if mapHas (buildItemMap xs) kv.1 then none
          else some ("- " ++ path ++ "[" ++ kv.1 ++ "]: " ++ formatValue kv.2)) = [] := by
        rw [List.filterMap_eq_nil_iff]
        intro kv hkv
        rw [if_pos]
        unfold mapHas
        rw [lookup_of_mem hnd hkv]
        rfl
      have had : (buildItemMap xs).filterMap (fun kv =>
          if mapHas (buildItemMap xs) kv.1 then none
          else some ("+ " ++ path ++ "[" ++ kv.1 ++ "]: " ++ formatValue kv.2)) = [] := by
        rw [List.filterMap_eq_nil_iff]
        intro kv hkv
        rw [if_pos]
        unfold mapHas
        rw [lookup_of_mem hnd hkv]
        rfl
      have hmod : (buildItemMap xs).flatMap (fun kv =>
          match (buildItemMap xs).lookup kv.1 with
          | some branchItem => findJsonDifferencesF f kv.2 branchItem
              (path ++ "[" ++ kv.1 ++ "]")
          | none => []) = [] := by
        rw [List.flatMap_eq_nil_iff]
        intro kv hkv
        rw [lookup_of_mem hnd hkv]
        exact ih _ _
      rw [hrm, had, hmod]
      rfl
    | obj fs =>
      rw [if_neg (by simp), if_neg (by simp), if_neg (by simp)]
      show (if jsTypeof (Json.obj fs) = "object" then
          (dedupFirst ((jsObjEntries (Json.obj fs)).map Prod.fst
              ++ (jsObjEntries (Json.obj fs)).map Prod.fst)).flatMap (fun key =>
            if !(((jsObjEntries (Json.obj fs)).map Prod.fst).contains key) then
              ["+ " ++ childPath path key ++ ": "
                ++ (match (jsObjEntries (Json.obj fs)).lookup key with
                    | some v => formatValue v
                    | none => "undefined")]
            else if !(((jsObjEntries (Json.obj fs)).map Prod.fst).contains key) then
              ["- " ++ childPath path key ++ ": "
                ++ (match (jsObjEntries (Json.obj fs)).lookup key with
                    | some v => formatValue v
                    | none => "undefined")]
            else
              match (jsObjEntries (Json.obj fs)).lookup key,
                  (jsObjEntries (Json.obj fs)).lookup key with
              | some bv, some brv => findJsonDifferencesF f bv brv (childPath path key)
              | _, _ => [])
        else if Json.obj fs = Json.obj fs then []
        else ["- " ++ path ++ ": " ++ formatValue (Json.obj fs),
          "+ " ++ path ++ ": " ++ formatValue (Json.obj fs)]) = []
      rw [if_pos (show jsTypeof (Json.obj fs) = "object" from rfl)]
      rw [List.flatMap_eq_nil_iff]
      intro key hkey
      have hmem : key ∈ (jsObjEntries (Json.obj fs)).map Prod.fst := by
        have h1 := mem_dedupFirst hkey
        rcases List.mem_append.mp h1 with h2 | h2 <;> exact h2
      rw [if_neg (by simpa using hmem), if_neg (by simpa using hmem)]
      rcases hl : (jsObjEntries (Json.obj fs)).lookup key with _ | bv
      · rfl
      · exact ih _ _

theorem strictListB_iff (xs : List Json) :
    Json.strictListB xs = true ↔ ∀ x ∈ xs, x.strictB = true := by
  induction xs with
  | nil => simp [Json.strictListB]
  | cons x xs ih => simp [Json.strictListB, Bool.and_eq_true, ih]

theorem strictFieldsB_iff (fs : List (String × Json)) :
    Json.strictFieldsB fs = true ↔ ∀ kv ∈ fs, (kv.2).strictB = true := by
  induction fs with
  | nil => simp [Json.strictFieldsB]
  | cons kv fs ih =>
    rcases kv with ⟨k, v⟩
    simp [Json.strictFieldsB, Bool.and_eq_true, ih]

theorem chainSorted_pairwise (lt : String → String → Bool)
    (htr : ∀ a b c, lt a b = true → lt b c = true → lt a c = true) :
    ∀ {l : List String}, chainSorted lt l = true →
      l.Pairwise (fun a b => lt a b = true) := by
  intro l
  induction l with
  | nil => intro _; exact List.Pairwise.nil
  | cons a l ih =>
    intro h
    cases l with
    | nil => simp
    | cons b m =>
      have h2 : lt a b = true ∧ chainSorted lt (b :: m) = true := by
        simpa [chainSorted, Bool.and_eq_true] using h
      have hp := ih h2.2
      have hbm := List.pairwise_cons.mp hp
      rw [List.pairwise_cons]
      refine ⟨?_, hp⟩
      intro x hx
      rcases List.mem_cons.mp hx with h3 | h3
      · exact h3 ▸ h2.1
      · exact htr _ _ _ h2.1 (hbm.1 x h3)

theorem sorted_perm_eq {α : Type} {r : α → α → Prop}
    (hasym : ∀ a b, r a b → r b a → False) :
    ∀ {l1 l2 : List α}, List.Perm l1 l2 → l1.Pairwise r → l2.Pairwise r → l1 = l2 := by
  intro l1
  induction l1 with
  | nil =>
    intro l2 hp _ _
    exact (List.Perm.eq_nil hp.symm).symm
  | cons a t1 ih =>
    intro l2 hp h1 h2
    have ha2 : a ∈ l2 := hp.mem_iff.mp (List.mem_cons_self _ _)
    cases l2 with
    | nil => cases ha2
    | cons b t2 =>
      by_cases hab : a = b
      · subst hab
        have hperm2 : List.Perm t1 t2 := hp.cons_inv
        rw [ih hperm2 (List.pairwise_cons.mp h1).2 (List.pairwise_cons.mp h2).2]
      · exfalso
        have hat2 : a ∈ t2 := by
          rcases List.mem_cons.mp ha2 with h3 | h3
          · exact absurd h3 hab
          · exact h3
        have hbt1 : b ∈ t1 := by
          have hb1 : b ∈ a :: t1 := hp.symm.mem_iff.mp (List.mem_cons_self _ _)
          rcases List.mem_cons.mp hb1 with h3 | h3
          · exact absurd h3.symm hab
          · exact h3
        exact hasym a b ((List.pairwise_cons.mp h1).1 b hbt1)
          ((List.pairwise_cons.mp h2).1 a hat2)

theorem assoc_ext {α : Type} : ∀ (fs gs : List (String × α)),
    fs.map Prod.fst = gs.map Prod.fst → (fs.map Prod.fst).Nodup →
    (∀ k v w, fs.lookup k = some v → gs.lookup k = some w → v = w) → fs = gs := by
  intro fs
  induction fs with
  | nil =>
    intro gs hkeys _ _
    have : gs.map Prod.fst = [] := hkeys.symm
    rw [List.map_eq_nil] at this
    rw [this]
  | cons kv fs ih =>
    intro gs hkeys hnd hlk
    rcases kv with ⟨k, v⟩
    cases gs with
    | nil => simp at hkeys
    | cons kw gs' =>
      rcases kw with ⟨k2, w⟩
      simp only [List.map_cons, List.cons.injEq] at hkeys
      obtain ⟨hk12, htl⟩ := hkeys
      subst hk12
      simp only [List.map_cons, List.nodup_cons] at hnd
      have hvw : v = w := hlk k v w (lookup_cons_eq _ _ _) (lookup_cons_eq _ _ _)
      subst hvw
      rw [ih gs' htl hnd.2]
      intro k' v' w' hv' hw'
      have hk' : k' ≠ k := by
        intro he
        subst he
        have : k' ∈ fs.map Prod.fst := by
          have := mem_of_lookup hv'
          exact List.mem_map.mpr ⟨_, this, rfl⟩
        exact hnd.1 this
      exact hlk k' v' w'
        (by rw [lookup_cons_ne _ _ hk'] at *; exact hv')
        (by rw [lookup_cons_ne _ _ hk'] at *; exact hw')

theorem diff_complete : ∀ (f : Nat) (a b : Json) (path : String),
    a.mea + b.mea ≤ f → a.strictB = true → b.strictB = true →
    kindMatchedF f a b = true → findJsonDifferencesF f a b path = [] → a = b := by
  intro f
  induction f with
  | zero =>
    intro a b path hm _ _ _ _
    exact absurd hm (by have := mea_pos a; have := mea_pos b; omega)
  | succ f ih =>
    intro a b path hm hsa hsb hk hd
    rw [findJsonDifferencesF_succ] at hd
    by_cases ha : a = Json.null
    · subst ha
      rw [if_pos rfl] at hd
      by_cases hb : b = Json.null
      · exact hb.symm
      · rw [if_neg hb] at hd
        simp at hd
    · rw [if_neg ha] at hd
      by_cases hb : b = Json.null
      · rw [if_pos hb] at hd
        simp at hd
      · rw [if_neg hb] at hd
        by_cases ht : jsTypeof a ≠ jsTypeof b
        · rw [if_pos ht] at hd
          simp at hd
        · rw [if_neg ht] at hd
          cases a with
          | null => exact absurd rfl ha
          | bool b1 =>
            cases b with
            | null => exact absurd rfl hb
            | bool b2 =>
              simp only [jsTypeof] at hd
              simp at hd
              simp [hd]
            | num n2 => exact absurd (not_ne_iff.mp ht) (by simp [jsTypeof])
            | str s2 => exact absurd (not_ne_iff.mp ht) (by simp [jsTypeof])
            | arr ys => exact absurd (not_ne_iff.mp ht) (by simp [jsTypeof])
            | obj gs => exact absurd (not_ne_iff.mp ht) (by simp [jsTypeof])
          | num n1 =>
            cases b with
            | null => exact absurd rfl hb
            | bool b2 => exact absurd (not_ne_iff.mp ht) (by simp [jsTypeof])
            | num n2 =>
              simp only [jsTypeof] at hd
              simp at hd
              simp [hd]
            | str s2 => exact absurd (not_ne_iff.mp ht) (by simp [jsTypeof])
            | arr ys => exact absurd (not_ne_iff.mp ht) (by simp [jsTypeof])
            | obj gs => exact absurd (not_ne_iff.mp ht) (by simp [jsTypeof])
          | str s1 =>
            cases b with
            | null => exact absurd rfl hb
            | bool b2 => exact absurd (not_ne_iff.mp ht) (by simp [jsTypeof])
            | num n2 => exact absurd (not_ne_iff.mp ht) (by simp [jsTypeof])
            | str s2 =>
              simp only [jsTypeof] at hd
              simp at hd
              simp [hd]
            | arr ys => exact absurd (not_ne_iff.mp ht) (by simp [jsTypeof])
            | obj gs => exact absurd (not_ne_iff.mp ht) (by simp [jsTypeof])
          | arr xs =>
            cases b with
            | null => exact absurd rfl hb
            | bool b2 => exact absurd (not_ne_iff.mp ht) (by simp [jsTypeof])
            | num n2 => exact absurd (not_ne_iff.mp ht) (by simp [jsTypeof])
            | str s2 => exact absurd (not_ne_iff.mp ht) (by simp [jsTypeof])
            | obj gs =>
              exfalso
              have hkf : kindMatchedF (f + 1) (Json.arr xs) (Json.obj gs) = false := rfl
              rw [hkf] at hk
              exact absurd hk (by decide)
            | arr ys =>
              have hd2 : compareArraysF (findJsonDifferencesF f) xs ys path = [] := hd
              clear hd
              unfold compareArraysF at hd2
              simp only [] at hd2
              simp only [List.append_eq_nil] at hd2
              obtain ⟨⟨hrm, had⟩, hmod⟩ := hd2
              rw [List.filterMap_eq_nil_iff] at hrm had
              rw [List.flatMap_eq_nil_iff] at hmod
              have hsa3 : (chainSorted jsLocaleLt (xs.map sortKeyAux) = true
                    ∧ strListNodup (itemKeys xs) = true) ∧ Json.strictListB xs = true := by
                simpa [Json.strictB, Bool.and_eq_true] using hsa
              have hsb3 : (chainSorted jsLocaleLt (ys.map sortKeyAux) = true
                    ∧ strListNodup (itemKeys ys) = true) ∧ Json.strictListB ys = true := by
                simpa [Json.strictB, Bool.and_eq_true] using hsb
              have hbx := buildItemMap_eq xs hsa3.1.2
              have hby := buildItemMap_eq ys hsb3.1.2
              have hndx := buildItemMap_keys_nodup xs
              have hndy := buildItemMap_keys_nodup ys
              have hk2 : (buildItemMap xs).all (fun kv =>
                  match (buildItemMap ys).lookup kv.1 with
                  | some branchItem => kindMatchedF f kv.2 branchItem
                  | none => true) = true := hk
              simp only [Json.mea] at hm
              have hmemxy : ∀ kv ∈ buildItemMap xs, kv ∈ buildItemMap ys := by
                intro kv hkv
                have h1 := hrm kv hkv
                by_cases hm1 : mapHas (buildItemMap ys) kv.1 = true
                · unfold mapHas at hm1
                  obtain ⟨w, hw⟩ := Option.isSome_iff_exists.mp hm1
                  have h2 := hmod kv hkv
                  simp only [hw] at h2
                  have hkv2 : kindMatchedF f kv.2 w = true := by
                    have h3 := List.all_eq_true.mp hk2 kv hkv
                    simp only [hw] at h3
                    exact h3
                  have hx2 : kv.2 ∈ xs := mem_buildItemMap hkv
                  have hy2 : w ∈ ys := mem_buildItemMap (mem_of_lookup hw)
                  have heq : kv.2 = w := by
                    refine ih kv.2 w _ ?_ ?_ ?_ hkv2 h2
                    · have d1 := mem_meaList hx2
                      have d2 := mem_meaList hy2
                      omega
                    · exact (strictListB_iff xs).mp hsa3.2 _ hx2
                    · exact (strictListB_iff ys).mp hsb3.2 _ hy2
                  have h4 := mem_of_lookup hw
                  rw [← heq] at h4
                  simpa using h4
                · rw [if_neg hm1] at h1
                  simp at h1
              have hmemyx : ∀ kv ∈ buildItemMap ys, kv ∈ buildItemMap xs := by
                intro kv hkv
                have h1 := had kv hkv
                by_cases hm1 : mapHas (buildItemMap xs) kv.1 = true
                · unfold mapHas at hm1
                  obtain ⟨u, hu⟩ := Option.isSome_iff_exists.mp hm1
                  have hmx := mem_of_lookup hu
                  have h2 := hmemxy _ hmx
                  have h3 := lookup_of_mem hndy h2
                  have h4 := lookup_of_mem hndy hkv
                  rw [h3] at h4
                  simp only [Option.some.injEq] at h4
                  rw [h4] at hmx
                  simpa using hmx
                · rw [if_neg hm1] at h1
                  simp at h1
              have hpairperm : List.Perm (buildItemMap xs) (buildItemMap ys) := by
                rw [List.perm_ext_iff_of_nodup (hndx.of_map) (hndy.of_map)]
                intro kv
                exact ⟨hmemxy kv, hmemyx kv⟩
              have hval : ∀ (l : List (Nat × Json)),
                  (l.map (fun p => (getItemKey p.2 p.1, p.2))).map Prod.snd
                    = l.map Prod.snd := by
                intro l
                rw [List.map_map]
                rfl
              have hxyperm : List.Perm xs ys := by
                have h1 := hpairperm.map Prod.snd
                rw [hbx, hby, hval, hval, List.enum_map_snd, List.enum_map_snd] at h1
                exact h1
              have hpx : xs.Pairwise (fun u v => jsLocaleLt (sortKeyAux u) (sortKeyAux v)
                  = true) := by
                have h1 := chainSorted_pairwise jsLocaleLt
                  (fun _ _ _ h1 h2 => jsLocaleLt_trans h1 h2) hsa3.1.1
                exact (List.pairwise_map).mp h1
              have hpy : ys.Pairwise (fun u v => jsLocaleLt (sortKeyAux u) (sortKeyAux v)
                  = true) := by
                have h1 := chainSorted_pairwise jsLocaleLt
                  (fun _ _ _ h1 h2 => jsLocaleLt_trans h1 h2) hsb3.1.1
                exact (List.pairwise_map).mp h1
              exact congrArg Json.arr (sorted_perm_eq
                (fun u v h1 h2 => by
                  have h3 := jsLocaleLt_asymm h1
                  rw [h3] at h2
                  exact Bool.noConfusion h2) hxyperm hpx hpy)
          | obj fs =>
            cases b with
            | null => exact absurd rfl hb
            | bool b2 => exact absurd (not_ne_iff.mp ht) (by simp [jsTypeof])
            | num n2 => exact absurd (not_ne_iff.mp ht) (by simp [jsTypeof])
            | str s2 => exact absurd (not_ne_iff.mp ht) (by simp [jsTypeof])
            | arr ys =>
              exfalso
              have hkf : kindMatchedF (f + 1) (Json.obj fs) (Json.arr ys) = false := rfl
              rw [hkf] at hk
              exact absurd hk (by decide)
            | obj gs =>
              have hd2 : (dedupFirst ((fs.map Prod.fst) ++ (gs.map Prod.fst))).flatMap
                  (fun key =>
                    if (!((fs.map Prod.fst).contains key)) = true then
                      ["+ " ++ childPath path key ++ ": " ++
                          match List.lookup key gs with
                          | some v => formatValue v
                          | none => "undefined"]
                    else if (!((gs.map Prod.fst).contains key)) = true then
                      ["- " ++ childPath path key ++ ": " ++
                          match List.lookup key fs with
                          | some v => formatValue v
                          | none => "undefined"]
                    else
                      match List.lookup key fs, List.lookup key gs with
                      | some bv, some brv => findJsonDifferencesF f bv brv (childPath path key)
                      | _, _ => []) = [] := hd
              clear hd
              have hflat := List.flatMap_eq_nil_iff.mp hd2
              have hsa3 : chainSorted ordLt (fs.map Prod.fst) = true
                  ∧ Json.strictFieldsB fs = true := by
                simpa [Json.strictB, Bool.and_eq_true] using hsa
              have hsb3 : chainSorted ordLt (gs.map Prod.fst) = true
                  ∧ Json.strictFieldsB gs = true := by
                simpa [Json.strictB, Bool.and_eq_true] using hsb
              have hk2 : fs.all (fun kv =>
                  match gs.lookup kv.1 with
                  | some gv => kindMatchedF f kv.2 gv
                  | none => true) = true := hk
              simp only [Json.mea] at hm
              have hpkf := chainSorted_pairwise ordLt (fun _ _ _ h1 h2 => ordLt_trans h1 h2) hsa3.1
              have hpkg := chainSorted_pairwise ordLt (fun _ _ _ h1 h2 => ordLt_trans h1 h2) hsb3.1
              have hndf : (fs.map Prod.fst).Nodup :=
                hpkf.imp (fun hlt => ordLt_ne hlt)
              have hndg : (gs.map Prod.fst).Nodup :=
                hpkg.imp (fun hlt => ordLt_ne hlt)
              have hkeysub1 : ∀ k ∈ fs.map Prod.fst, k ∈ gs.map Prod.fst := by
                intro k hkf
                by_cases hkg : k ∈ gs.map Prod.fst
                · exact hkg
                · exfalso
                  have hdk := hflat k (dedupFirst_mem (List.mem_append.mpr (Or.inl hkf)))
                  rw [if_neg (by simp [hkf]), if_pos (by simp [hkg])] at hdk
                  simp at hdk
              have hkeysub2 : ∀ k ∈ gs.map Prod.fst, k ∈ fs.map Prod.fst := by
                intro k hkg
                by_cases hkf : k ∈ fs.map Prod.fst
                · exact hkf
                · exfalso
                  have hdk := hflat k (dedupFirst_mem (List.mem_append.mpr (Or.inr hkg)))
                  rw [if_pos (by simp [hkf])] at hdk
                  simp at hdk
              have hkeyperm : List.Perm (fs.map Prod.fst) (gs.map Prod.fst) := by
                rw [List.perm_ext_iff_of_nodup hndf hndg]
                intro k
                exact ⟨hkeysub1 k, hkeysub2 k⟩
              have hkeyeq : fs.map Prod.fst = gs.map Prod.fst :=
                sorted_perm_eq (fun u v h1 h2 => by
                  have h3 := ordLt_asymm h1
                  rw [h3] at h2
                  exact Bool.noConfusion h2) hkeyperm hpkf hpkg
              have hlke : ∀ k v w, fs.lookup k = some v → gs.lookup k = some w → v = w := by
                intro k v w hv hw
                have hkmem : k ∈ fs.map Prod.fst :=
                  List.mem_map.mpr ⟨(k, v), mem_of_lookup hv, rfl⟩
                have hkmemg : k ∈ gs.map Prod.fst := hkeysub1 k hkmem
                have hdk := hflat k (dedupFirst_mem (List.mem_append.mpr (Or.inl hkmem)))
                rw [if_neg (by simp [hkmem]), if_neg (by simp [hkmemg])] at hdk
                simp only [hv, hw] at hdk
                refine ih v w _ ?_ ?_ ?_ ?_ hdk
                · have d1 := mem_meaFields (mem_of_lookup hv)
                  have d2 := mem_meaFields (mem_of_lookup hw)
                  omega
                · exact (strictFieldsB_iff fs).mp hsa3.2 _ (mem_of_lookup hv)
                · exact (strictFieldsB_iff gs).mp hsb3.2 _ (mem_of_lookup hw)
                · have h3 := List.all_eq_true.mp hk2 (k, v) (mem_of_lookup hv)
                  simp only [hw] at h3
                  exact h3
              exact congrArg Json.obj (assoc_ext fs gs hkeyeq hndf hlke)

/-! ## The claims -/

/-- C1 (corrected): the structural diff of two canonical snapshots is empty
exactly when they are deep-equal, PROVIDED both values are strictly sorted
with pairwise-distinct identity keys (`strictB`) and the traversal never
pits an array against a non-array object (`kindMatched`).  Without those
side conditions the equivalence fails (see the counterexample: an array and
an object with the same indexed entries diff as empty). -/
theorem claim_C1 (a b : Json) (ha : a.strictB = true) (hb : b.strictB = true)
    (hk : kindMatched a b = true) :
    findJsonDifferences a b "" = [] ↔ a = b := by
  constructor
  · intro hd
    exact diff_complete (a.mea + b.mea) a b "" le_rfl ha hb hk hd
  · intro h
    subst h
    exact diff_refl _ _ _

/-- Witness for C1 at a concrete strict snapshot. -/
theorem claim_C1_witness :
    (Json.obj [("name", Json.str "a")]).strictB = true
    ∧ kindMatched (Json.obj [("name", Json.str "a")]) (Json.obj [("name", Json.str "a")])
        = true
    ∧ (findJsonDifferences (Json.obj [("name", Json.str "a")])
          (Json.obj [("name", Json.str "a")]) "" = []
        ↔ (Json.obj [("name", Json.str "a")] : Json) = Json.obj [("name", Json.str "a")]) :=
  ⟨by decide, by decide, claim_C1 _ _ (by decide) (by decide) (by decide)⟩

/-- Counterexample to C1 as frozen: both sides are canonical
(each is its own `normalizeProbeResult`), they are not equal, yet the diff
is empty — an array and a non-array object share `typeof "object"` and are
compared key-wise, where the array's `Object.keys` view `{"0": 1}` matches. -/
theorem claim_C1_counterexample :
    findJsonDifferences (normalizeProbeResult (Json.arr [Json.num 1]))
        (normalizeProbeResult (Json.obj [("0", Json.num 1)])) "" = []
    ∧ normalizeProbeResult (Json.arr [Json.num 1])
        ≠ normalizeProbeResult (Json.obj [("0", Json.num 1)]) := by decide

/-- C2 (corrected): the canonicalizer's sort key follows exactly the
priority the specification states (name, uri, uriTemplate, type, method,
then the canonical serialization; scalars are their own string form) — but
the diff engine's matching key does not (see the counterexample). -/
theorem claim_C2 : ∀ j : Json, getSortKey j = specIdentityKey j := by
  intro j
  cases j <;> rfl

/-- Counterexample to C2 as frozen: for a record with only a `type` field
the spec priority yields the `type` value, but `getItemKey` (the diff
engine's key) requires `type` AND `text` together and otherwise falls back
to the positional `#index`, so the two keys diverge. -/
theorem claim_C2_counterexample :
    getItemKey (Json.obj [("type", Json.str "x")]) 0 = "#0"
    ∧ specIdentityKey (Json.obj [("type", Json.str "x")]) = "x"
    ∧ getItemKey (Json.obj [("type", Json.str "x")]) 0
        ≠ specIdentityKey (Json.obj [("type", Json.str "x")]) := by decide

/-- C3 (confirmed): canonicalization is idempotent, including the
embedded-JSON `text` rule: the first pass re-serializes a parsed `text`
payload canonically and the second pass parses that serialization back to
the same canonical value. -/
theorem claim_C3 (v : Json) :
    normalizeProbeResult (normalizeProbeResult v) = normalizeProbeResult v :=
  norm_idem v

/-- C4 (corrected): canonicalization reorders the recursively canonicalized
elements into ascending sort-key order under `sortCmp` — the model of
`localeCompare`, which is case-insensitive with a lowercase-first
tiebreak — via a stable insertion sort.  The order is NOT the ordinal
string comparison the spec states (see the counterexample). -/
theorem claim_C4 (xs : List Json) :
    normalizeProbeResult (Json.arr xs)
      = Json.arr (List.insertionSort sortCmp (xs.map normalizeProbeResult))
    ∧ List.Sorted sortCmp (List.insertionSort sortCmp (xs.map normalizeProbeResult))
    ∧ List.Perm (List.insertionSort sortCmp (xs.map normalizeProbeResult))
        (xs.map normalizeProbeResult) :=
  ⟨normalize_arr xs, List.sorted_insertionSort _ _, List.perm_insertionSort _ _⟩

/-- Counterexample to C4 as frozen: ordinal comparison puts `"B"` (0x42)
before `"a"` (0x61), so an ordinal ascending sort of `["B", "a"]` keeps it
unchanged; canonicalization instead produces `["a", "B"]` because
`localeCompare` compares case-insensitively. -/
theorem claim_C4_counterexample :
    normalizeProbeResult (Json.arr [Json.str "B", Json.str "a"])
      = Json.arr [Json.str "a", Json.str "B"]
    ∧ charListLt "B".data "a".data = true := by decide

/-- C5 (confirmed): a `text` field whose trimmed string value begins with a
bracket or brace and parses as JSON is replaced by the canonical
re-serialization of the parse; on parse failure, and for strings that do
not begin with a bracket or brace, the value is unchanged. -/
theorem claim_C5 (s : String) (p : Json)
    (hb : strStartsWith (strTrim s) '[' = true ∨ strStartsWith (strTrim s) braceL = true)
    (hp : jsonParse s = some p) :
    normalizeFieldValue "text" (Json.str s)
        = Json.str (jsonToString (normalizeProbeResult p))
    ∧ (∀ t : String, jsonParse t = none →
        normalizeFieldValue "text" (Json.str t) = Json.str t)
    ∧ (∀ t : String, strStartsWith (strTrim t) '[' = false →
        strStartsWith (strTrim t) braceL = false →
        normalizeFieldValue "text" (Json.str t) = Json.str t) := by
  refine ⟨?_, ?_, ?_⟩
  · show (if ("text" : String) = "text" ∧ (strStartsWith (strTrim s) '[' = true
        ∨ strStartsWith (strTrim s) braceL = true) then
        (match jsonParse s with
        | some parsed => Json.str (jsonToString (normalizeProbeResult parsed))
        | none => Json.str s)
      else Json.str s) = Json.str (jsonToString (normalizeProbeResult p))
    rw [if_pos ⟨rfl, hb⟩, hp]
  · intro t ht
    show (if ("text" : String) = "text" ∧ (strStartsWith (strTrim t) '[' = true
        ∨ strStartsWith (strTrim t) braceL = true) then
        (match jsonParse t with
        | some parsed => Json.str (jsonToString (normalizeProbeResult parsed))
        | none => Json.str t)
      else Json.str t) = Json.str t
    split_ifs with hc
    · rw [ht]
    · rfl
  · intro t h1 h2
    show (if ("text" : String) = "text" ∧ (strStartsWith (strTrim t) '[' = true
        ∨ strStartsWith (strTrim t) braceL = true) then
        (match jsonParse t with
        | some parsed => Json.str (jsonToString (normalizeProbeResult parsed))
        | none => Json.str t)
      else Json.str t) = Json.str t
    rw [if_neg]
    rintro ⟨_, hor⟩
    rcases hor with h3 | h3
    · rw [h1] at h3
      exact Bool.noConfusion h3
    · rw [h2] at h3
      exact Bool.noConfusion h3

/-- Witness for C5: the spec's own example — a `text` field holding
`{"b":1,"a":2}` canonicalizes to one holding `{"a":2,"b":1}`. -/
theorem claim_C5_witness :
    (strStartsWith (strTrim "\x7b\"b\":1,\"a\":2\x7d") '[' = true
      ∨ strStartsWith (strTrim "\x7b\"b\":1,\"a\":2\x7d") braceL = true)
    ∧ jsonParse "\x7b\"b\":1,\"a\":2\x7d"
        = some (Json.obj [("b", Json.num 1), ("a", Json.num 2)])
    ∧ normalizeFieldValue "text" (Json.str "\x7b\"b\":1,\"a\":2\x7d")
        = Json.str "\x7b\"a\":2,\"b\":1\x7d" := by
  refine ⟨Or.inr (by decide), by decide, ?_⟩
  have h := (claim_C5 "\x7b\"b\":1,\"a\":2\x7d"
    (Json.obj [("b", Json.num 1), ("a", Json.num 2)])
    (Or.inr (by decide)) (by decide)).1
  rw [h]
  decide

/-- C6 (corrected): when the two values have different `typeof` kinds (and
neither is `null`), the diff is exactly one removed and one added entry at
the path — a replacement, no recursion.  But an array versus a non-array
object is NOT such a case: both have `typeof "object"` and are compared
key-wise (see the counterexample), so the claim's parenthetical is wrong. -/
theorem claim_C6 (a b : Json) (path : String) (ha : a ≠ Json.null)
    (hb : b ≠ Json.null) (ht : jsTypeof a ≠ jsTypeof b) :
    findJsonDifferences a b path =
      ["- " ++ rootPath path ++ ": " ++ formatValue a,
        "+ " ++ rootPath path ++ ": " ++ formatValue b] := by
  unfold findJsonDifferences
  have hf : a.mea + b.mea = (a.mea + b.mea - 1) + 1 := by
    have := mea_pos a
    have := mea_pos b
    omega
  rw [hf, findJsonDifferencesF_succ, if_neg ha, if_neg hb, if_pos ht]

/-- Witness for C6 at a number against a string. -/
theorem claim_C6_witness :
    (Json.num 1 ≠ Json.null) ∧ (Json.str "x" ≠ Json.null)
    ∧ jsTypeof (Json.num 1) ≠ jsTypeof (Json.str "x")
    ∧ findJsonDifferences (Json.num 1) (Json.str "x") "p"
        = ["- p: 1", "+ p: \"x\""] := by
  refine ⟨by decide, by decide, by decide, ?_⟩
  rw [claim_C6 (Json.num 1) (Json.str "x") "p" (by decide) (by decide) (by decide)]
  decide

/-- Counterexample to C6 as frozen: an array on one side and a non-array
object on the other share `typeof "object"`; the engine recurses key-wise
over the array's index keys instead of emitting a removed/added pair, and
here finds nothing at all. -/
theorem claim_C6_counterexample :
    jsTypeof (Json.arr [Json.bool true]) = jsTypeof (Json.obj [("0", Json.bool true)])
    ∧ findJsonDifferences (Json.arr [Json.bool true])
        (Json.obj [("0", Json.bool true)]) "p" = [] := by decide

/-- C7 (confirmed): a failed connection yields a snapshot whose only
populated field is the error string — every section is absent and the
custom-response map is empty. -/
theorem claim_C7 (c : ClientBehavior) (e : String) (h : c.connect = .error e) :
    probeServer c =
      { initInfo := none
        instructions := none
        tools := none
        prompts := none
        resources := none
        resourceTemplates := none
        customResponses := []
        error := some e } := by
  unfold probeServer
  rw [h]

/-- Witness for C7 at a concrete failing connection. -/
theorem claim_C7_witness :
    ({ connect := .error "boom" } : ClientBehavior).connect = .error "boom"
    ∧ probeServer { connect := .error "boom" } =
      { initInfo := none
        instructions := none
        tools := none
        prompts := none
        resources := none
        resourceTemplates := none
        customResponses := []
        error := some "boom" } :=
  ⟨rfl, claim_C7 _ "boom" rfl⟩

/-- C8 (corrected): a failing probe is classified `errored` by the
markdown report (via the reserved `error` diff key), but
`runSingleConfigTest` also sets `hasDifferences`, and the report's
`passedCount`/`diffCount` partition results by `hasDifferences` alone, so
an errored configuration is counted in `diffCount` — the error and
differences-found outcomes are conflated in the counts. -/
theorem claim_C8 (name : String) (br ba : ProbeResult)
    (h : strTruthy br.error = true) :
    (runSingleConfigTest name br ba).hasDifferences = true
    ∧ classifyResult (runSingleConfigTest name br ba) = .errored
    ∧ (generateReport [runSingleConfigTest name br ba]).diffCount = 1
    ∧ (generateReport [runSingleConfigTest name br ba]).passedCount = 0 := by
  have hr : runSingleConfigTest name br ba =
      { configName := name
        hasDifferences := true
        diffs := [("error", "Current branch probe failed: " ++ br.error.getD "")] } := by
    unfold runSingleConfigTest
    rw [if_pos h]
  refine ⟨by rw [hr], ?_, ?_, ?_⟩
  · rw [hr]
    unfold classifyResult
    rw [if_pos]
    exact Or.inr (by
      show mapHas [("error", "Current branch probe failed: " ++ br.error.getD "")] "error"
        = true
      unfold mapHas
      rw [lookup_cons_eq]
      rfl)
  · rw [hr]
    rfl
  · rw [hr]
    rfl

/-- Witness for C8 at a concrete failing branch probe. -/
theorem claim_C8_witness :
    strTruthy ({ error := some "x" } : ProbeResult).error = true
    ∧ (runSingleConfigTest "c" { error := some "x" } { }).hasDifferences = true
    ∧ classifyResult (runSingleConfigTest "c" { error := some "x" } { }) = .errored
    ∧ (generateReport [runSingleConfigTest "c" { error := some "x" } { }]).diffCount = 1 := by
  have h := claim_C8 "c" { error := some "x" } { } (by decide)
  exact ⟨by decide, h.1, h.2.1, h.2.2.1⟩

/-- Counterexample to C8 as frozen: an errored result and a genuine-diff
result are classified differently, yet the report counts both in
`diffCount` and neither in `passedCount` — the counts conflate the two
outcomes. -/
theorem claim_C8_counterexample :
    classifyResult ⟨"c", true, [("error", "Current branch probe failed: x")], none⟩
      = .errored
    ∧ classifyResult ⟨"d", true, [("tools", "changed")], none⟩ = .changed
    ∧ (generateReport [⟨"c", true, [("error", "Current branch probe failed: x")], none⟩,
        ⟨"d", true, [("tools", "changed")], none⟩]).diffCount = 2
    ∧ (generateReport [⟨"c", true, [("error", "Current branch probe failed: x")], none⟩,
        ⟨"d", true, [("tools", "changed")], none⟩]).passedCount = 0 := by decide

/-- C9 (confirmed): canonicalization preserves content — an object
canonicalizes to an object whose key list is a permutation of the input's,
and an array to a permutation of its element-wise canonicalizations. -/
theorem claim_C9 :
    (∀ fs : List (String × Json), ∃ L, normalizeProbeResult (Json.obj fs) = Json.obj L
      ∧ List.Perm (L.map Prod.fst) (fs.map Prod.fst))
    ∧ (∀ xs : List Json, ∃ ys, normalizeProbeResult (Json.arr xs) = Json.arr ys
      ∧ List.Perm ys (xs.map normalizeProbeResult)) := by
  constructor
  · intro fs
    refine ⟨_, normalize_obj fs, ?_⟩
    have h1 : ((List.insertionSort fieldLe fs).map
          (fun kv => (kv.1, normalizeFieldValue kv.1 kv.2))).map Prod.fst
        = (List.insertionSort fieldLe fs).map Prod.fst := by
      rw [List.map_map]
      rfl
    rw [h1]
    exact (List.perm_insertionSort _ _).map _
  · intro xs
    exact ⟨_, normalize_arr xs, List.perm_insertionSort _ _⟩

theorem instructions_ne_custom (x : String) : ("instructions" : String) ≠ "custom_" ++ x := by
  intro he
  have hd := congrArg String.data he
  rw [String.data_append] at hd
  rw [show ("custom_" : String).data = 'c' :: ['u', 's', 't', 'o', 'm', '_'] from rfl] at hd
  rw [show ("instructions" : String).data
    = 'i' :: ['n', 's', 't', 'r', 'u', 'c', 't', 'i', 'o', 'n', 's'] from rfl] at hd
  simp at hd

theorem lookup_custom_foldl (rs : List (String × Json)) :
    ∀ m : List (String × String),
    ((rs.foldl (fun fs p =>
        mapSet fs ("custom_" ++ p.1) (jsonToStringPretty 0 (normalizeProbeResult p.2))) m)
      ).lookup "instructions" = m.lookup "instructions" := by
  induction rs with
  | nil => intro m; rfl
  | cons p rs ih =>
    intro m
    rw [List.foldl_cons, ih, lookup_mapSet_ne _ _ _ _ (instructions_ne_custom p.1)]

/-- C10 (confirmed): the `instructions` section is persisted verbatim (the
other sections are canonicalized and pretty-printed), and when either blob
of a differing pair fails to parse as JSON the comparison falls back to the
positional line diff. -/
theorem claim_C10 :
    (∀ (r : ProbeResult) (s : String), r.instructions = some s → s ≠ "" →
      (probeResultToFiles r).lookup "instructions" = some s)
    ∧ (∀ (name base branch : String), jsonParse base = none ∨ jsonParse branch = none →
      generateJsonDiff name base branch = generateSimpleTextDiff name base branch) := by
  constructor
  · intro r s hs hne
    unfold probeResultToFiles
    rw [lookup_custom_foldl]
    rw [hs]
    rw [show (match some s with
      | some s => if s ≠ "" then [("instructions", s)] else []
      | none => ([] : List (String × String))) = if s ≠ "" then [("instructions", s)] else []
      from rfl]
    rw [show (if s ≠ "" then [("instructions", s)] else []) = [("instructions", s)]
      from if_pos hne]
    rcases hi : r.initInfo with _ | v
    · simp only [List.append_assoc, List.nil_append, List.singleton_append,
        List.cons_append]
      rw [lookup_cons_eq]
    · simp only [List.append_assoc, List.nil_append, List.singleton_append,
        List.cons_append]
      rw [lookup_cons_ne _ _ (by decide), lookup_cons_eq]
  · intro name base branch h
    unfold generateJsonDiff
    rcases hb : jsonParse base with _ | pb
    · rfl
    · rcases hc : jsonParse branch with _ | pc
      · rfl
      · rcases h with h | h
        · rw [hb] at h
          exact Option.noConfusion h
        · rw [hc] at h
          exact Option.noConfusion h

/-- Witness for C10: a concrete snapshot keeps its instructions verbatim,
and a non-JSON blob falls back to the text diff. -/
theorem claim_C10_witness :
    (({ instructions := some "hello" } : ProbeResult).instructions = some "hello")
    ∧ (probeResultToFiles { instructions := some "hello" }).lookup "instructions"
        = some "hello"
    ∧ jsonParse "notjson" = none
    ∧ generateJsonDiff "t" "notjson" "[1]" = generateSimpleTextDiff "t" "notjson" "[1]" :=
  ⟨rfl, claim_C10.1 _ "hello" rfl (by decide), by decide,
    claim_C10.2 "t" "notjson" "[1]" (Or.inl (by decide))⟩
